import Mathlib

/-!
Verification of the numpoly polynomial-array algebra: a shallow embedding of
the alignment protocol (`align.py`), the elementwise `add` wrapper, the
`vstack` stacking helper and `decompose`, together with proofs of the
specified properties.  Coefficient values are modelled exactly (as integers);
dtypes are modelled as tags with the standard promotion order.
-/

namespace Numpoly

/-- Numeric coefficient dtypes appearing in the repository's doctests.
`int64` is the default integer dtype, `float64` the promoted float dtype. -/
inductive Dtype
  | int64
  | float64
deriving DecidableEq

/-- Standard numeric promotion of two dtypes: any float operand makes the
result float. -/
def Dtype.promote : Dtype → Dtype → Dtype
  | .float64, _ => .float64
  | _, .float64 => .float64
  | .int64, .int64 => .int64

/-- Broadcasting of a single dimension pair: equal dimensions broadcast to
themselves, a dimension of 1 broadcasts to the other dimension. -/
def broadcastDim (a b : Nat) : Option Nat :=
  if a = b then some a
  else if a = 1 then some b
  else if b = 1 then some a
  else none

/-- Broadcasting of two reversed shape lists (trailing dimension first). -/
def bcastR : List Nat → List Nat → Option (List Nat)
  | [], t => some t
  | s, [] => some s
  | a :: s, b :: t => do
    let d ← broadcastDim a b
    let r ← bcastR s t
    some (d :: r)

/-- Common broadcast shape of two shapes, aligned at the trailing dimension. -/
def broadcastShapes (s t : List Nat) : Option (List Nat) :=
  (bcastR s.reverse t.reverse).map List.reverse

/-- All multi-indices of a shape, enumerated in row-major order. -/
def allIndices : List Nat → List (List Nat)
  | [] => [[]]
  | d :: ds => (List.range d).flatMap (fun i => (allIndices ds).map (fun ix => i :: ix))

/-- Row-major flat index of a multi-index inside a shape. -/
def flatIndex : List Nat → List Nat → Nat
  | _ :: ds, i :: ix => i * ds.prod + flatIndex ds ix
  | _, _ => 0

/-- Validity of a multi-index for a shape. -/
def validIx (s ix : List Nat) : Prop :=
  ix.length = s.length ∧ ∀ k, ix.getD k 0 < s.getD k 1

/-- Dense numeric array: a shape, a dtype tag and row-major data.  Values are
modelled exactly as integers. -/
structure NDArray where
  shape : List Nat
  dtype : Dtype
  data : List Int
deriving DecidableEq

namespace NDArray

/-- Element at a multi-index (0 outside the stored data). -/
def get (a : NDArray) (ix : List Nat) : Int :=
  a.data.getD (flatIndex a.shape ix) 0

/-- Source multi-index of a broadcast element: keep the trailing coordinates
and collapse every coordinate of a size-1 dimension to 0. -/
def srcIndex (s ix : List Nat) : List Nat :=
  (s.zip (ix.drop (ix.length - s.length))).map (fun p => if p.1 = 1 then 0 else p.2)

/-- Element of `a` seen at multi-index `ix` of a broadcast target shape. -/
def bget (a : NDArray) (ix : List Nat) : Int :=
  a.get (srcIndex a.shape ix)

/-- Elementwise binary operation with dense-array broadcasting and dtype
promotion; fails when the shapes are incompatible. -/
def binopB (f : Int → Int → Int) (a b : NDArray) : Option NDArray :=
  (broadcastShapes a.shape b.shape).map (fun s =>
    ⟨s, a.dtype.promote b.dtype, (allIndices s).map (fun ix => f (a.bget ix) (b.bget ix))⟩)

/-- Broadcasting multiplication, as in `coeff*common`. -/
def mulB (a b : NDArray) : Option NDArray := binopB (· * ·) a b

/-- Addition of two arrays of one common shape, as in coefficient
deduplication. -/
def addSame (a b : NDArray) : NDArray :=
  ⟨a.shape, a.dtype.promote b.dtype, a.data.zipWith (· + ·) b.data⟩

/-- The all-ones integer array of a shape, as in `numpy.ones(shape, dtype=int)`. -/
def ones (s : List Nat) : NDArray := ⟨s, .int64, List.replicate s.prod 1⟩

/-- The all-zero array of a shape and dtype, as in `numpy.zeros(shape, dtype)`. -/
def zeros (s : List Nat) (dt : Dtype) : NDArray := ⟨s, dt, List.replicate s.prod 0⟩

/-- A plain python integer scalar. -/
def intScalar (n : Int) : NDArray := ⟨[], .int64, [n]⟩

/-- An array is structurally zero when every stored value is zero. -/
def isZero (a : NDArray) : Bool := a.data.all (· = 0)

end NDArray

/-- The polynomial-array data model: indeterminate names, one exponent tuple
per term slot, one coefficient array per term slot, with a common shape and
dtype. -/
structure PolynomialArray where
  names : List String
  exponents : List (List Nat)
  coefficients : List NDArray
  shape : List Nat
  dtype : Dtype
deriving DecidableEq

/-- Well-formedness invariants of the data model (arity, parallel slot lists,
shape and dtype homogeneity, term-slot uniqueness, name uniqueness). -/
def WF (p : PolynomialArray) : Prop :=
  p.exponents.length = p.coefficients.length ∧
  p.coefficients ≠ [] ∧
  (∀ e ∈ p.exponents, e.length = p.names.length) ∧
  (∀ c ∈ p.coefficients, c.shape = p.shape ∧ c.dtype = p.dtype ∧
    c.data.length = p.shape.prod) ∧
  p.exponents.Nodup ∧ p.names.Nodup

instance (p : PolynomialArray) : Decidable (WF p) := by
  unfold WF; infer_instance

/-- Modelled from the spec: `isconstant` is not under `src/`; per the data
model a constant polynomial array is one whose only non-absent (nonzero)
term slots carry the all-zero exponent tuple. -/
def PolynomialArray.isconstant (p : PolynomialArray) : Bool :=
  (p.exponents.zip p.coefficients).all (fun pr => pr.2.isZero || pr.1.all (· = 0))

/-- Merge one term into an accumulated term list, summing coefficients of an
already-present exponent tuple. -/
def addInto : List (List Nat × NDArray) → List Nat → NDArray → List (List Nat × NDArray)
  | [], e, c => [(e, c)]
  | (e0, c0) :: rest, e, c =>
    if e0 = e then (e0, c0.addSame c) :: rest
    else (e0, c0) :: addInto rest e c

/-- Deduplicate a term list: group by exponent tuple in first-encounter order,
summing coefficients within a group. -/
def dedupTerms (ts : List (List Nat × NDArray)) : List (List Nat × NDArray) :=
  ts.foldl (fun acc pr => addInto acc pr.1 pr.2) []

/-- Drop structurally-zero term slots, retaining a single all-zero-exponent
slot with zero coefficient when every slot would be dropped. -/
def cleanTerms (arity : Nat) (shape : List Nat) (dt : Dtype)
    (ts : List (List Nat × NDArray)) : List (List Nat × NDArray) :=
  let kept := ts.filter (fun pr => !pr.2.isZero)
  if kept.isEmpty then [(List.replicate arity 0, NDArray.zeros shape dt)] else kept

/-- Resolve the dtype of a construction: the requested dtype when given, the
promotion of the coefficient dtypes otherwise. -/
def resolveDtype (dtypeReq : Option Dtype) (coefficients : List NDArray) : Dtype :=
  dtypeReq.getD (coefficients.foldl (fun d c => d.promote c.dtype) .int64)

/-- Cast an array to a dtype (value-preserving in this exact-value model). -/
def castTo (dt : Dtype) (c : NDArray) : NDArray := { c with dtype := dt }

/-- Modelled from the spec: the normalizing constructor
`ndpoly.from_attributes` is not under `src/`.  Per spec section 4.1 it
validates arity and coefficient homogeneity, resolves the dtype (the
promotion of the coefficient dtypes unless one is requested), and in clean
mode deduplicates exponent tuples by summing coefficients in first-encounter
order and drops structurally-zero slots while never leaving zero slots;
callers that have already guaranteed no duplicates disable cleaning, and the
term slots then pass through positionally unchanged. -/
def from_attributes (exponents : List (List Nat)) (coefficients : List NDArray)
    (names : List String) (dtypeReq : Option Dtype) (clean : Bool) :
    Option PolynomialArray :=
  match coefficients with
  | [] => none
  | c0 :: rest =>
    if exponents.length = (c0 :: rest).length ∧
        (∀ e ∈ exponents, e.length = names.length) ∧
        (∀ c ∈ c0 :: rest, c.shape = c0.shape) then
      let dt := resolveDtype dtypeReq (c0 :: rest)
      let ts0 := exponents.zip ((c0 :: rest).map (castTo dt))
      let ts := if clean then cleanTerms names.length c0.shape dt (dedupTerms ts0)
        else ts0
      some ⟨names, ts.map Prod.fst, ts.map Prod.snd, c0.shape, dt⟩
    else none

/-- Modelled from the spec: `clean_attributes` is not under `src/`; it
re-normalizes an existing polynomial array (deduplication plus cleaning). -/
def clean_attributes (p : PolynomialArray) : Option PolynomialArray :=
  from_attributes p.exponents p.coefficients p.names (some p.dtype) true

/-- Lexicographic order on character lists, by code point. -/
def lexLe : List Char → List Char → Bool
  | [], _ => true
  | _ :: _, [] => false
  | a :: as, b :: bs =>
    if a.toNat < b.toNat then true
    else if b.toNat < a.toNat then false
    else lexLe as bs

/-- Lexicographic order on names, as python string comparison. -/
def nameLe (a b : String) : Bool := lexLe a.data b.data

/-- Insert a name into a sorted list of names. -/
def insertSorted (a : String) : List String → List String
  | [] => [a]
  | b :: bs => if nameLe a b then a :: b :: bs else b :: insertSorted a bs

/-- Sort a list of names lexicographically, as python `sorted`. -/
def sortNames (l : List String) : List String := l.foldr insertSorted []

/-- The body of the `common` accumulator loop of `align_shape`: inputs of
size zero are skipped, every other input contributes its coefficient shape
through a broadcasting multiplication with an all-ones array. -/
def commonStep (acc : NDArray) (p : PolynomialArray) : Option NDArray :=
  if p.shape.prod ≠ 0 then do
    let c0 ← p.coefficients[0]?
    NDArray.mulB (NDArray.ones c0.shape) acc
  else pure acc

/-- Shape alignment, from `align.py`: broadcast all coefficient arrays of
positive-size inputs against each other via multiplication with an all-ones
array, then rebuild each input. -/
def align_shape (polys : List PolynomialArray) : Option (List PolynomialArray) := do
  let common ← polys.foldlM commonStep (NDArray.intScalar 1)
  polys.mapM (fun p => do
    let coeffs ← p.coefficients.mapM (fun c => NDArray.mulB c common)
    from_attributes p.exponents coeffs p.names none true)

/-- The sorted deduplicated union of the names of all non-constant inputs,
from `align.py`. -/
def commonNames (polys : List PolynomialArray) : List String :=
  sortNames ((polys.filter (fun p => !p.isconstant)).flatMap (fun p => p.names)).dedup

/-- Scatter the columns of an exponent row into the listed positions of a
zero row of the given width, as `exponents[:, indices] = poly.exponents`. -/
def assignCols (width : Nat) (indices : List Nat) (row : List Nat) : List Nat :=
  (List.range width).map (fun j =>
    match indices.indexOf? j with
    | some k => row.getD k 0
    | none => 0)

/-- Indeterminant alignment, from `align.py`: rebuild every input over the
sorted union of the names of the non-constant inputs, re-indexing exponent
tuples and zero-filling positions of unused names; inputs are returned
unchanged when the union is empty. -/
def align_indeterminants (polys : List PolynomialArray) :
    Option (List PolynomialArray) :=
  let cn := commonNames polys
  if cn.isEmpty then some polys else
  polys.mapM (fun p =>
    let indices := (p.names.filter (fun n => n ∈ cn)).map (fun n => cn.indexOf n)
    if indices.isEmpty then
      from_attributes (p.exponents.map (fun _ => List.replicate cn.length 0))
        p.coefficients cn none false
    else if indices.length = p.names.length then
      from_attributes (p.exponents.map (assignCols cn.length indices))
        p.coefficients cn none false
    else none)

/-- The stable union of the exponent tuples of the inputs: the first input's
tuples in order, then each later input's tuples not already present, in order
of first encounter. -/
def globalExponents (p0exps : List (List Nat)) (rest : List PolynomialArray) :
    List (List Nat) :=
  rest.foldl (fun acc p => acc ++ p.exponents.filter (fun e => e ∉ acc)) p0exps

/-- Last-wins association lookup of a coefficient by exponent tuple, as a
python dict built from the slot list. -/
def lookupCoeff (p : PolynomialArray) (t : List Nat) : Option NDArray :=
  (((p.exponents.zip p.coefficients).filter (fun pr => pr.1 = t)).getLast?).map
    Prod.snd

/-- Exponent alignment, from `align.py`: after ensuring one common name list,
rebuild every input over the stable union of all exponent tuples, taking the
input's coefficient where the tuple is present and the input's own all-zero
array where it is absent. -/
def align_exponents (polys : List PolynomialArray) :
    Option (List PolynomialArray) := do
  let polys ←
    match polys with
    | [] => none
    | p0 :: _ =>
      if polys.all (fun p => p.names = p0.names) then some polys
      else align_indeterminants polys
  match polys with
  | [] => none
  | p0 :: rest =>
    let ge := globalExponents p0.exponents rest
    (p0 :: rest).mapM (fun p =>
      from_attributes ge
        (ge.map (fun t => (lookupCoeff p t).getD (NDArray.zeros p.shape p.dtype)))
        p.names none false)

/-- The dtype obtained by summing one value of each input's dtype together. -/
def sumDtype : List Dtype → Dtype
  | [] => .float64
  | d :: rest => rest.foldl Dtype.promote d

/-- Dtype alignment, from `align.py`: rebuild every input with its
coefficients cast to the common promoted dtype. -/
def align_dtype (polys : List PolynomialArray) : Option (List PolynomialArray) :=
  let dt := sumDtype (polys.map (fun p => p.dtype))
  polys.mapM (fun p =>
    from_attributes p.exponents p.coefficients p.names (some dt) false)

/-- Top-level alignment orchestrator, from `align.py`: shape, then
indeterminants, then exponents, then dtype. -/
def align_polynomials (polys : List PolynomialArray) :
    Option (List PolynomialArray) := do
  let polys ← align_shape polys
  let polys ← align_indeterminants polys
  let polys ← align_exponents polys
  align_dtype polys

/-- Modelled from the spec: the raw `ndpoly` buffer constructor is not under
`src/`; it allocates one coefficient buffer per exponent tuple of the given
shape and dtype (buffers are modelled zero-initialized). -/
def ndpolyNew (exponents : List (List Nat)) (shape : List Nat)
    (names : List String) (dt : Dtype) : PolynomialArray :=
  ⟨names, exponents, exponents.map (fun _ => NDArray.zeros shape dt), shape, dt⟩

/-- Masked elementwise addition written into an output buffer, as
`numpy.add(a, b, out=o, where=w)`: positions where the mask holds receive the
sum, the others retain the buffer's value; the result keeps the buffer's
dtype. -/
def NDArray.addWhere (a b o : NDArray) (w : Nat → Bool) : NDArray :=
  ⟨o.shape, o.dtype,
   (List.range o.data.length).map (fun i =>
     if w i then a.data.getD i 0 + b.data.getD i 0 else o.data.getD i 0)⟩

/-- Write the masked slot sums of two aligned polynomial arrays into the slots
of an output polynomial array, one term slot at a time, as the `for key in
x1.keys` loop of `add.py`; fails when the output lacks one of the keys. -/
def writeSlotSums (y1 y2 o : PolynomialArray) (w : Nat → Bool) :
    Option PolynomialArray :=
  (y1.exponents.zip (y1.coefficients.zip y2.coefficients)).foldlM
    (fun acc pr => do
      let i ← acc.exponents.indexOf? pr.1
      let oc ← acc.coefficients[i]?
      some { acc with
        coefficients := acc.coefficients.set i (NDArray.addWhere pr.2.1 pr.2.2 oc w) })
    o

/-- Elementwise addition, from `add.py`: align the two inputs, apply masked
coefficientwise addition slot by slot into the output buffer (a fresh buffer
when none is supplied), and clean the result only when no explicit output was
supplied. -/
def add (x1 x2 : PolynomialArray) (out : Option PolynomialArray)
    (w : Nat → Bool) : Option PolynomialArray := do
  let polys ← align_polynomials [x1, x2]
  match polys with
  | [y1, y2] =>
    match out with
    | none => do
      let res ← writeSlotSums y1 y2
        (ndpolyNew y1.exponents y1.shape y1.names y1.dtype) w
      clean_attributes res
    | some o => writeSlotSums y1 y2 o w
  | _ => none

/-- The alignment performed by `vstack.py` before concatenation: exponent
alignment followed by dtype alignment. -/
def vstack_aligned (tup : List PolynomialArray) : Option (List PolynomialArray) := do
  let arrays ← align_exponents tup
  align_dtype arrays

/-- Shape of an array promoted to at least two dimensions, as the reshaping
`numpy.vstack` applies to 0-D and 1-D inputs. -/
def atleast2dShape : List Nat → List Nat
  | [] => [1, 1]
  | [n] => [1, n]
  | s => s

/-- Concatenate dense arrays along the first axis after promoting each to at
least two dimensions, as `numpy.vstack` on the aligned values. -/
def vstackArrays (cs : List NDArray) : Option NDArray :=
  match cs with
  | [] => none
  | c0 :: _ =>
    let t := (atleast2dShape c0.shape).tail
    if cs.all (fun c => (atleast2dShape c.shape).tail = t) then
      some ⟨(cs.map (fun c => (atleast2dShape c.shape).headD 0)).sum :: t,
            c0.dtype, (cs.map (fun c => c.data)).flatten⟩
    else none

/-- Stack polynomial arrays vertically, from `vstack.py`: align exponents and
dtypes, stack the coefficient arrays of each term slot, and rebuild with the
first aligned array's names. -/
def vstack (tup : List PolynomialArray) : Option PolynomialArray := do
  let arrays ← vstack_aligned tup
  match arrays with
  | [] => none
  | a0 :: _ => do
    let coeffs ← (List.range a0.exponents.length).mapM (fun j =>
      vstackArrays (arrays.map (fun a => a.coefficients.getD j (NDArray.zeros [] a.dtype))))
    let c0 ← coeffs[0]?
    some ⟨a0.names, a0.exponents, coeffs, c0.shape, a0.dtype⟩

/-- Concatenate dense arrays along axis 0 (shapes must agree past the first
axis). -/
def concatArrays0 (cs : List NDArray) : Option NDArray :=
  match cs with
  | [] => none
  | c0 :: _ =>
    match c0.shape with
    | [] => none
    | _ :: tail =>
      if cs.all (fun c => c.shape.tail = tail ∧ c.shape ≠ []) then
        some ⟨(cs.map (fun c => c.shape.headD 0)).sum :: tail, c0.dtype,
              (cs.map (fun c => c.data)).flatten⟩
      else none

/-- Concatenation of reconciled polynomial arrays: stack the coefficient
arrays of each term slot along axis 0 and rebuild with the first input's
attributes. -/
def concatCore : List PolynomialArray → Option PolynomialArray
  | [] => none
  | p0 :: rest => do
    let coeffs ← (List.range p0.exponents.length).mapM (fun j =>
      concatArrays0 ((p0 :: rest).map
        (fun p => p.coefficients.getD j (NDArray.zeros [] p.dtype))))
    let c0 ← coeffs[0]?
    some ⟨p0.names, p0.exponents, coeffs, c0.shape, p0.dtype⟩

/-- Modelled from the spec: `numpoly.concatenate` is not under `src/`; like
the other stacking helpers it reconciles the inputs by exponent and dtype
alignment and then concatenates the coefficient arrays along axis 0. -/
def concatenate (ps : List PolynomialArray) : Option PolynomialArray := do
  let ps ← align_exponents ps
  let ps ← align_dtype ps
  concatCore ps

/-- Prepend a new leading axis of extent 1 to a polynomial array, as indexing
with `numpy.newaxis`. -/
def newaxis (p : PolynomialArray) : PolynomialArray :=
  { p with shape := 1 :: p.shape,
           coefficients := p.coefficients.map (fun c => { c with shape := 1 :: c.shape }) }

/-- Decompose a polynomial array into per-term components, from
`decompose.py`: build one single-slot polynomial array per term slot, add a
leading axis to each, and concatenate them along axis 0. -/
def decompose (poly : PolynomialArray) : Option PolynomialArray := do
  let comps ← (poly.exponents.zip poly.coefficients).mapM (fun pr => do
    let c ← from_attributes [pr.1] [pr.2] poly.names none false
    some (newaxis c))
  concatenate comps

/-- Slice the block at position `i` of the leading axis of a polynomial
array. -/
def component0 (p : PolynomialArray) (i : Nat) : PolynomialArray :=
  { p with shape := p.shape.tail,
           coefficients := p.coefficients.map (fun c =>
             ⟨c.shape.tail, c.dtype,
              (c.data.drop (i * c.shape.tail.prod)).take c.shape.tail.prod⟩) }

/-- Value of one monomial under an assignment of integer values to the
indeterminate names. -/
def evalMonomial (f : String → Int) (names : List String) (e : List Nat) : Int :=
  ((names.zip e).map (fun pr => f pr.1 ^ pr.2)).prod

/-- Value of the polynomial at one array position under an assignment: the
sum over term slots of the coefficient there times the monomial value. -/
def PolynomialArray.evalAt (p : PolynomialArray) (f : String → Int)
    (ix : List Nat) : Int :=
  ((p.exponents.zip p.coefficients).map (fun pr =>
    pr.2.get ix * evalMonomial f p.names pr.1)).sum

/-! ### Basic dtype and construction lemmas -/

theorem Dtype.promote_int64_right (d : Dtype) : d.promote .int64 = d := by
  cases d <;> rfl

theorem Dtype.promote_int64_left (d : Dtype) : Dtype.promote .int64 d = d := by
  cases d <;> rfl

theorem Dtype.promote_self (d : Dtype) : d.promote d = d := by
  cases d <;> rfl

theorem castTo_self {c : NDArray} {dt : Dtype} (h : c.dtype = dt) :
    castTo dt c = c := by
  cases c; cases h; rfl

theorem foldl_promote_const {cs : List NDArray} {d : Dtype}
    (h : ∀ c ∈ cs, c.dtype = d) :
    cs.foldl (fun a c => a.promote c.dtype) d = d := by
  induction cs with
  | nil => rfl
  | cons c cs ih =>
    simp only [List.foldl_cons]
    rw [h c (by simp), Dtype.promote_self]
    exact ih (fun x hx => h x (by simp [hx]))

theorem resolveDtype_none_const {c0 : NDArray} {rest : List NDArray} {d : Dtype}
    (h : ∀ c ∈ c0 :: rest, c.dtype = d) :
    resolveDtype none (c0 :: rest) = d := by
  unfold resolveDtype
  simp only [Option.getD_none, List.foldl_cons]
  rw [h c0 (by simp), Dtype.promote_int64_left]
  exact foldl_promote_const (fun x hx => h x (by simp [hx]))

/-- Closed form of a non-cleaning construction: attributes pass through, with
the coefficients cast to the resolved dtype. -/
theorem from_attributes_false_eq {exps : List (List Nat)} {cs : List NDArray}
    {names : List String} {dtq : Option Dtype} {c0 : NDArray} {rest : List NDArray}
    (hc : cs = c0 :: rest)
    (hlen : exps.length = cs.length)
    (har : ∀ e ∈ exps, e.length = names.length)
    (hsh : ∀ c ∈ cs, c.shape = c0.shape) :
    from_attributes exps cs names dtq false =
      some ⟨names, exps, cs.map (castTo (resolveDtype dtq cs)), c0.shape,
            resolveDtype dtq cs⟩ := by
  subst hc
  have hl2 : exps.length =
      ((c0 :: rest).map (castTo (resolveDtype dtq (c0 :: rest)))).length := by
    simpa using hlen
  have hcond : exps.length = (c0 :: rest).length ∧
      (∀ e ∈ exps, e.length = names.length) ∧
      ∀ c ∈ c0 :: rest, c.shape = c0.shape := ⟨hlen, har, hsh⟩
  simp only [from_attributes, Bool.false_eq_true, if_false]
  rw [List.map_fst_zip _ _ hl2.le, List.map_snd_zip _ _ hl2.ge, if_pos hcond]

/-! ### Lookup and stable-union lemmas -/

theorem mapM_eq_some_map {α β : Type} (f : α → Option β) (g : α → β)
    (l : List α) (h : ∀ a ∈ l, f a = some (g a)) :
    l.mapM f = some (l.map g) := by
  induction l with
  | nil => rfl
  | cons a as ih =>
    rw [List.mapM_cons, h a (by simp), ih (fun x hx => h x (by simp [hx]))]
    rfl

theorem filter_fst_eq_nil {es : List (List Nat)} {cs : List NDArray}
    {t : List Nat} (ht : t ∉ es) :
    (es.zip cs).filter (fun pr => pr.1 = t) = [] := by
  induction es generalizing cs with
  | nil => simp
  | cons e es ih =>
    cases cs with
    | nil => simp
    | cons c cs =>
      have hne : e ≠ t := fun h => ht (by simp [h])
      simp only [List.zip_cons_cons, List.filter_cons, decide_eq_true_eq]
      rw [if_neg hne]
      exact ih (fun h => ht (by simp [h]))

theorem lookupCoeff_eq_none {p : PolynomialArray} {t : List Nat}
    (ht : t ∉ p.exponents) : lookupCoeff p t = none := by
  unfold lookupCoeff
  rw [filter_fst_eq_nil ht]
  rfl

theorem zip_filter_fst_single {es : List (List Nat)} {cs : List NDArray}
    (hnd : es.Nodup) (hlen : es.length = cs.length) {t : List Nat}
    (ht : t ∈ es) :
    ∃ (i : Nat) (c : NDArray), es[i]? = some t ∧ cs[i]? = some c ∧
      (es.zip cs).filter (fun pr => pr.1 = t) = [(t, c)] := by
  induction es generalizing cs with
  | nil => cases ht
  | cons e es ih =>
    cases cs with
    | nil => simp at hlen
    | cons c cs =>
      rcases List.mem_cons.mp ht with he | he
      · refine ⟨0, c, by simp [he], by simp, ?_⟩
        have hnotin : t ∉ es := fun hmem => (List.nodup_cons.mp hnd).1 (he ▸ hmem)
        simp only [List.zip_cons_cons, List.filter_cons, decide_eq_true_eq]
        rw [if_pos he.symm, filter_fst_eq_nil hnotin, he]
      · have hne : e ≠ t := fun h => (List.nodup_cons.mp hnd).1 (h ▸ he)
        obtain ⟨i, c2, h1, h2, h3⟩ :=
          ih (List.nodup_cons.mp hnd).2 (by simpa using hlen) he
        refine ⟨i + 1, c2, by simpa using h1, by simpa using h2, ?_⟩
        simp only [List.zip_cons_cons, List.filter_cons, decide_eq_true_eq]
        rw [if_neg hne]
        exact h3

theorem lookupCoeff_eq_of_mem {p : PolynomialArray} (hnd : p.exponents.Nodup)
    (hlen : p.exponents.length = p.coefficients.length) {t : List Nat}
    (ht : t ∈ p.exponents) :
    ∃ (i : Nat) (c : NDArray), p.exponents[i]? = some t ∧
      p.coefficients[i]? = some c ∧ lookupCoeff p t = some c := by
  obtain ⟨i, c, h1, h2, h3⟩ := zip_filter_fst_single hnd hlen ht
  exact ⟨i, c, h1, h2, by unfold lookupCoeff; rw [h3]; rfl⟩

theorem lookupCoeff_mem {p : PolynomialArray} {t : List Nat} {c : NDArray}
    (h : lookupCoeff p t = some c) : c ∈ p.coefficients := by
  unfold lookupCoeff at h
  obtain ⟨pr, hpr, hsnd⟩ := Option.map_eq_some'.mp h
  have hmem : pr ∈ (p.exponents.zip p.coefficients).filter (fun q => q.1 = t) :=
    List.mem_of_mem_getLast? hpr
  have := (List.of_mem_zip (List.mem_of_mem_filter hmem)).2
  simpa [hsnd] using this

theorem globalExponents_acc_mem {rest : List PolynomialArray}
    {acc : List (List Nat)} {e : List Nat} (he : e ∈ acc) :
    e ∈ rest.foldl (fun a p => a ++ p.exponents.filter (fun x => x ∉ a)) acc := by
  induction rest generalizing acc with
  | nil => exact he
  | cons p ps ih => exact ih (by simp [he])

theorem globalExponents_mem_src {rest : List PolynomialArray} :
    ∀ {acc : List (List Nat)} {e : List Nat},
      e ∈ rest.foldl (fun a p => a ++ p.exponents.filter (fun x => x ∉ a)) acc →
      e ∈ acc ∨ ∃ p ∈ rest, e ∈ p.exponents := by
  induction rest with
  | nil => exact fun h => Or.inl h
  | cons p ps ih =>
    intro acc e h
    rcases ih h with h2 | h2
    · rcases List.mem_append.mp h2 with h3 | h3
      · exact Or.inl h3
      · exact Or.inr ⟨p, by simp, List.mem_of_mem_filter h3⟩
    · obtain ⟨q, hq, he⟩ := h2
      exact Or.inr ⟨q, by simp [hq], he⟩

theorem globalExponents_arity {p0exps : List (List Nat)}
    {rest : List PolynomialArray} {n : Nat}
    (h0 : ∀ e ∈ p0exps, e.length = n)
    (hr : ∀ p ∈ rest, ∀ e ∈ p.exponents, e.length = n) :
    ∀ e ∈ globalExponents p0exps rest, e.length = n := by
  intro e he
  rcases globalExponents_mem_src he with h | ⟨p, hp, hep⟩
  · exact h0 e h
  · exact hr p hp e hep

theorem globalExponents_ne_nil {p0exps : List (List Nat)}
    {rest : List PolynomialArray} (h : p0exps ≠ []) :
    globalExponents p0exps rest ≠ [] := by
  obtain ⟨e, he⟩ := List.exists_mem_of_ne_nil p0exps h
  exact List.ne_nil_of_mem (globalExponents_acc_mem he)

/-- Closed form of one output of exponent alignment. -/
def alignExpOut (ge : List (List Nat)) (p : PolynomialArray) : PolynomialArray :=
  ⟨p.names, ge,
   ge.map (fun t => (lookupCoeff p t).getD (NDArray.zeros p.shape p.dtype)),
   p.shape, p.dtype⟩

theorem align_exponents_eq {p0 : PolynomialArray} {rest : List PolynomialArray}
    (hW : ∀ p ∈ p0 :: rest, WF p)
    (hn : ∀ p ∈ p0 :: rest, p.names = p0.names) :
    align_exponents (p0 :: rest) =
      some ((p0 :: rest).map (alignExpOut (globalExponents p0.exponents rest))) := by
  have hall : ((p0 :: rest).all (fun p => p.names = p0.names)) = true := by
    simp only [List.all_eq_true, decide_eq_true_eq]
    exact hn
  have hge0 : p0.exponents ≠ [] := by
    obtain ⟨h1, h2, -⟩ := hW p0 (by simp)
    intro h
    exact h2 (List.eq_nil_of_length_eq_zero (by rw [← h1, h]; simp [h]))
  have hgene := @globalExponents_ne_nil p0.exponents rest hge0
  simp only [align_exponents, hall, if_true, Option.bind_eq_bind,
    Option.some_bind]
  refine mapM_eq_some_map _ _ _ ?_
  intro p hp
  obtain ⟨hlen, hne, har, hhom, hnd, hnnd⟩ := hW p hp
  have hcoef : ∀ c ∈ (globalExponents p0.exponents rest).map
      (fun t => (lookupCoeff p t).getD (NDArray.zeros p.shape p.dtype)),
      c.shape = p.shape ∧ c.dtype = p.dtype := by
    intro c hc
    obtain ⟨t, -, hct⟩ := List.mem_map.mp hc
    cases hl : lookupCoeff p t with
    | none => rw [← hct, hl]; exact ⟨rfl, rfl⟩
    | some c2 =>
      have := hhom c2 (lookupCoeff_mem hl)
      rw [← hct, hl]
      exact ⟨this.1, this.2.1⟩
  obtain ⟨c0, cs, hcs⟩ := List.exists_cons_of_ne_nil
    (show (globalExponents p0.exponents rest).map
      (fun t => (lookupCoeff p t).getD (NDArray.zeros p.shape p.dtype)) ≠ [] by
        simpa using hgene)
  have hc0 : c0.shape = p.shape ∧ c0.dtype = p.dtype := hcoef c0 (by rw [hcs]; simp)
  have hdt : resolveDtype none ((globalExponents p0.exponents rest).map
      (fun t => (lookupCoeff p t).getD (NDArray.zeros p.shape p.dtype))) = p.dtype := by
    rw [hcs]
    exact resolveDtype_none_const (fun c hc => (hcoef c (hcs ▸ hc)).2)
  have harN : ∀ e ∈ globalExponents p0.exponents rest,
      e.length = p.names.length := by
    rw [hn p hp]
    refine globalExponents_arity ?_ ?_
    · intro e he
      exact ((hW p0 (by simp)).2.2.1 e he).trans (by rw [hn p0 (by simp)])
    · intro q hq e he
      exact ((hW q (by simp [hq])).2.2.1 e he).trans (by rw [hn q (by simp [hq])])
  rw [from_attributes_false_eq hcs (by simp) harN
    (fun c hc => ((hcoef c (hcs ▸ hc)).1).trans hc0.1.symm)]
  have hcast : (List.map
      (fun t => (lookupCoeff p t).getD (NDArray.zeros p.shape p.dtype))
      (globalExponents p0.exponents rest)).map (castTo p.dtype) =
      List.map (fun t => (lookupCoeff p t).getD (NDArray.zeros p.shape p.dtype))
        (globalExponents p0.exponents rest) := by
    rw [List.map_map]
    refine List.map_congr_left ?_
    intro t ht
    simp only [Function.comp_apply]
    refine castTo_self ?_
    cases hl : lookupCoeff p t with
    | none => rw [Option.getD_none]; rfl
    | some c2 => rw [Option.getD_some]; exact (hhom c2 (lookupCoeff_mem hl)).2.1
  rw [hdt, hcast, hc0.1]
  rfl

/-! ### Order lemmas for name sorting -/

theorem lexLe_total : ∀ a b : List Char, lexLe a b = true ∨ lexLe b a = true := by
  intro a
  induction a with
  | nil => intro b; exact Or.inl rfl
  | cons x xs ih =>
    intro b
    cases b with
    | nil => exact Or.inr rfl
    | cons y ys =>
      by_cases hxy : x.toNat < y.toNat
      · exact Or.inl (by simp [lexLe, hxy])
      · by_cases hyx : y.toNat < x.toNat
        · exact Or.inr (by simp [lexLe, hyx])
        · rcases ih ys with h | h
          · exact Or.inl (by simp [lexLe, hxy, hyx, h])
          · exact Or.inr (by simp [lexLe, hxy, hyx, h])

theorem lexLe_antisymm : ∀ {a b : List Char},
    lexLe a b = true → lexLe b a = true → a = b := by
  intro a
  induction a with
  | nil =>
    intro b _ hba
    cases b with
    | nil => rfl
    | cons y ys => simp [lexLe] at hba
  | cons x xs ih =>
    intro b hab hba
    cases b with
    | nil => simp [lexLe] at hab
    | cons y ys =>
      by_cases hxy : x.toNat < y.toNat
      · rw [lexLe, if_neg (Nat.lt_asymm hxy), if_pos hxy] at hba
        exact absurd hba (by simp)
      · by_cases hyx : y.toNat < x.toNat
        · rw [lexLe, if_neg hxy, if_pos hyx] at hab
          exact absurd hab (by simp)
        · have hchar : x = y := Char.ext (UInt32.ext (Nat.le_antisymm
            (Nat.not_lt.mp hyx) (Nat.not_lt.mp hxy)))
          rw [lexLe, if_neg hxy, if_neg hyx] at hab
          rw [lexLe, if_neg hyx, if_neg hxy] at hba
          rw [hchar, ih hab hba]

theorem lexLe_trans : ∀ {a b c : List Char},
    lexLe a b = true → lexLe b c = true → lexLe a c = true := by
  intro a
  induction a with
  | nil => intro b c _ _; rfl
  | cons x xs ih =>
    intro b c hab hbc
    cases b with
    | nil => simp [lexLe] at hab
    | cons y ys =>
      cases c with
      | nil => simp [lexLe] at hbc
      | cons z zs =>
        rw [lexLe] at hab hbc ⊢
        by_cases hxy : x.toNat < y.toNat
        · by_cases hyz : y.toNat < z.toNat
          · rw [if_pos (Nat.lt_trans hxy hyz)]
          · by_cases hzy : z.toNat < y.toNat
            · rw [if_neg hyz, if_pos hzy] at hbc
              exact absurd hbc (by simp)
            · have hyzeq : y.toNat = z.toNat :=
                Nat.le_antisymm (Nat.not_lt.mp hzy) (Nat.not_lt.mp hyz)
              rw [if_pos (hyzeq ▸ hxy)]
        · by_cases hyx : y.toNat < x.toNat
          · rw [if_neg hxy, if_pos hyx] at hab
            exact absurd hab (by simp)
          · have hxyeq : x.toNat = y.toNat :=
              Nat.le_antisymm (Nat.not_lt.mp hyx) (Nat.not_lt.mp hxy)
            rw [if_neg hxy, if_neg hyx] at hab
            by_cases hyz : y.toNat < z.toNat
            · rw [if_pos (hxyeq ▸ hyz)]
            · by_cases hzy : z.toNat < y.toNat
              · rw [if_neg hyz, if_pos hzy] at hbc
                exact absurd hbc (by simp)
              · rw [if_neg hyz, if_neg hzy] at hbc
                rw [if_neg (hxyeq ▸ hyz), if_neg (hxyeq ▸ hzy)]
                exact ih hab hbc

theorem nameLe_total (a b : String) : nameLe a b = true ∨ nameLe b a = true :=
  lexLe_total a.data b.data

theorem nameLe_antisymm {a b : String} (h1 : nameLe a b = true)
    (h2 : nameLe b a = true) : a = b :=
  String.ext (lexLe_antisymm h1 h2)

theorem nameLe_trans {a b c : String} (h1 : nameLe a b = true)
    (h2 : nameLe b c = true) : nameLe a c = true :=
  lexLe_trans h1 h2

instance : IsAntisymm String (fun a b => nameLe a b = true) :=
  ⟨fun _ _ h1 h2 => nameLe_antisymm h1 h2⟩

theorem insertSorted_perm (a : String) (l : List String) :
    (insertSorted a l).Perm (a :: l) := by
  induction l with
  | nil => exact List.Perm.refl _
  | cons b bs ih =>
    simp only [insertSorted]
    by_cases h : nameLe a b = true
    · rw [if_pos h]
    · rw [if_neg h]
      exact (List.Perm.cons b ih).trans (List.Perm.swap a b bs)

theorem sortNames_perm (l : List String) : (sortNames l).Perm l := by
  induction l with
  | nil => exact List.Perm.refl _
  | cons a as ih =>
    exact (insertSorted_perm a (sortNames as)).trans (List.Perm.cons a ih)

theorem mem_sortNames {a : String} {l : List String} :
    a ∈ sortNames l ↔ a ∈ l :=
  (sortNames_perm l).mem_iff

theorem sortNames_nodup {l : List String} (h : l.Nodup) : (sortNames l).Nodup :=
  ((sortNames_perm l).nodup_iff).mpr h

theorem insertSorted_sorted {l : List String}
    (h : l.Sorted (fun a b => nameLe a b = true)) (a : String) :
    (insertSorted a l).Sorted (fun a b => nameLe a b = true) := by
  induction l with
  | nil => simp [insertSorted]
  | cons b bs ih =>
    simp only [insertSorted]
    rw [List.sorted_cons] at h
    by_cases hab : nameLe a b = true
    · rw [if_pos hab]
      rw [List.sorted_cons]
      refine ⟨?_, List.sorted_cons.mpr h⟩
      intro x hx
      rcases List.mem_cons.mp hx with hx | hx
      · rw [hx]; exact hab
      · exact nameLe_trans hab (h.1 x hx)
    · rw [if_neg hab]
      rw [List.sorted_cons]
      refine ⟨?_, ih h.2⟩
      intro x hx
      rcases List.mem_cons.mp ((insertSorted_perm a bs).mem_iff.mp hx) with hx2 | hx2
      · rw [hx2]
        rcases nameLe_total a b with h2 | h2
        · exact absurd h2 hab
        · exact h2
      · exact h.1 x hx2

theorem sortNames_sorted (l : List String) :
    (sortNames l).Sorted (fun a b => nameLe a b = true) := by
  induction l with
  | nil => simp [sortNames]
  | cons a as ih => exact insertSorted_sorted ih a

theorem sortNames_eq_of_perm {l1 l2 : List String} (h : l1.Perm l2) :
    sortNames l1 = sortNames l2 :=
  List.eq_of_perm_of_sorted
    ((sortNames_perm l1).trans (h.trans (sortNames_perm l2).symm))
    (sortNames_sorted l1) (sortNames_sorted l2)

/-! ### Index lemmas -/

theorem indexOf_getElem?_of_nodup {l : List String} (hnd : l.Nodup) :
    ∀ {j : Nat} {nm : String}, l[j]? = some nm → l.indexOf nm = j := by
  induction l with
  | nil => intro j nm hj; simp at hj
  | cons a as ih =>
    intro j nm hj
    cases j with
    | zero =>
      simp only [List.getElem?_cons_zero, Option.some.injEq] at hj
      rw [← hj, List.indexOf_cons_self]
    | succ j =>
      simp only [List.getElem?_cons_succ] at hj
      have hmem : nm ∈ as := List.getElem?_mem hj
      have hne : a ≠ nm := fun h => (List.nodup_cons.mp hnd).1 (h ▸ hmem)
      rw [List.indexOf_cons_ne _ hne, ih (List.nodup_cons.mp hnd).2 hj]

theorem getElem?_indexOf_of_mem {l : List String} {nm : String} (h : nm ∈ l) :
    l[l.indexOf nm]? = some nm := by
  have hlt := List.indexOf_lt_length.mpr h
  rw [List.getElem?_eq_getElem hlt, List.getElem_indexOf hlt]

theorem indexOf?_map_indexOf {cn : List String} (hndcn : cn.Nodup)
    {pnames : List String} (hsub : ∀ n ∈ pnames, n ∈ cn) {j : Nat} {nm : String}
    (hj : cn[j]? = some nm) :
    (pnames.map (fun n => cn.indexOf n)).indexOf? j =
      if nm ∈ pnames then some (pnames.indexOf nm) else none := by
  induction pnames with
  | nil => simp
  | cons n ns ih =>
    simp only [List.map_cons]
    rw [List.indexOf?_cons]
    by_cases hn : n = nm
    · have heq : cn.indexOf n = j := by
        rw [hn]; exact indexOf_getElem?_of_nodup hndcn hj
      rw [if_pos (by simp [heq]), if_pos (by simp [hn]), hn,
        List.indexOf_cons_self]
    · have hcond : (cn.indexOf n == j) = false := by
        simp only [beq_eq_false_iff_ne, ne_eq]
        intro heq
        have hmem := hsub n (by simp)
        have h2 := getElem?_indexOf_of_mem hmem
        rw [heq, hj] at h2
        exact hn (Option.some.injEq .. ▸ h2.symm ▸ rfl)
      rw [hcond]
      simp only [Bool.false_eq_true, if_false]
      rw [ih (fun x hx => hsub x (by simp [hx]))]
      by_cases hmem : nm ∈ ns
      · rw [if_pos hmem, if_pos (by simp [hmem]),
          List.indexOf_cons_ne _ hn, Option.map_some']
      · rw [if_neg hmem, if_neg (by simp [hmem]; exact fun h => absurd h.symm hn),
          Option.map_none']

theorem mapM_some_inv {α β : Type} (f : α → Option β) :
    ∀ (l : List α) (l2 : List β), l.mapM f = some l2 →
      l2.length = l.length ∧
      ∀ (k : Nat) (a : α), l[k]? = some a →
        ∃ b, l2[k]? = some b ∧ f a = some b := by
  intro l
  induction l with
  | nil =>
    intro l2 h
    have : l2 = [] := by
      have : some [] = some l2 := h ▸ rfl
      exact (Option.some.injEq .. ▸ this).symm
    subst this
    exact ⟨rfl, fun k a h2 => by simp at h2⟩
  | cons a as ih =>
    intro l2 h
    rw [List.mapM_cons] at h
    rcases hfa : f a with _ | b
    · rw [hfa] at h; simp at h
    · rw [hfa] at h
      rcases hrest : as.mapM f with _ | bs
      · rw [hrest] at h; simp at h
      · rw [hrest] at h
        have h2 : b :: bs = l2 := by simpa using h
        subst h2
        obtain ⟨hlen, hall⟩ := ih bs hrest
        refine ⟨by simp [hlen], ?_⟩
        intro k x hk
        cases k with
        | zero =>
          simp only [List.getElem?_cons_zero, Option.some.injEq] at hk
          exact ⟨b, by simp, hk ▸ hfa⟩
        | succ k =>
          simp only [List.getElem?_cons_succ] at hk ⊢
          exact hall k x hk

/-! ### Lemmas about the common name list -/

theorem mem_commonNames {polys : List PolynomialArray} {n : String} :
    n ∈ commonNames polys ↔
      ∃ p ∈ polys, p.isconstant = false ∧ n ∈ p.names := by
  unfold commonNames
  rw [mem_sortNames, List.mem_dedup, List.mem_flatMap]
  constructor
  · rintro ⟨p, hp, hn⟩
    have h2 := List.mem_filter.mp hp
    exact ⟨p, h2.1, by simpa using h2.2, hn⟩
  · rintro ⟨p, hp, hc, hn⟩
    exact ⟨p, List.mem_filter.mpr ⟨hp, by simp [hc]⟩, hn⟩

theorem commonNames_nodup (polys : List PolynomialArray) :
    (commonNames polys).Nodup :=
  sortNames_nodup (List.nodup_dedup _)

theorem commonNames_perm_inv {polys1 polys2 : List PolynomialArray}
    (h : polys1.Perm polys2) : commonNames polys1 = commonNames polys2 := by
  refine List.eq_of_perm_of_sorted ?_ (sortNames_sorted _) (sortNames_sorted _)
  refine (List.perm_ext_iff_of_nodup (commonNames_nodup _)
    (commonNames_nodup _)).mpr ?_
  intro a
  rw [mem_commonNames, mem_commonNames]
  constructor
  · rintro ⟨p, hp, hc, hn⟩; exact ⟨p, h.mem_iff.mp hp, hc, hn⟩
  · rintro ⟨p, hp, hc, hn⟩; exact ⟨p, h.mem_iff.mpr hp, hc, hn⟩

theorem assignCols_getElem? {width : Nat} {indices : List Nat}
    {row : List Nat} {j : Nat} (hj : j < width) :
    (assignCols width indices row)[j]? = some (match indices.indexOf? j with
      | some k => row.getD k 0
      | none => 0) := by
  unfold assignCols
  rw [List.getElem?_map, List.getElem?_range hj, Option.map_some']

/-! ### Broadcast lattice lemmas -/

theorem broadcastDim_comm (a b : Nat) : broadcastDim a b = broadcastDim b a := by
  unfold broadcastDim
  by_cases hab : a = b
  · subst hab; simp
  · have hba : ¬ b = a := fun h => hab h.symm
    rw [if_neg hab, if_neg hba]
    by_cases ha : a = 1 <;> by_cases hb : b = 1
    · exact absurd (ha.trans hb.symm) hab
    · simp [ha, hb]
    · simp [ha, hb]
    · simp [ha, hb]

theorem broadcastDim_self (a : Nat) : broadcastDim a a = some a := by
  unfold broadcastDim
  rw [if_pos rfl]

theorem broadcastDim_absorb {a b c : Nat} (h : broadcastDim a b = some c) :
    broadcastDim a c = some c := by
  unfold broadcastDim at h ⊢
  by_cases hab : a = b
  · rw [if_pos hab] at h
    have hc : a = c := Option.some.inj h
    rw [if_pos hc, hc]
  · rw [if_neg hab] at h
    by_cases ha : a = 1
    · rw [if_pos ha] at h
      have hc : b = c := Option.some.inj h
      by_cases hac : a = c
      · rw [if_pos hac, hac]
      · rw [if_neg hac, if_pos ha]
    · rw [if_neg ha] at h
      by_cases hb : b = 1
      · rw [if_pos hb] at h
        have hc : a = c := Option.some.inj h
        rw [if_pos hc, hc]
      · rw [if_neg hb] at h
        cases h

theorem broadcastDim_closure {a u v w : Nat} (h1 : broadcastDim a u = some u)
    (h2 : broadcastDim u v = some w) : broadcastDim a w = some w := by
  unfold broadcastDim at h1
  by_cases hau : a = u
  · rw [hau]
    exact broadcastDim_absorb h2
  · rw [if_neg hau] at h1
    by_cases ha : a = 1
    · unfold broadcastDim
      by_cases haw : a = w
      · rw [if_pos haw, haw]
      · rw [if_neg haw, if_pos ha]
    · rw [if_neg ha] at h1
      by_cases hu : u = 1
      · rw [if_pos hu] at h1
        exact absurd (Option.some.inj h1) hau
      · rw [if_neg hu] at h1
        cases h1

theorem bcastR_comm : ∀ s t : List Nat, bcastR s t = bcastR t s := by
  intro s
  induction s with
  | nil => intro t; cases t <;> simp [bcastR]
  | cons a s ih =>
    intro t
    cases t with
    | nil => rfl
    | cons b t =>
      simp only [bcastR, broadcastDim_comm a b, ih t]

theorem bcastR_self : ∀ s : List Nat, bcastR s s = some s := by
  intro s
  induction s with
  | nil => simp [bcastR]
  | cons a s ih =>
    simp only [bcastR, broadcastDim_self, Option.bind_eq_bind, Option.some_bind, ih]

theorem bcastR_absorb : ∀ {s t u : List Nat}, bcastR s t = some u →
    bcastR s u = some u := by
  intro s
  induction s with
  | nil =>
    intro t u h
    have ht : t = u := by simpa [bcastR] using h
    subst ht
    simp [bcastR]
  | cons a s ih =>
    intro t u h
    cases t with
    | nil =>
      have hu : a :: s = u := by simpa [bcastR] using h
      subst hu
      exact bcastR_self _
    | cons b t =>
      simp only [bcastR, Option.bind_eq_bind] at h
      rcases hd : broadcastDim a b with _ | d
      · rw [hd] at h; simp at h
      · rw [hd] at h
        rcases hr : bcastR s t with _ | r
        · rw [hr] at h; simp at h
        · rw [hr] at h
          have hu : d :: r = u := by simpa using h
          subst hu
          simp only [bcastR, Option.bind_eq_bind, broadcastDim_absorb hd,
            Option.some_bind, ih hr]

theorem bcastR_closure : ∀ {s u v w : List Nat}, bcastR s u = some u →
    bcastR u v = some w → bcastR s w = some w := by
  intro s
  induction s with
  | nil => intro u v w _ _; simp [bcastR]
  | cons a s ih =>
    intro u v w h1 h2
    cases u with
    | nil => simp [bcastR] at h1
    | cons du u2 =>
      simp only [bcastR, Option.bind_eq_bind] at h1
      rcases hd : broadcastDim a du with _ | d
      · rw [hd] at h1; simp at h1
      · rw [hd] at h1
        rcases hr : bcastR s u2 with _ | r
        · rw [hr] at h1; simp at h1
        · rw [hr] at h1
          have hinj := Option.some.inj (by simpa using h1 : some (d :: r) = some (du :: u2))
          have hdd : d = du := (List.cons.injEq .. ▸ hinj).1
          have hrr : r = u2 := (List.cons.injEq .. ▸ hinj).2
          subst hdd hrr
          cases v with
          | nil =>
            have hw : d :: r = w := by simpa [bcastR] using h2
            subst hw
            simp only [bcastR, Option.bind_eq_bind, hd, Option.some_bind, hr]
          | cons dv v2 =>
            simp only [bcastR, Option.bind_eq_bind] at h2
            rcases hd2 : broadcastDim d dv with _ | dw
            · rw [hd2] at h2; simp at h2
            · rw [hd2] at h2
              rcases hr2 : bcastR r v2 with _ | w2
              · rw [hr2] at h2; simp at h2
              · rw [hr2] at h2
                have hw : dw :: w2 = w := by simpa using h2
                subst hw
                simp only [bcastR, Option.bind_eq_bind,
                  broadcastDim_closure hd hd2, Option.some_bind, ih hr hr2]

theorem broadcastShapes_comm (s t : List Nat) :
    broadcastShapes s t = broadcastShapes t s := by
  unfold broadcastShapes
  rw [bcastR_comm]

theorem broadcastShapes_self (s : List Nat) : broadcastShapes s s = some s := by
  unfold broadcastShapes
  rw [bcastR_self, Option.map_some', List.reverse_reverse]

theorem broadcastShapes_absorb {s t u : List Nat}
    (h : broadcastShapes s t = some u) : broadcastShapes s u = some u := by
  unfold broadcastShapes at h ⊢
  rcases hb : bcastR s.reverse t.reverse with _ | r
  · rw [hb] at h; simp at h
  · rw [hb] at h
    have hu : r.reverse = u := by simpa using h
    have hr : r = u.reverse := by rw [← hu, List.reverse_reverse]
    rw [bcastR_absorb (hr ▸ hb), Option.map_some', List.reverse_reverse]

theorem broadcastShapes_closure {s u v w : List Nat}
    (h1 : broadcastShapes s u = some u) (h2 : broadcastShapes u v = some w) :
    broadcastShapes s w = some w := by
  unfold broadcastShapes at h1 h2 ⊢
  rcases hb1 : bcastR s.reverse u.reverse with _ | r1
  · rw [hb1] at h1; simp at h1
  · rw [hb1] at h1
    have hr1 : r1 = u.reverse := by
      have : r1.reverse = u := by simpa using h1
      rw [← this, List.reverse_reverse]
    rcases hb2 : bcastR u.reverse v.reverse with _ | r2
    · rw [hb2] at h2; simp at h2
    · rw [hb2] at h2
      have hr2 : r2 = w.reverse := by
        have : r2.reverse = w := by simpa using h2
        rw [← this, List.reverse_reverse]
      rw [bcastR_closure (hr1 ▸ hb1) (hr2 ▸ hb2), Option.map_some',
        List.reverse_reverse]

/-! ### Claim C2 -/

/-- C2: the common name list of `align_indeterminants` is the
lexicographically sorted union of the names of the non-constant inputs, hence
independent of argument order; each output's exponent tuples copy the input's
exponents at positions of names the input had and are zero at positions of
names it never used; when every input is constant the inputs are returned
unchanged. -/
theorem C2_align_indeterminants (polys : List PolynomialArray)
    (hW : ∀ p ∈ polys, WF p) :
    ((∀ p ∈ polys, p.isconstant = true) →
      align_indeterminants polys = some polys) ∧
    (∀ n, n ∈ commonNames polys ↔
      ∃ p ∈ polys, p.isconstant = false ∧ n ∈ p.names) ∧
    (∀ polys2, polys.Perm polys2 → commonNames polys2 = commonNames polys) ∧
    (∀ qs, align_indeterminants polys = some qs →
      qs.length = polys.length ∧
      ∀ (k : Nat) (p q : PolynomialArray), polys[k]? = some p →
        qs[k]? = some q →
        q.shape = p.shape ∧ q.dtype = p.dtype ∧
        q.coefficients = p.coefficients ∧
        (commonNames polys ≠ [] → q.names = commonNames polys) ∧
        q.exponents.length = p.exponents.length ∧
        ∀ (r : Nat) (erow : List Nat), p.exponents[r]? = some erow →
          ∃ qrow, q.exponents[r]? = some qrow ∧
            qrow.length = q.names.length ∧
            ∀ (j : Nat) (nm : String), q.names[j]? = some nm →
              qrow[j]? = some (if nm ∈ p.names
                then erow.getD (p.names.indexOf nm) 0 else 0)) := by
  refine ⟨?_, fun n => mem_commonNames, fun polys2 h => commonNames_perm_inv h.symm, ?_⟩
  · intro hconst
    have hcn : commonNames polys = [] := by
      unfold commonNames
      have hfil : polys.filter (fun p => !p.isconstant) = [] := by
        rw [List.filter_eq_nil_iff]
        intro p hp
        simp [hconst p hp]
      rw [hfil]
      rfl
    simp only [align_indeterminants, hcn, List.isEmpty_nil, if_true]
  · intro qs hqs
    by_cases hcn : commonNames polys = []
    · simp only [align_indeterminants, hcn, List.isEmpty_nil, if_true,
        Option.some.injEq] at hqs
      subst hqs
      refine ⟨rfl, ?_⟩
      intro k p q hpk hqk
      rw [hpk] at hqk
      obtain rfl := Option.some.inj hqk
      obtain ⟨-, -, har, -, -, hnnd⟩ := hW p (List.getElem?_mem hpk)
      refine ⟨rfl, rfl, rfl, fun h => absurd hcn h, rfl, ?_⟩
      intro r erow her
      refine ⟨erow, her, har erow (List.getElem?_mem her), ?_⟩
      intro j nm hj
      have hmem : nm ∈ p.names := List.getElem?_mem hj
      rw [if_pos hmem, indexOf_getElem?_of_nodup hnnd hj]
      have hjlt : j < erow.length := by
        rw [har erow (List.getElem?_mem her)]
        exact (List.getElem?_eq_some_iff.mp hj).1
      rw [List.getElem?_eq_getElem hjlt, List.getD_eq_getElem _ _ hjlt]
    · have hcne : (commonNames polys).isEmpty = false := by
        cases h : commonNames polys with
        | nil => exact absurd h hcn
        | cons a as => rfl
      simp only [align_indeterminants, hcne, Bool.false_eq_true, if_false] at hqs
      obtain ⟨hlen, hall⟩ := mapM_some_inv _ polys qs hqs
      refine ⟨hlen, ?_⟩
      intro k p q hpk hqk
      obtain ⟨q2, hq2, hfp⟩ := hall k p hpk
      rw [hq2] at hqk
      obtain rfl := (Option.some.inj hqk).symm
      obtain ⟨hplen, hpne, har, hhom, hend, hnnd⟩ := hW p (List.getElem?_mem hpk)
      obtain ⟨c0, crest, hcs⟩ := List.exists_cons_of_ne_nil hpne
      have hc0 : c0.shape = p.shape := (hhom c0 (by rw [hcs]; simp)).1
      have hdt : ∀ dtq : Option Dtype, dtq = none →
          resolveDtype dtq p.coefficients = p.dtype := by
        intro dtq hdtq
        subst hdtq
        rw [hcs]
        exact resolveDtype_none_const (fun c hc => (hhom c (hcs ▸ hc)).2.1)
      have hcast : p.coefficients.map (castTo p.dtype) = p.coefficients := by
        refine (List.map_congr_left ?_).trans (List.map_id _)
        intro c hc
        exact castTo_self (hhom c hc).2.1
      by_cases hfil : p.names.filter (fun n => n ∈ commonNames polys) = []
      · have hnc : ∀ nm ∈ p.names, nm ∉ commonNames polys := by
          intro nm hnm hmem
          have : nm ∈ p.names.filter (fun n => n ∈ commonNames polys) :=
            List.mem_filter.mpr ⟨hnm, by simpa using hmem⟩
          rw [hfil] at this
          cases this
        rw [hfil] at hfp
        simp only [List.map_nil, List.isEmpty_nil, if_true] at hfp
        rw [from_attributes_false_eq hcs (by simpa using hplen)
          (fun e he => by
            obtain ⟨x, -, hx⟩ := List.mem_map.mp he
            rw [← hx, List.length_replicate])
          (fun c hc => ((hhom c hc).1).trans hc0.symm)] at hfp
        rw [hdt none rfl, hcast] at hfp
        have hq : q = ⟨commonNames polys,
            p.exponents.map (fun _ => List.replicate (commonNames polys).length 0),
            p.coefficients, c0.shape, p.dtype⟩ := (Option.some.inj hfp).symm
        subst hq
        refine ⟨hc0, rfl, rfl, fun _ => rfl, by simp, ?_⟩
        intro r erow her
        refine ⟨List.replicate (commonNames polys).length 0, ?_, by simp, ?_⟩
        · show (p.exponents.map _)[r]? = _
          rw [List.getElem?_map, her, Option.map_some']
        · intro j nm hj
          have hjlt : j < (commonNames polys).length :=
            (List.getElem?_eq_some_iff.mp hj).1
          rw [if_neg (fun hmem => hnc nm hmem (List.getElem?_mem hj)),
            List.getElem?_replicate, if_pos hjlt]
      · have hne2 : ((p.names.filter (fun n => n ∈ commonNames polys)).map
            (fun n => (commonNames polys).indexOf n)).isEmpty = false := by
          cases h : p.names.filter (fun n => n ∈ commonNames polys) with
          | nil => exact absurd h hfil
          | cons a as => rfl
        rw [hne2] at hfp
        simp only [Bool.false_eq_true, if_false] at hfp
        by_cases hlen2 : ((p.names.filter (fun n => n ∈ commonNames polys)).map
            (fun n => (commonNames polys).indexOf n)).length = p.names.length
        · rw [if_pos hlen2] at hfp
          have hflen : (p.names.filter (fun n => n ∈ commonNames polys)).length =
              p.names.length := by simpa using hlen2
          have hsub : ∀ n ∈ p.names, n ∈ commonNames polys := by
            have h2 := List.filter_length_eq_length.mp hflen
            intro n hn
            simpa using h2 n hn
          have hfilself : p.names.filter (fun n => n ∈ commonNames polys) =
              p.names := by
            rw [List.filter_eq_self]
            intro n hn
            simpa using hsub n hn
          rw [hfilself] at hfp
          rw [from_attributes_false_eq hcs (by simpa using hplen)
            (fun e he => by
              obtain ⟨x, -, hx⟩ := List.mem_map.mp he
              rw [← hx]
              simp [assignCols])
            (fun c hc => ((hhom c hc).1).trans hc0.symm)] at hfp
          rw [hdt none rfl, hcast] at hfp
          have hq : q = ⟨commonNames polys,
              p.exponents.map (assignCols (commonNames polys).length
                (p.names.map (fun n => (commonNames polys).indexOf n))),
              p.coefficients, c0.shape, p.dtype⟩ := (Option.some.inj hfp).symm
          subst hq
          refine ⟨hc0, rfl, rfl, fun _ => rfl, by simp, ?_⟩
          intro r erow her
          refine ⟨assignCols (commonNames polys).length
            (p.names.map (fun n => (commonNames polys).indexOf n)) erow, ?_,
            by simp [assignCols], ?_⟩
          · show (p.exponents.map _)[r]? = _
            rw [List.getElem?_map, her, Option.map_some']
          · intro j nm hj
            have hjlt : j < (commonNames polys).length :=
              (List.getElem?_eq_some_iff.mp hj).1
            rw [assignCols_getElem? hjlt,
              indexOf?_map_indexOf (commonNames_nodup polys) hsub hj]
            by_cases hmem : nm ∈ p.names
            · rw [if_pos hmem]
              simp only [if_pos hmem]
            · rw [if_neg hmem]
              simp only [if_neg hmem]
        · rw [if_neg hlen2] at hfp
          cases hfp

/-- Concrete indeterminate x: single term slot (1,) over name list [x]. -/
def xP : PolynomialArray := ⟨["x"], [[1]], [NDArray.intScalar 1], [], .int64⟩

/-- Concrete indeterminate y: single term slot (1,) over name list [y]. -/
def yP : PolynomialArray := ⟨["y"], [[1]], [NDArray.intScalar 1], [], .int64⟩

theorem C2_align_indeterminants_witness :
    (∀ n : String, n ∈ commonNames [xP, yP] ↔
      ∃ p ∈ [xP, yP], p.isconstant = false ∧ n ∈ p.names) ∧
    align_indeterminants [xP, yP] = some
      [⟨["x", "y"], [[1, 0]], [NDArray.intScalar 1], [], .int64⟩,
       ⟨["x", "y"], [[0, 1]], [NDArray.intScalar 1], [], .int64⟩] :=
  ⟨(C2_align_indeterminants [xP, yP] (by decide)).2.1, by decide⟩

/-! ### Claim C1 -/

/-- C1: for every call of `align_exponents` on well-formed polynomial arrays
sharing the same names, every output's exponent list equals the stable union
(the first array's exponent tuples in their original order, followed by each
subsequent array's tuples not already present, in order of first encounter);
each output's coefficient at a tuple present in its input equals that input's
coefficient, and at a tuple absent from its input it is the all-zero array of
that input's own shape and dtype. -/
theorem C1_align_exponents (p0 : PolynomialArray) (rest : List PolynomialArray)
    (hW : ∀ p ∈ p0 :: rest, WF p)
    (hn : ∀ p ∈ p0 :: rest, p.names = p0.names) :
    ∃ qs, align_exponents (p0 :: rest) = some qs ∧
      qs.length = (p0 :: rest).length ∧
      ∀ (k : Nat) (p q : PolynomialArray), (p0 :: rest)[k]? = some p →
        qs[k]? = some q →
        q.exponents = globalExponents p0.exponents rest ∧
        q.names = p.names ∧ q.shape = p.shape ∧ q.dtype = p.dtype ∧
        ∀ (j : Nat) (t : List Nat),
          (globalExponents p0.exponents rest)[j]? = some t →
          (t ∈ p.exponents →
            ∃ (i : Nat), p.exponents[i]? = some t ∧
              q.coefficients[j]? = p.coefficients[i]?) ∧
          (t ∉ p.exponents →
            q.coefficients[j]? = some (NDArray.zeros p.shape p.dtype)) := by
  refine ⟨_, align_exponents_eq hW hn, by simp, ?_⟩
  intro k p q hpk hqk
  rw [List.getElem?_map, hpk, Option.map_some'] at hqk
  cases hqk
  refine ⟨rfl, rfl, rfl, rfl, ?_⟩
  intro j t htj
  have hcoefj : (alignExpOut (globalExponents p0.exponents rest) p).coefficients[j]? =
      some ((lookupCoeff p t).getD (NDArray.zeros p.shape p.dtype)) := by
    show (List.map _ _)[j]? = _
    rw [List.getElem?_map, htj, Option.map_some']
  have hWp : WF p := hW p (List.getElem?_mem hpk)
  constructor
  · intro hmem
    obtain ⟨i, c, h1, h2, h3⟩ := lookupCoeff_eq_of_mem hWp.2.2.2.2.1 hWp.1 hmem
    exact ⟨i, h1, by rw [hcoefj, h3, Option.getD_some, h2]⟩
  · intro hnmem
    rw [hcoefj, lookupCoeff_eq_none hnmem, Option.getD_none]

/-- Concrete polynomial x*y over names x, y: a single term slot of exponent
tuple (1, 1) with scalar coefficient 1. -/
def xyP : PolynomialArray := ⟨["x", "y"], [[1, 1]], [NDArray.intScalar 1], [], .int64⟩

/-- Concrete polynomial array [x**5, y**3-1] over names x, y with term slots
(0,0), (0,3), (5,0). -/
def x5y3P : PolynomialArray :=
  ⟨["x", "y"], [[0, 0], [0, 3], [5, 0]],
   [⟨[2], .int64, [0, -1]⟩, ⟨[2], .int64, [0, 1]⟩, ⟨[2], .int64, [1, 0]⟩],
   [2], .int64⟩

theorem C1_align_exponents_witness :
    (∃ qs, align_exponents [xyP, x5y3P] = some qs ∧
      qs.length = ([xyP, x5y3P] : List PolynomialArray).length ∧
      ∀ (k : Nat) (p q : PolynomialArray), ([xyP, x5y3P] : List PolynomialArray)[k]? = some p →
        qs[k]? = some q →
        q.exponents = globalExponents xyP.exponents [x5y3P] ∧
        q.names = p.names ∧ q.shape = p.shape ∧ q.dtype = p.dtype ∧
        ∀ (j : Nat) (t : List Nat),
          (globalExponents xyP.exponents [x5y3P])[j]? = some t →
          (t ∈ p.exponents →
            ∃ (i : Nat), p.exponents[i]? = some t ∧
              q.coefficients[j]? = p.coefficients[i]?) ∧
          (t ∉ p.exponents →
            q.coefficients[j]? = some (NDArray.zeros p.shape p.dtype))) ∧
    align_exponents [xyP, x5y3P] = some
      [⟨["x", "y"], [[1, 1], [0, 0], [0, 3], [5, 0]],
        [NDArray.intScalar 1, NDArray.intScalar 0, NDArray.intScalar 0,
         NDArray.intScalar 0], [], .int64⟩,
       ⟨["x", "y"], [[1, 1], [0, 0], [0, 3], [5, 0]],
        [⟨[2], .int64, [0, 0]⟩, ⟨[2], .int64, [0, -1]⟩, ⟨[2], .int64, [0, 1]⟩,
         ⟨[2], .int64, [1, 0]⟩], [2], .int64⟩] :=
  ⟨C1_align_exponents xyP [x5y3P] (by decide) (by decide), by decide⟩

/-! ### Claims C5 and C9: shape alignment -/

theorem mulB_some_of {a b : NDArray} {s : List Nat}
    (h : broadcastShapes a.shape b.shape = some s) :
    NDArray.mulB a b = some ⟨s, a.dtype.promote b.dtype,
      (allIndices s).map (fun ix => a.bget ix * b.bget ix)⟩ := by
  unfold NDArray.mulB NDArray.binopB
  rw [h, Option.map_some']

theorem mulB_eq_none {a b : NDArray}
    (h : broadcastShapes a.shape b.shape = none) : NDArray.mulB a b = none := by
  unfold NDArray.mulB NDArray.binopB
  rw [h]
  rfl

theorem mulB_shape {a b r : NDArray} (h : NDArray.mulB a b = some r) :
    broadcastShapes a.shape b.shape = some r.shape := by
  unfold NDArray.mulB NDArray.binopB at h
  rcases hb : broadcastShapes a.shape b.shape with _ | s
  · rw [hb] at h; simp at h
  · rw [hb, Option.map_some'] at h
    rw [← Option.some.inj h]

/-- Closed form of a cleaning construction. -/
theorem from_attributes_true_eq {exps : List (List Nat)} {cs : List NDArray}
    {names : List String} {dtq : Option Dtype} {c0 : NDArray} {rest : List NDArray}
    (hc : cs = c0 :: rest)
    (hlen : exps.length = cs.length)
    (har : ∀ e ∈ exps, e.length = names.length)
    (hsh : ∀ c ∈ cs, c.shape = c0.shape) :
    from_attributes exps cs names dtq true =
      some ⟨names,
        (cleanTerms names.length c0.shape (resolveDtype dtq cs)
          (dedupTerms (exps.zip (cs.map (castTo (resolveDtype dtq cs)))))).map
            Prod.fst,
        (cleanTerms names.length c0.shape (resolveDtype dtq cs)
          (dedupTerms (exps.zip (cs.map (castTo (resolveDtype dtq cs)))))).map
            Prod.snd,
        c0.shape, resolveDtype dtq cs⟩ := by
  subst hc
  have hcond : exps.length = (c0 :: rest).length ∧
      (∀ e ∈ exps, e.length = names.length) ∧
      ∀ c ∈ c0 :: rest, c.shape = c0.shape := ⟨hlen, har, hsh⟩
  simp only [from_attributes, if_true]
  rw [if_pos hcond]

/-- The common broadcast shape of a list of shapes under the standard
dense-array rule, following the spec's description (for comparison with the
implementation). -/
def commonBroadcast (shapes : List (List Nat)) : Option (List Nat) :=
  shapes.foldlM (fun S s => broadcastShapes S s) []

theorem codeFold_spec (polys : List PolynomialArray) (hW : ∀ p ∈ polys, WF p)
    (acc : NDArray) :
    (∀ B, ((polys.filter (fun p => p.shape.prod ≠ 0)).map
        (fun p => p.shape)).foldlM (fun S s => broadcastShapes S s) acc.shape =
        some B →
      ∃ r, polys.foldlM commonStep acc = some r ∧ r.shape = B ∧
        (∀ p ∈ polys, p.shape.prod ≠ 0 → broadcastShapes p.shape B = some B) ∧
        broadcastShapes acc.shape B = some B) ∧
    (((polys.filter (fun p => p.shape.prod ≠ 0)).map
        (fun p => p.shape)).foldlM (fun S s => broadcastShapes S s) acc.shape =
        none →
      polys.foldlM commonStep acc = none) := by
  induction polys generalizing acc with
  | nil =>
    refine ⟨?_, ?_⟩
    · intro B hB
      have hBa : acc.shape = B := by simpa using hB
      refine ⟨acc, by simp, hBa, by simp, hBa ▸ broadcastShapes_self _⟩
    · intro h
      simp at h
  | cons p ps ih =>
    obtain ⟨hplen, hpne, -, hhom, -, -⟩ := hW p (by simp)
    by_cases hz : p.shape.prod ≠ 0
    · obtain ⟨c0, crest, hcs⟩ := List.exists_cons_of_ne_nil hpne
      have hc0get : p.coefficients[0]? = some c0 := by rw [hcs]; simp
      have hc0sh : c0.shape = p.shape := (hhom c0 (by rw [hcs]; simp)).1
      have hstep : ∀ a : NDArray, commonStep a p =
          NDArray.mulB (NDArray.ones p.shape) a := by
        intro a
        unfold commonStep
        rw [if_pos hz, hc0get]
        simp only [Option.bind_eq_bind, Option.some_bind, hc0sh]
      have hfil : (p :: ps).filter (fun q => q.shape.prod ≠ 0) =
          p :: ps.filter (fun q => q.shape.prod ≠ 0) := by
        rw [List.filter_cons, if_pos (by simpa using hz)]
      rcases hb : broadcastShapes acc.shape p.shape with _ | S2
      · have hbm : broadcastShapes (NDArray.ones p.shape).shape acc.shape = none := by
          show broadcastShapes p.shape acc.shape = none
          rw [broadcastShapes_comm]
          exact hb
        have hcode : (p :: ps).foldlM commonStep acc = none := by
          rw [List.foldlM_cons, hstep, mulB_eq_none hbm]
          rfl
        refine ⟨?_, fun _ => hcode⟩
        intro B hB
        rw [hfil, List.map_cons, List.foldlM_cons, hb] at hB
        simp at hB
      · have hbm : broadcastShapes (NDArray.ones p.shape).shape acc.shape =
            some S2 := by
          show broadcastShapes p.shape acc.shape = some S2
          rw [broadcastShapes_comm]
          exact hb
        have hmul := mulB_some_of hbm
        have ihs := ih (fun q hq => hW q (by simp [hq]))
          ⟨S2, (NDArray.ones p.shape).dtype.promote acc.dtype,
           (allIndices S2).map (fun ix =>
             (NDArray.ones p.shape).bget ix * acc.bget ix)⟩
        refine ⟨?_, ?_⟩
        · intro B hB
          rw [hfil, List.map_cons, List.foldlM_cons, hb] at hB
          simp only [Option.bind_eq_bind, Option.some_bind] at hB
          obtain ⟨r, hr, hrs, hall2, hacc2⟩ := ihs.1 B hB
          refine ⟨r, ?_, hrs, ?_, ?_⟩
          · rw [List.foldlM_cons, hstep, hmul]
            simpa using hr
          · intro q hq hqz
            rcases List.mem_cons.mp hq with hq2 | hq2
            · subst hq2
              have h1 : broadcastShapes q.shape S2 = some S2 := by
                rw [broadcastShapes_comm] at hb
                exact broadcastShapes_absorb hb
              exact broadcastShapes_closure h1 hacc2
            · exact hall2 q hq2 hqz
          · have h1 : broadcastShapes acc.shape S2 = some S2 :=
              broadcastShapes_absorb hb
            exact broadcastShapes_closure h1 hacc2
        · intro hB
          rw [hfil, List.map_cons, List.foldlM_cons, hb] at hB
          simp only [Option.bind_eq_bind, Option.some_bind] at hB
          rw [List.foldlM_cons, hstep, hmul]
          simpa using ihs.2 hB
    · have hstep : commonStep acc p = pure acc := by
        unfold commonStep
        rw [if_neg hz]
      have hfil : (p :: ps).filter (fun q => q.shape.prod ≠ 0) =
          ps.filter (fun q => q.shape.prod ≠ 0) := by
        rw [List.filter_cons, if_neg (by simpa using hz)]
      have ihs := ih (fun q hq => hW q (by simp [hq])) acc
      refine ⟨?_, ?_⟩
      · intro B hB
        rw [hfil] at hB
        obtain ⟨r, hr, hrs, hall2, hacc2⟩ := ihs.1 B hB
        refine ⟨r, ?_, hrs, ?_, hacc2⟩
        · rw [List.foldlM_cons, hstep]
          simpa using hr
        · intro q hq hqz
          rcases List.mem_cons.mp hq with hq2 | hq2
          · subst hq2; exact absurd hqz hz
          · exact hall2 q hq2 hqz
      · intro hB
        rw [hfil] at hB
        rw [List.foldlM_cons, hstep]
        simpa using ihs.2 hB

theorem from_attributes_shape {exps : List (List Nat)} {cs : List NDArray}
    {names : List String} {dtq : Option Dtype} {b : Bool} {q : PolynomialArray}
    (h : from_attributes exps cs names dtq b = some q) :
    ∃ c0 rest, cs = c0 :: rest ∧ q.shape = c0.shape ∧ q.names = names := by
  cases cs with
  | nil => simp [from_attributes] at h
  | cons c0 rest =>
    simp only [from_attributes] at h
    split at h
    · refine ⟨c0, rest, rfl, ?_, ?_⟩ <;> rw [← Option.some.inj h]
    · cases h

theorem align_shape_some_inv {polys : List PolynomialArray}
    {qs : List PolynomialArray} (h : align_shape polys = some qs) :
    ∃ r, polys.foldlM commonStep (NDArray.intScalar 1) = some r ∧
      polys.mapM (fun p => do
        let coeffs ← p.coefficients.mapM (fun c => NDArray.mulB c r)
        from_attributes p.exponents coeffs p.names none true) = some qs := by
  unfold align_shape at h
  rcases hf : polys.foldlM commonStep (NDArray.intScalar 1) with _ | r
  · rw [hf] at h; simp at h
  · rw [hf] at h
    exact ⟨r, rfl, by simpa using h⟩

/-- Closed form of one output of shape alignment. -/
def alignShapeOut (B : List Nat) (r : NDArray) (p : PolynomialArray) :
    PolynomialArray :=
  ⟨p.names,
   (cleanTerms p.names.length B
     (resolveDtype none (p.coefficients.map (fun c =>
       ⟨B, c.dtype.promote r.dtype,
        (allIndices B).map (fun ix => c.bget ix * r.bget ix)⟩)))
     (dedupTerms (p.exponents.zip ((p.coefficients.map (fun c =>
       (⟨B, c.dtype.promote r.dtype,
        (allIndices B).map (fun ix => c.bget ix * r.bget ix)⟩ : NDArray))).map
       (castTo (resolveDtype none (p.coefficients.map (fun c =>
         ⟨B, c.dtype.promote r.dtype,
          (allIndices B).map (fun ix =>
            c.bget ix * r.bget ix)⟩)))))))).map Prod.fst,
   (cleanTerms p.names.length B
     (resolveDtype none (p.coefficients.map (fun c =>
       ⟨B, c.dtype.promote r.dtype,
        (allIndices B).map (fun ix => c.bget ix * r.bget ix)⟩)))
     (dedupTerms (p.exponents.zip ((p.coefficients.map (fun c =>
       (⟨B, c.dtype.promote r.dtype,
        (allIndices B).map (fun ix => c.bget ix * r.bget ix)⟩ : NDArray))).map
       (castTo (resolveDtype none (p.coefficients.map (fun c =>
         ⟨B, c.dtype.promote r.dtype,
          (allIndices B).map (fun ix =>
            c.bget ix * r.bget ix)⟩)))))))).map Prod.snd,
   B, resolveDtype none (p.coefficients.map (fun c =>
     ⟨B, c.dtype.promote r.dtype,
      (allIndices B).map (fun ix => c.bget ix * r.bget ix)⟩))⟩

/-- C5 (amended): on inputs all of nonzero size, `align_shape` returns
outputs whose shape is the common broadcast shape of all input shapes under
the standard dense-array rule, and fails (BroadcastError) when the input
shapes are incompatible under that rule. -/
theorem C5_align_shape (polys : List PolynomialArray)
    (hW : ∀ p ∈ polys, WF p) (hsz : ∀ p ∈ polys, p.shape.prod ≠ 0) :
    (∀ B, commonBroadcast (polys.map (fun p => p.shape)) = some B →
      ∃ qs, align_shape polys = some qs ∧ qs.length = polys.length ∧
        ∀ q ∈ qs, q.shape = B) ∧
    (commonBroadcast (polys.map (fun p => p.shape)) = none →
      align_shape polys = none) := by
  have hfilter : polys.filter (fun p => p.shape.prod ≠ 0) = polys :=
    List.filter_eq_self.mpr (fun p hp => by simpa using hsz p hp)
  have hspec := codeFold_spec polys hW (NDArray.intScalar 1)
  rw [hfilter] at hspec
  constructor
  · intro B hB
    obtain ⟨r, hr, hrs, hall, -⟩ := hspec.1 B hB
    have hout : ∀ p ∈ polys, (do
        let coeffs ← p.coefficients.mapM (fun c => NDArray.mulB c r)
        from_attributes p.exponents coeffs p.names none true) =
        some (alignShapeOut B r p) := by
      intro p hp
      obtain ⟨hplen, hpne, har, hhom, -, -⟩ := hW p hp
      have hmulall : ∀ c ∈ p.coefficients, NDArray.mulB c r =
          some ⟨B, c.dtype.promote r.dtype,
            (allIndices B).map (fun ix => c.bget ix * r.bget ix)⟩ := by
        intro c hc
        refine mulB_some_of ?_
        rw [(hhom c hc).1, hrs]
        exact hall p hp (hsz p hp)
      rw [mapM_eq_some_map _ _ _ hmulall]
      simp only [Option.bind_eq_bind, Option.some_bind]
      obtain ⟨c0, crest, hcs⟩ := List.exists_cons_of_ne_nil hpne
      rw [from_attributes_true_eq (by rw [hcs]; rfl)
        (by simpa using hplen) har
        (fun c hc => by
          obtain ⟨x, -, hx⟩ := List.mem_map.mp hc
          rw [← hx])]
      rfl
    have hmain := mapM_eq_some_map _ (alignShapeOut B r) polys hout
    refine ⟨polys.map (alignShapeOut B r), ?_, by simp, ?_⟩
    · unfold align_shape
      rw [hr]
      simp only [Option.bind_eq_bind, Option.some_bind]
      exact hmain
    · intro q hq
      obtain ⟨p, hp, hpq⟩ := List.mem_map.mp hq
      rw [← hpq]
      rfl
  · intro hB
    have hnone := hspec.2 hB
    unfold align_shape
    rw [hnone]
    rfl

/-- C9 (amended): an input of size zero is skipped when the common broadcast
shape is computed: whenever `align_shape` succeeds, every nonzero-size
input's output carries the broadcast of the nonzero-size inputs' shapes
alone.  (The call can nevertheless fail when a zero-size input's own shape is
incompatible with that common shape; see the counterexample.) -/
theorem C9_align_shape_skips_empty (polys : List PolynomialArray)
    (hW : ∀ p ∈ polys, WF p) :
    ∀ qs, align_shape polys = some qs →
      ∃ B, commonBroadcast ((polys.filter (fun p => p.shape.prod ≠ 0)).map
          (fun p => p.shape)) = some B ∧
        qs.length = polys.length ∧
        ∀ (k : Nat) (p q : PolynomialArray), polys[k]? = some p →
          qs[k]? = some q → p.shape.prod ≠ 0 → q.shape = B := by
  intro qs hqs
  obtain ⟨r, hr, hmap⟩ := align_shape_some_inv hqs
  have hspec := codeFold_spec polys hW (NDArray.intScalar 1)
  rcases hS : ((polys.filter (fun p => p.shape.prod ≠ 0)).map
      (fun p => p.shape)).foldlM (fun S s => broadcastShapes S s)
      (NDArray.intScalar 1).shape with _ | B
  · rw [hspec.2 hS] at hr
    cases hr
  · obtain ⟨r2, hr2, hr2s, hall, -⟩ := hspec.1 B hS
    rw [hr2] at hr
    obtain rfl := Option.some.inj hr
    obtain ⟨hlen, hinv⟩ := mapM_some_inv _ polys qs hmap
    refine ⟨B, hS, hlen, ?_⟩
    intro k p q hpk hqk hnz
    obtain ⟨q2, hq2, hfp⟩ := hinv k p hpk
    rw [hq2] at hqk
    obtain rfl := (Option.some.inj hqk).symm
    rcases hcm : p.coefficients.mapM (fun c => NDArray.mulB c r2) with _ | coeffs
    · rw [hcm] at hfp; simp at hfp
    · rw [hcm] at hfp
      simp only [Option.bind_eq_bind, Option.some_bind] at hfp
      obtain ⟨d0, drest, hds, hqsh, -⟩ := from_attributes_shape hfp
      obtain ⟨hplen, hpne, -, hhom, -, -⟩ := hW p (List.getElem?_mem hpk)
      obtain ⟨c0, crest, hcs⟩ := List.exists_cons_of_ne_nil hpne
      obtain ⟨hclen, hcinv⟩ := mapM_some_inv _ _ _ hcm
      obtain ⟨d02, hd02, hmul0⟩ := hcinv 0 c0 (by rw [hcs]; simp)
      have hd0eq : d02 = d0 := by
        rw [hds] at hd02
        have h9 : d0 = d02 := by simpa using hd02
        exact h9.symm
      subst hd0eq
      have hsh := mulB_shape hmul0
      rw [(hhom c0 (by rw [hcs]; simp)).1, hr2s,
        hall p (List.getElem?_mem hpk) hnz] at hsh
      rw [hqsh, ← Option.some.inj hsh]

/-- Concrete size-zero polynomial array of shape (0,). -/
def e0P : PolynomialArray := ⟨["x"], [[1]], [⟨[0], .int64, []⟩], [0], .int64⟩

/-- Concrete polynomial array of shape (1,). -/
def s1P : PolynomialArray := ⟨["x"], [[1]], [⟨[1], .int64, [7]⟩], [1], .int64⟩

/-- Concrete polynomial array of shape (2,). -/
def s2P : PolynomialArray := ⟨["x"], [[1]], [⟨[2], .int64, [7, 8]⟩], [2], .int64⟩

/-- Concrete polynomial 4*x of shape (). -/
def sc4P : PolynomialArray := ⟨["x"], [[1]], [⟨[], .int64, [4]⟩], [], .int64⟩

/-- Concrete polynomial array of shape (1, 2). -/
def m12P : PolynomialArray :=
  ⟨["x", "y"], [[0, 0], [1, 0], [0, 1]],
   [⟨[1, 2], .int64, [1, 0]⟩, ⟨[1, 2], .int64, [2, 3]⟩,
    ⟨[1, 2], .int64, [0, -1]⟩], [1, 2], .int64⟩

/-- Concrete polynomial array of shape (2, 3). -/
def r23P : PolynomialArray :=
  ⟨["x"], [[1]], [⟨[2, 3], .int64, [1, 1, 1, 1, 1, 1]⟩], [2, 3], .int64⟩

/-- Concrete polynomial array of shape (4, 3). -/
def r43P : PolynomialArray :=
  ⟨["x"], [[1]], [⟨[4, 3], .int64, List.replicate 12 1⟩], [4, 3], .int64⟩

theorem C5_counterexample :
    commonBroadcast [e0P.shape, s1P.shape] = some [0] ∧
    (align_shape [e0P, s1P]).map (fun qs => qs.map (fun q => q.shape)) =
      some [[0], [1]] := by decide

theorem C5_align_shape_witness :
    (∃ qs, align_shape [sc4P, m12P] = some qs ∧
      qs.length = ([sc4P, m12P] : List PolynomialArray).length ∧
      ∀ q ∈ qs, q.shape = [1, 2]) ∧
    align_shape [r23P, r43P] = none :=
  ⟨(C5_align_shape [sc4P, m12P] (by decide) (by decide)).1 [1, 2] (by decide),
   (C5_align_shape [r23P, r43P] (by decide) (by decide)).2 (by decide)⟩

theorem C9_counterexample :
    (align_shape [s2P]).isSome = true ∧
    align_shape [e0P, s2P] = none ∧
    commonBroadcast ((([e0P, s2P] : List PolynomialArray).filter
      (fun p => p.shape.prod ≠ 0)).map (fun p => p.shape)) = some [2] := by
  decide

theorem C9_align_shape_skips_empty_witness :
    ∃ B, commonBroadcast ((([e0P, s1P] : List PolynomialArray).filter
        (fun p => p.shape.prod ≠ 0)).map (fun p => p.shape)) = some B ∧
      ([⟨["x"], [[0]], [⟨[0], .int64, []⟩], [0], .int64⟩,
        ⟨["x"], [[1]], [⟨[1], .int64, [7]⟩], [1], .int64⟩] :
          List PolynomialArray).length =
        ([e0P, s1P] : List PolynomialArray).length ∧
      ∀ (k : Nat) (p q : PolynomialArray),
        ([e0P, s1P] : List PolynomialArray)[k]? = some p →
        ([⟨["x"], [[0]], [⟨[0], .int64, []⟩], [0], .int64⟩,
          ⟨["x"], [[1]], [⟨[1], .int64, [7]⟩], [1], .int64⟩] :
            List PolynomialArray)[k]? = some q →
        p.shape.prod ≠ 0 → q.shape = B :=
  C9_align_shape_skips_empty [e0P, s1P] (by decide)
    [⟨["x"], [[0]], [⟨[0], .int64, []⟩], [0], .int64⟩,
     ⟨["x"], [[1]], [⟨[1], .int64, [7]⟩], [1], .int64⟩] (by decide)

/-! ### Claim C6: dtype alignment -/

theorem promote_eq_float_iff {a b : Dtype} :
    a.promote b = .float64 ↔ a = .float64 ∨ b = .float64 := by
  cases a <;> cases b <;> simp [Dtype.promote]

theorem foldl_promote_float_iff : ∀ (rest : List Dtype) (d : Dtype),
    rest.foldl Dtype.promote d = .float64 ↔
      d = .float64 ∨ ∃ x ∈ rest, x = .float64 := by
  intro rest
  induction rest with
  | nil => intro d; simp
  | cons x xs ih =>
    intro d
    rw [List.foldl_cons, ih (d.promote x)]
    rw [promote_eq_float_iff]
    constructor
    · rintro ((h | h) | ⟨y, hy, hyf⟩)
      · exact Or.inl h
      · exact Or.inr ⟨x, by simp, h⟩
      · exact Or.inr ⟨y, by simp [hy], hyf⟩
    · rintro (h | ⟨y, hy, hyf⟩)
      · exact Or.inl (Or.inl h)
      · rcases List.mem_cons.mp hy with h2 | h2
        · exact Or.inl (Or.inr (h2 ▸ hyf))
        · exact Or.inr ⟨y, h2, hyf⟩

theorem sumDtype_float_iff {ds : List Dtype} (hne : ds ≠ []) :
    sumDtype ds = .float64 ↔ ∃ d ∈ ds, d = .float64 := by
  cases ds with
  | nil => exact absurd rfl hne
  | cons d rest =>
    show rest.foldl Dtype.promote d = .float64 ↔ _
    rw [foldl_promote_float_iff]
    constructor
    · rintro (h | ⟨x, hx, hxf⟩)
      · exact ⟨d, by simp, h⟩
      · exact ⟨x, by simp [hx], hxf⟩
    · rintro ⟨x, hx, hxf⟩
      rcases List.mem_cons.mp hx with h2 | h2
      · exact Or.inl (h2 ▸ hxf)
      · exact Or.inr ⟨x, h2, hxf⟩

/-- Closed form of one output of dtype alignment. -/
def alignDtypeOut (dt : Dtype) (p : PolynomialArray) : PolynomialArray :=
  ⟨p.names, p.exponents, p.coefficients.map (castTo dt), p.shape, dt⟩

/-- C6: `align_dtype` gives every output the common dtype obtained by summing
one value of each input's dtype together (any float operand makes the result
float), and leaves every coefficient value unchanged by the cast. -/
theorem C6_align_dtype (polys : List PolynomialArray) (hW : ∀ p ∈ polys, WF p)
    (hne : polys ≠ []) :
    ∃ qs, align_dtype polys = some qs ∧ qs.length = polys.length ∧
      (∀ q ∈ qs, q.dtype = sumDtype (polys.map (fun p => p.dtype))) ∧
      (sumDtype (polys.map (fun p => p.dtype)) = .float64 ↔
        ∃ p ∈ polys, p.dtype = .float64) ∧
      ∀ (k : Nat) (p q : PolynomialArray), polys[k]? = some p →
        qs[k]? = some q →
        q.names = p.names ∧ q.exponents = p.exponents ∧ q.shape = p.shape ∧
        q.coefficients.map (fun c => c.data) =
          p.coefficients.map (fun c => c.data) := by
  have hout : ∀ p ∈ polys,
      from_attributes p.exponents p.coefficients p.names
        (some (sumDtype (polys.map (fun p => p.dtype)))) false =
      some (alignDtypeOut (sumDtype (polys.map (fun p => p.dtype))) p) := by
    intro p hp
    obtain ⟨hplen, hpne, har, hhom, -, -⟩ := hW p hp
    obtain ⟨c0, crest, hcs⟩ := List.exists_cons_of_ne_nil hpne
    rw [from_attributes_false_eq hcs hplen har
      (fun c hc => ((hhom c hc).1).trans ((hhom c0 (by rw [hcs]; simp)).1).symm)]
    unfold alignDtypeOut resolveDtype
    rw [Option.getD_some, (hhom c0 (by rw [hcs]; simp)).1]
  have hmain := mapM_eq_some_map _ _ polys hout
  refine ⟨polys.map (alignDtypeOut (sumDtype (polys.map (fun p => p.dtype)))),
    ?_, by simp, ?_, ?_, ?_⟩
  · unfold align_dtype
    exact hmain
  · intro q hq
    obtain ⟨p, -, hpq⟩ := List.mem_map.mp hq
    rw [← hpq]
    rfl
  · rw [sumDtype_float_iff (by simpa using hne)]
    constructor
    · rintro ⟨d, hd, hdf⟩
      obtain ⟨p, hp, hpd⟩ := List.mem_map.mp hd
      exact ⟨p, hp, hpd ▸ hdf⟩
    · rintro ⟨p, hp, hpf⟩
      exact ⟨p.dtype, List.mem_map.mpr ⟨p, hp, rfl⟩, hpf⟩
  · intro k p q hpk hqk
    rw [List.getElem?_map, hpk, Option.map_some'] at hqk
    obtain rfl := (Option.some.inj hqk).symm
    refine ⟨rfl, rfl, rfl, ?_⟩
    show (p.coefficients.map _).map _ = _
    rw [List.map_map]
    rfl

/-- Concrete plain float scalar 4.0, coerced to a constant polynomial
array. -/
def fscalarP : PolynomialArray := ⟨[], [[]], [⟨[], .float64, [4]⟩], [], .float64⟩

theorem C6_align_dtype_witness :
    (∃ qs, align_dtype [xP, fscalarP] = some qs ∧
      qs.length = ([xP, fscalarP] : List PolynomialArray).length ∧
      (∀ q ∈ qs, q.dtype =
        sumDtype (([xP, fscalarP] : List PolynomialArray).map
          (fun p => p.dtype))) ∧
      (sumDtype (([xP, fscalarP] : List PolynomialArray).map
          (fun p => p.dtype)) = .float64 ↔
        ∃ p ∈ ([xP, fscalarP] : List PolynomialArray), p.dtype = .float64) ∧
      ∀ (k : Nat) (p q : PolynomialArray),
        ([xP, fscalarP] : List PolynomialArray)[k]? = some p →
        qs[k]? = some q →
        q.names = p.names ∧ q.exponents = p.exponents ∧ q.shape = p.shape ∧
        q.coefficients.map (fun c => c.data) =
          p.coefficients.map (fun c => c.data)) ∧
    align_dtype [xP, fscalarP] = some
      [⟨["x"], [[1]], [⟨[], .float64, [1]⟩], [], .float64⟩,
       ⟨[], [[]], [⟨[], .float64, [4]⟩], [], .float64⟩] :=
  ⟨C6_align_dtype [xP, fscalarP] (by decide) (by decide), by decide⟩

/-! ### Claim C8: vstack alignment -/

theorem from_attributes_false_inv {exps : List (List Nat)} {cs : List NDArray}
    {names : List String} {dtq : Option Dtype} {q : PolynomialArray}
    (h : from_attributes exps cs names dtq false = some q) :
    q.exponents = exps ∧ q.names = names ∧
    q.dtype = resolveDtype dtq cs ∧
    q.coefficients = cs.map (castTo (resolveDtype dtq cs)) ∧
    exps.length = cs.length := by
  cases cs with
  | nil => simp [from_attributes] at h
  | cons c0 rest =>
    simp only [from_attributes, Bool.false_eq_true, if_false] at h
    split at h
    · rename_i hcond
      have hl2 : exps.length =
          ((c0 :: rest).map (castTo (resolveDtype dtq (c0 :: rest)))).length := by
        simpa using hcond.1
      rw [List.map_fst_zip _ _ hl2.le, List.map_snd_zip _ _ hl2.ge] at h
      obtain rfl := (Option.some.inj h).symm
      exact ⟨rfl, rfl, rfl, rfl, hcond.1⟩
    · cases h

theorem nonconstant_names_ne_nil {p : PolynomialArray} (hW : WF p)
    (h : p.isconstant = false) : p.names ≠ [] := by
  unfold PolynomialArray.isconstant at h
  rw [List.all_eq_false] at h
  obtain ⟨pr, hpr, hfail⟩ := h
  have he : pr.1 ∈ p.exponents := (List.of_mem_zip hpr).1
  have har := hW.2.2.1 pr.1 he
  simp only [Bool.or_eq_true, not_or] at hfail
  have hnz : pr.1.all (fun x => x = 0) = false := by
    cases hx : pr.1.all (fun x => x = 0)
    · rfl
    · exact absurd hx hfail.2
  rw [List.all_eq_false] at hnz
  obtain ⟨x, hx, -⟩ := hnz
  intro hnil
  rw [hnil] at har
  rw [List.length_eq_zero.mp har] at hx
  cases hx

theorem align_indeterminants_names {polys qs : List PolynomialArray}
    (h : align_indeterminants polys = some qs)
    (hcn : commonNames polys ≠ []) : ∀ q ∈ qs, q.names = commonNames polys := by
  have hcne : (commonNames polys).isEmpty = false := by
    cases h2 : commonNames polys with
    | nil => exact absurd h2 hcn
    | cons a as => rfl
  simp only [align_indeterminants, hcne, Bool.false_eq_true, if_false] at h
  obtain ⟨hlen, hall⟩ := mapM_some_inv _ _ _ h
  intro q hq
  obtain ⟨k, hk⟩ := List.getElem?_of_mem hq
  have hklt : k < polys.length := by
    rw [← hlen]
    exact (List.getElem?_eq_some_iff.mp hk).1
  obtain ⟨p, hp⟩ : ∃ p, polys[k]? = some p :=
    ⟨polys[k], List.getElem?_eq_getElem hklt⟩
  obtain ⟨q2, hq2, hfp⟩ := hall k p hp
  rw [hk] at hq2
  obtain rfl := Option.some.inj hq2
  split at hfp
  · exact (from_attributes_false_inv hfp).2.1
  · split at hfp
    · exact (from_attributes_false_inv hfp).2.1
    · cases hfp

theorem align_exponents_some_inv {polys qs : List PolynomialArray}
    (h : align_exponents polys = some qs) :
    ∃ (polys2 : List PolynomialArray) (p0 : PolynomialArray)
      (rest : List PolynomialArray),
      ((polys2 = polys ∧ ∀ p ∈ polys, ∀ p2 ∈ polys, p.names = p2.names) ∨
        align_indeterminants polys = some polys2) ∧
      polys2 = p0 :: rest ∧
      qs.length = polys2.length ∧
      ∀ (k : Nat) (p : PolynomialArray), polys2[k]? = some p →
        ∃ q, qs[k]? = some q ∧
          from_attributes (globalExponents p0.exponents rest)
            ((globalExponents p0.exponents rest).map (fun t =>
              (lookupCoeff p t).getD (NDArray.zeros p.shape p.dtype)))
            p.names none false = some q := by
  cases polys with
  | nil => simp [align_exponents] at h
  | cons r0 rrest =>
    by_cases hall : ((r0 :: rrest).all (fun p => p.names = r0.names)) = true
    · simp only [align_exponents, hall, if_true, Option.bind_eq_bind,
        Option.some_bind] at h
      obtain ⟨hlen, hinv⟩ := mapM_some_inv _ _ _ h
      refine ⟨r0 :: rrest, r0, rrest, Or.inl ⟨rfl, ?_⟩, rfl, hlen, hinv⟩
      simp only [List.all_eq_true, decide_eq_true_eq] at hall
      intro p hp p2 hp2
      rw [hall p hp, hall p2 hp2]
    · have hallf : ((r0 :: rrest).all (fun p => p.names = r0.names)) = false := by
        cases h2 : (r0 :: rrest).all (fun p => p.names = r0.names)
        · rfl
        · exact absurd h2 hall
      simp only [align_exponents, hallf, Bool.false_eq_true, if_false,
        Option.bind_eq_bind] at h
      rcases hai : align_indeterminants (r0 :: rrest) with _ | polys2
      · rw [hai] at h; simp at h
      · rw [hai] at h
        simp only [Option.some_bind] at h
        cases polys2 with
        | nil => simp at h
        | cons p0 rest =>
          obtain ⟨hlen, hinv⟩ := mapM_some_inv _ _ _ h
          exact ⟨p0 :: rest, p0, rest, Or.inr rfl, rfl, hlen, hinv⟩

theorem align_indeterminants_length {polys qs : List PolynomialArray}
    (h : align_indeterminants polys = some qs) : qs.length = polys.length := by
  by_cases hcn : (commonNames polys).isEmpty = true
  · simp only [align_indeterminants, hcn, if_true] at h
    rw [← Option.some.inj h]
  · have hcne : (commonNames polys).isEmpty = false := by
      cases h2 : (commonNames polys).isEmpty
      · rfl
      · exact absurd h2 hcn
    simp only [align_indeterminants, hcne, Bool.false_eq_true, if_false] at h
    exact (mapM_some_inv _ _ _ h).1

theorem align_dtype_some_inv {polys qs : List PolynomialArray}
    (h : align_dtype polys = some qs) :
    qs.length = polys.length ∧
    ∀ (k : Nat) (p : PolynomialArray), polys[k]? = some p →
      ∃ q, qs[k]? = some q ∧ q.exponents = p.exponents ∧ q.names = p.names ∧
        q.dtype = sumDtype (polys.map (fun r => r.dtype)) := by
  unfold align_dtype at h
  obtain ⟨hlen, hall⟩ := mapM_some_inv _ _ _ h
  refine ⟨hlen, ?_⟩
  intro k p hpk
  obtain ⟨q, hq, hfp⟩ := hall k p hpk
  obtain ⟨he, hn, hd, -, -⟩ := from_attributes_false_inv hfp
  exact ⟨q, hq, he, hn, by rw [hd]; rfl⟩

/-- C8 (amended): `vstack` reconciles its inputs through `align_exponents`
followed by `align_dtype` (not the full section-4.6 orchestrator): the
aligned inputs it concatenates share one common exponent list and one common
dtype, and additionally one common name list whenever at least one input is
non-constant; the stacked output carries the first aligned input's names,
exponent list and dtype. -/
theorem C8_vstack_alignment (tup : List PolynomialArray)
    (hW : ∀ p ∈ tup, WF p) :
    ∀ arrays, vstack_aligned tup = some arrays →
      arrays.length = tup.length ∧
      (∀ q1 ∈ arrays, ∀ q2 ∈ arrays, q1.exponents = q2.exponents ∧
        q1.dtype = q2.dtype) ∧
      ((∃ p ∈ tup, p.isconstant = false) →
        ∀ q1 ∈ arrays, ∀ q2 ∈ arrays, q1.names = q2.names) ∧
      (∀ out, vstack tup = some out →
        ∃ a0 arest, arrays = a0 :: arest ∧ out.names = a0.names ∧
          out.exponents = a0.exponents ∧ out.dtype = a0.dtype) := by
  intro arrays harr
  obtain ⟨mid, hexp, hdt⟩ : ∃ mid, align_exponents tup = some mid ∧
      align_dtype mid = some arrays := by
    unfold vstack_aligned at harr
    rcases he : align_exponents tup with _ | mid
    · rw [he] at harr; simp at harr
    · rw [he] at harr
      exact ⟨mid, rfl, by simpa using harr⟩
  obtain ⟨polys2, p0, rest, hbranch, hp2, hmidlen, hmidinv⟩ :=
    align_exponents_some_inv hexp
  obtain ⟨hdlen, hdinv⟩ := align_dtype_some_inv hdt
  have hmem2idx : ∀ q ∈ arrays, ∃ (k : Nat) (p : PolynomialArray) (m : PolynomialArray),
      polys2[k]? = some p ∧ mid[k]? = some m ∧ arrays[k]? = some q ∧
      m.exponents = globalExponents p0.exponents rest ∧ m.names = p.names ∧
      q.exponents = m.exponents ∧ q.names = m.names ∧
      q.dtype = sumDtype (mid.map (fun r => r.dtype)) := by
    intro q hq
    obtain ⟨k, hk⟩ := List.getElem?_of_mem hq
    have hklt : k < mid.length := by
      rw [← hdlen]
      exact (List.getElem?_eq_some_iff.mp hk).1
    obtain ⟨m, hm⟩ : ∃ m, mid[k]? = some m :=
      ⟨mid[k], List.getElem?_eq_getElem hklt⟩
    have hklt2 : k < polys2.length := by
      rw [← hmidlen]
      exact hklt
    obtain ⟨p, hp⟩ : ∃ p, polys2[k]? = some p :=
      ⟨polys2[k], List.getElem?_eq_getElem hklt2⟩
    obtain ⟨m2, hm2, hfa⟩ := hmidinv k p hp
    rw [hm] at hm2
    obtain rfl := Option.some.inj hm2
    obtain ⟨q2, hq2, hqe, hqn, hqd⟩ := hdinv k m hm
    rw [hk] at hq2
    obtain rfl := Option.some.inj hq2
    obtain ⟨hme, hmn, -, -, -⟩ := from_attributes_false_inv hfa
    exact ⟨k, p, m, hp, hm, hk, hme, hmn, hqe, hqn, hqd⟩
  refine ⟨?_, ?_, ?_, ?_⟩
  · rw [hdlen, hmidlen]
    rcases hbranch with ⟨hb, -⟩ | hb
    · rw [hb]
    · exact align_indeterminants_length hb
  · intro q1 hq1 q2 hq2
    obtain ⟨k1, p1, m1, -, -, -, hme1, -, hqe1, -, hqd1⟩ := hmem2idx q1 hq1
    obtain ⟨k2, p2, m2, -, -, -, hme2, -, hqe2, -, hqd2⟩ := hmem2idx q2 hq2
    refine ⟨?_, ?_⟩
    · rw [hqe1, hqe2, hme1, hme2]
    · rw [hqd1, hqd2]
  · intro hnc q1 hq1 q2 hq2
    obtain ⟨k1, p1, m1, hp1, -, -, -, hmn1, -, hqn1, -⟩ := hmem2idx q1 hq1
    obtain ⟨k2, p2, m2, hp2b, -, -, -, hmn2, -, hqn2, -⟩ := hmem2idx q2 hq2
    rcases hbranch with ⟨hb, heq⟩ | hb
    · rw [hqn1, hqn2, hmn1, hmn2]
      rw [hb] at hp1 hp2b
      exact heq p1 (List.getElem?_mem hp1) p2 (List.getElem?_mem hp2b)
    · obtain ⟨pn, hpn, hpnc⟩ := hnc
      have hcn : commonNames tup ≠ [] := by
        obtain ⟨nm, hnm⟩ := List.exists_mem_of_ne_nil _
          (nonconstant_names_ne_nil (hW pn hpn) hpnc)
        exact List.ne_nil_of_mem (mem_commonNames.mpr ⟨pn, hpn, hpnc, hnm⟩)
      have hall := align_indeterminants_names hb hcn
      rw [hqn1, hqn2, hmn1, hmn2,
        hall p1 (List.getElem?_mem hp1), hall p2 (List.getElem?_mem hp2b)]
  · intro out hout
    unfold vstack at hout
    rw [harr] at hout
    simp only [Option.bind_eq_bind, Option.some_bind] at hout
    cases arrays with
    | nil => simp at hout
    | cons a0 arest =>
      obtain ⟨coeffs, -, hout2⟩ := Option.bind_eq_some.mp hout
      obtain ⟨c0, -, hout3⟩ := Option.bind_eq_some.mp hout2
      obtain rfl := (Option.some.inj hout3).symm
      exact ⟨a0, arest, rfl, rfl, rfl, rfl⟩

/-- Concrete constant 5 declared over name list [x]. -/
def cx5P : PolynomialArray := ⟨["x"], [[0]], [NDArray.intScalar 5], [], .int64⟩

/-- Concrete constant 3 declared over name list [y]. -/
def cy3P : PolynomialArray := ⟨["y"], [[0]], [NDArray.intScalar 3], [], .int64⟩

theorem C8_counterexample :
    (vstack [cx5P, cy3P]).isSome = true ∧
    (vstack_aligned [cx5P, cy3P]).map (fun l => l.map (fun p => p.names)) =
      some [["x"], ["y"]] := by decide

/-- Concrete plain constant 4 with empty name list. -/
def c4P : PolynomialArray := ⟨[], [[]], [NDArray.intScalar 4], [], .int64⟩

theorem C8_vstack_alignment_witness :
    ([⟨["x"], [[1], [0]], [NDArray.intScalar 1, NDArray.intScalar 0], [],
        .int64⟩,
      ⟨["x"], [[1], [0]], [NDArray.intScalar 0, NDArray.intScalar 4], [],
        .int64⟩] : List PolynomialArray).length =
      ([xP, c4P] : List PolynomialArray).length ∧
    (∀ q1 ∈ ([⟨["x"], [[1], [0]],
        [NDArray.intScalar 1, NDArray.intScalar 0], [], .int64⟩,
      ⟨["x"], [[1], [0]], [NDArray.intScalar 0, NDArray.intScalar 4], [],
        .int64⟩] : List PolynomialArray),
      ∀ q2 ∈ ([⟨["x"], [[1], [0]],
          [NDArray.intScalar 1, NDArray.intScalar 0], [], .int64⟩,
        ⟨["x"], [[1], [0]], [NDArray.intScalar 0, NDArray.intScalar 4], [],
          .int64⟩] : List PolynomialArray),
        q1.exponents = q2.exponents ∧ q1.dtype = q2.dtype) ∧
    ((∃ p ∈ ([xP, c4P] : List PolynomialArray), p.isconstant = false) →
      ∀ q1 ∈ ([⟨["x"], [[1], [0]],
          [NDArray.intScalar 1, NDArray.intScalar 0], [], .int64⟩,
        ⟨["x"], [[1], [0]], [NDArray.intScalar 0, NDArray.intScalar 4], [],
          .int64⟩] : List PolynomialArray),
        ∀ q2 ∈ ([⟨["x"], [[1], [0]],
            [NDArray.intScalar 1, NDArray.intScalar 0], [], .int64⟩,
          ⟨["x"], [[1], [0]], [NDArray.intScalar 0, NDArray.intScalar 4], [],
            .int64⟩] : List PolynomialArray), q1.names = q2.names) ∧
    (∀ out, vstack [xP, c4P] = some out →
      ∃ a0 arest,
        ([⟨["x"], [[1], [0]], [NDArray.intScalar 1, NDArray.intScalar 0], [],
            .int64⟩,
          ⟨["x"], [[1], [0]], [NDArray.intScalar 0, NDArray.intScalar 4], [],
            .int64⟩] : List PolynomialArray) = a0 :: arest ∧
        out.names = a0.names ∧ out.exponents = a0.exponents ∧
        out.dtype = a0.dtype) :=
  C8_vstack_alignment [xP, c4P] (by decide)
    [⟨["x"], [[1], [0]], [NDArray.intScalar 1, NDArray.intScalar 0], [],
      .int64⟩,
     ⟨["x"], [[1], [0]], [NDArray.intScalar 0, NDArray.intScalar 4], [],
      .int64⟩] (by decide)

/-! ### Claim C7: elementwise addition -/

theorem indexOf?_of_getElem?_nodup {α : Type} [BEq α] [LawfulBEq α]
    {l : List α} (hnd : l.Nodup) : ∀ {j : Nat} {t : α}, l[j]? = some t →
      l.indexOf? t = some j := by
  induction l with
  | nil => intro j t hj; simp at hj
  | cons a as ih =>
    intro j t hj
    cases j with
    | zero =>
      simp only [List.getElem?_cons_zero, Option.some.injEq] at hj
      rw [List.indexOf?_cons, if_pos (by rw [hj]; exact beq_self_eq_true t)]
    | succ j =>
      simp only [List.getElem?_cons_succ] at hj
      have hmem : t ∈ as := List.getElem?_mem hj
      have hne : ¬ (a == t) = true := by
        simp only [beq_iff_eq]
        intro h
        exact (List.nodup_cons.mp hnd).1 (h ▸ hmem)
      rw [List.indexOf?_cons, if_neg hne,
        ih (List.nodup_cons.mp hnd).2 hj, Option.map_some']

/-- Characterization of the slot-writing fold of `add`: the output buffer's
attributes and slot list are untouched; each position of the buffer holding a
key of the aligned inputs receives the masked coefficient sum, every other
position retains the buffer's coefficient. -/
theorem writeFold_spec (w : Nat → Bool) :
    ∀ (L : List (List Nat × NDArray × NDArray)) (o : PolynomialArray),
    (L.map Prod.fst).Nodup →
    (∀ pr ∈ L, pr.1 ∈ o.exponents) →
    o.exponents.Nodup →
    o.exponents.length = o.coefficients.length →
    ∃ r, L.foldlM
      (fun acc pr => do
        let i ← acc.exponents.indexOf? pr.1
        let oc ← acc.coefficients[i]?
        some { acc with
          coefficients :=
            acc.coefficients.set i (NDArray.addWhere pr.2.1 pr.2.2 oc w) }) o =
      some r ∧
      r.names = o.names ∧ r.exponents = o.exponents ∧ r.shape = o.shape ∧
      r.dtype = o.dtype ∧
      r.coefficients.length = o.coefficients.length ∧
      ∀ (j : Nat) (t : List Nat), o.exponents[j]? = some t →
        (t ∉ L.map Prod.fst → r.coefficients[j]? = o.coefficients[j]?) ∧
        (∀ pr ∈ L, pr.1 = t → ∃ oc, o.coefficients[j]? = some oc ∧
          r.coefficients[j]? = some (NDArray.addWhere pr.2.1 pr.2.2 oc w)) := by
  intro L
  induction L with
  | nil =>
    intro o _ _ _ _
    refine ⟨o, by simp, rfl, rfl, rfl, rfl, rfl, ?_⟩
    intro j t _
    exact ⟨fun _ => rfl, fun pr hpr => by cases hpr⟩
  | cons pr L2 ih =>
    intro o hndL hsub hond holen
    obtain ⟨j0, hj0⟩ := List.getElem?_of_mem (hsub pr (by simp))
    have hidx : o.exponents.indexOf? pr.1 = some j0 :=
      indexOf?_of_getElem?_nodup hond hj0
    have hj0lt : j0 < o.coefficients.length := by
      rw [← holen]
      exact (List.getElem?_eq_some_iff.mp hj0).1
    obtain ⟨oc0, hoc0⟩ : ∃ oc, o.coefficients[j0]? = some oc :=
      ⟨o.coefficients[j0], List.getElem?_eq_getElem hj0lt⟩
    have hstep : (do
        let i ← o.exponents.indexOf? pr.1
        let oc ← o.coefficients[i]?
        some { o with
          coefficients :=
            o.coefficients.set i (NDArray.addWhere pr.2.1 pr.2.2 oc w) }) =
        some { o with
          coefficients :=
            o.coefficients.set j0 (NDArray.addWhere pr.2.1 pr.2.2 oc0 w) } := by
      rw [hidx]
      simp only [Option.bind_eq_bind, Option.some_bind]
      rw [hoc0]
      simp only [Option.some_bind]
    set acc : PolynomialArray := { o with
      coefficients :=
        o.coefficients.set j0 (NDArray.addWhere pr.2.1 pr.2.2 oc0 w) } with hacc
    have hsub2 : ∀ q ∈ L2, q.1 ∈ acc.exponents := fun q hq =>
      hsub q (by simp [hq])
    have hlen2 : acc.exponents.length = acc.coefficients.length := by
      show o.exponents.length = (o.coefficients.set j0 _).length
      rw [List.length_set]
      exact holen
    obtain ⟨r, hr, hrn, hre, hrs, hrd, hrl, hrc⟩ :=
      ih acc (List.nodup_cons.mp hndL).2 hsub2 hond hlen2
    refine ⟨r, ?_, hrn, hre, hrs, hrd, ?_, ?_⟩
    · rw [List.foldlM_cons, hstep]
      simpa using hr
    · rw [hrl]
      show (o.coefficients.set j0 _).length = _
      rw [List.length_set]
    · intro j t hj
      have hj2 : acc.exponents[j]? = some t := hj
      constructor
      · intro hnmem
        have hne : pr.1 ≠ t := fun h => hnmem (by simp [← h])
        have hjne : j0 ≠ j := by
          intro h
          rw [h, hj] at hj0
          exact hne (Option.some.inj hj0).symm
        have hrj := (hrc j t hj2).1 (fun h => hnmem (by simp [h]))
        rw [hrj]
        show (o.coefficients.set j0 _)[j]? = _
        rw [List.getElem?_set_ne hjne]
      · intro q hq hqt
        rcases List.mem_cons.mp hq with hq2 | hq2
        · have hqt2 : pr.1 = t := hq2 ▸ hqt
          have hjj0 : j0 = j := by
            have h1 := indexOf?_of_getElem?_nodup hond hj
            rw [← hqt2] at h1
            rw [hidx] at h1
            exact Option.some.inj h1
          subst hjj0
          have hnmem2 : t ∉ L2.map Prod.fst :=
            hqt2 ▸ (List.nodup_cons.mp hndL).1
          have hru := (hrc j0 t hj2).1 hnmem2
          rw [hq2]
          refine ⟨oc0, hoc0, ?_⟩
          rw [hru]
          show (o.coefficients.set j0 _)[j0]? = _
          rw [List.getElem?_set_self hj0lt]
        · have hne : pr.1 ≠ t := by
            intro h
            exact (List.nodup_cons.mp hndL).1
              (h ▸ List.mem_map.mpr ⟨q, hq2, hqt⟩)
          have hjne : j0 ≠ j := by
            intro h
            rw [h, hj] at hj0
            exact hne (Option.some.inj hj0).symm
          obtain ⟨oc, hoc, hrcj⟩ := (hrc j t hj2).2 q hq2 hqt
          refine ⟨oc, ?_, hrcj⟩
          rw [← hoc]
          show o.coefficients[j]? = (o.coefficients.set j0 _)[j]?
          rw [List.getElem?_set_ne hjne]

theorem writeFold_fields (w : Nat → Bool) :
    ∀ (L : List (List Nat × NDArray × NDArray)) (o r : PolynomialArray),
    L.foldlM
      (fun acc pr => do
        let i ← acc.exponents.indexOf? pr.1
        let oc ← acc.coefficients[i]?
        some { acc with
          coefficients :=
            acc.coefficients.set i (NDArray.addWhere pr.2.1 pr.2.2 oc w) }) o =
      some r →
    r.exponents = o.exponents ∧ r.names = o.names ∧ r.shape = o.shape ∧
    r.dtype = o.dtype := by
  intro L
  induction L with
  | nil =>
    intro o r h
    have hro : o = r := by simpa using h
    subst hro
    exact ⟨rfl, rfl, rfl, rfl⟩
  | cons pr L2 ih =>
    intro o r h
    rw [List.foldlM_cons] at h
    rcases hstep : (do
        let i ← o.exponents.indexOf? pr.1
        let oc ← o.coefficients[i]?
        some { o with
          coefficients :=
            o.coefficients.set i (NDArray.addWhere pr.2.1 pr.2.2 oc w) } :
          Option PolynomialArray) with _ | acc
    · rw [hstep] at h; simp at h
    · rw [hstep] at h
      obtain ⟨i, hi, hstep2⟩ := Option.bind_eq_some.mp hstep
      obtain ⟨oc, hoc, hstep3⟩ := Option.bind_eq_some.mp hstep2
      obtain rfl := (Option.some.inj hstep3).symm
      have hacc := ih _ _ (by simpa using h)
      exact hacc

/-- C7: `add` first aligns its two inputs through the top-level alignment
orchestrator; with no explicit output it writes each slot's masked
coefficientwise sum into a fresh buffer and applies the cleaning step, while
with an explicit output it writes into that buffer and returns it uncleaned,
preserving the buffer's slot identity and order (zero terms are never
dropped); each write honors the `where` mask elementwise and positions where
the mask is false retain the buffer's value. -/
theorem C7_add (x1 x2 : PolynomialArray) (w : Nat → Bool)
    (y1 y2 : PolynomialArray)
    (halign : align_polynomials [x1, x2] = some [y1, y2]) :
    (add x1 x2 none w = (writeSlotSums y1 y2
        (ndpolyNew y1.exponents y1.shape y1.names y1.dtype) w).bind
        (fun res => clean_attributes res)) ∧
    (∀ o, add x1 x2 (some o) w = writeSlotSums y1 y2 o w) ∧
    (∀ o r, writeSlotSums y1 y2 o w = some r → r.exponents = o.exponents ∧
      r.names = o.names ∧ r.shape = o.shape ∧ r.dtype = o.dtype) ∧
    (∀ (a b oc : NDArray) (i : Nat), i < oc.data.length →
      (NDArray.addWhere a b oc w).data[i]? =
        some (if w i then a.data.getD i 0 + b.data.getD i 0
          else oc.data.getD i 0)) ∧
    (y1.exponents.Nodup →
      y1.exponents.length = y1.coefficients.length →
      y1.coefficients.length = y2.coefficients.length →
      ∀ o : PolynomialArray, (∀ t ∈ y1.exponents, t ∈ o.exponents) →
        o.exponents.Nodup → o.exponents.length = o.coefficients.length →
        ∃ r, writeSlotSums y1 y2 o w = some r ∧
          ∀ (j : Nat) (t : List Nat), o.exponents[j]? = some t →
            (t ∉ y1.exponents → r.coefficients[j]? = o.coefficients[j]?) ∧
            ∀ (i : Nat) (c1 c2 : NDArray), y1.exponents[i]? = some t →
              y1.coefficients[i]? = some c1 → y2.coefficients[i]? = some c2 →
              ∃ oc, o.coefficients[j]? = some oc ∧
                r.coefficients[j]? = some (NDArray.addWhere c1 c2 oc w)) := by
  have hfst : ∀ (h2 : y1.coefficients.length = y2.coefficients.length)
      (h1 : y1.exponents.length = y1.coefficients.length),
      (y1.exponents.zip (y1.coefficients.zip y2.coefficients)).map Prod.fst =
        y1.exponents := by
    intro h2 h1
    refine List.map_fst_zip _ _ ?_
    rw [List.length_zip]
    omega
  refine ⟨?_, ?_, ?_, ?_, ?_⟩
  · unfold add
    rw [halign]
    rfl
  · intro o
    unfold add
    rw [halign]
    rfl
  · intro o r h
    obtain ⟨he, hn, hs, hd⟩ := writeFold_fields w _ o r h
    exact ⟨he, hn, hs, hd⟩
  · intro a b oc i hi
    unfold NDArray.addWhere
    show ((List.range oc.data.length).map _)[i]? = _
    rw [List.getElem?_map, List.getElem?_range hi, Option.map_some']
  · intro hnd hlen1 hlen2 o hsub hond holen
    have hmapfst := hfst hlen2 hlen1
    obtain ⟨r, hr, -, -, -, -, -, hrc⟩ := writeFold_spec w
      (y1.exponents.zip (y1.coefficients.zip y2.coefficients)) o
      (by rw [hmapfst]; exact hnd)
      (fun pr hpr => hsub pr.1 (List.of_mem_zip hpr).1)
      hond holen
    refine ⟨r, hr, ?_⟩
    intro j t hj
    refine ⟨?_, ?_⟩
    · intro hnmem
      exact (hrc j t hj).1 (by rw [hmapfst]; exact hnmem)
    · intro i c1 c2 hti hc1 hc2
      have hLi : (y1.exponents.zip
          (y1.coefficients.zip y2.coefficients))[i]? = some (t, c1, c2) := by
        rw [List.zip_eq_zipWith, List.getElem?_zipWith, hti,
          List.zip_eq_zipWith, List.getElem?_zipWith, hc1, hc2]
      have hprmem : (t, c1, c2) ∈
          y1.exponents.zip (y1.coefficients.zip y2.coefficients) :=
        List.getElem?_mem hLi
      exact (hrc j t hj).2 (t, c1, c2) hprmem rfl

/-- Concrete polynomial minus-y. -/
def nyP : PolynomialArray := ⟨["y"], [[1]], [NDArray.intScalar (-1)], [], .int64⟩

/-- Concrete caller-supplied output buffer over the slot (1,) of name y. -/
def obufP : PolynomialArray := ⟨["y"], [[1]], [NDArray.intScalar 99], [], .int64⟩

/-! ### Claim C10: decompose -/

theorem getD_replicate_zero (n i : Nat) :
    (List.replicate n (0 : Int)).getD i 0 = 0 := by
  rw [List.getD_eq_getElem?_getD, List.getElem?_replicate]
  split <;> rfl

theorem zeros_get (sh : List Nat) (dt : Dtype) (ix : List Nat) :
    (NDArray.zeros sh dt).get ix = 0 := by
  unfold NDArray.zeros NDArray.get
  exact getD_replicate_zero _ _

theorem flatten_block {α : Type} {L : Nat} :
    ∀ (bs : List (List α)) (i : Nat), (∀ b ∈ bs, b.length = L) →
      i < bs.length → (bs.flatten.drop (i * L)).take L = bs.getD i [] := by
  intro bs
  induction bs with
  | nil => intro i h hi; simp at hi
  | cons b bs ih =>
    intro i h hi
    cases i with
    | zero =>
      simp only [List.flatten_cons, Nat.zero_mul, List.drop_zero,
        List.getD_cons_zero]
      rw [← h b (by simp)]
      exact List.take_left _ _
    | succ i =>
      have hL : b.length = L := h b (by simp)
      have hdrop : (b :: bs).flatten.drop ((i + 1) * L) =
          bs.flatten.drop (i * L) := by
        simp only [List.flatten_cons]
        rw [show (i + 1) * L = L + i * L by ring, ← hL]
        exact List.drop_append _
      rw [hdrop, List.getD_cons_succ]
      exact ih i (fun x hx => h x (by simp [hx])) (by simpa using hi)

theorem sum_map_ite_eq (v : Int) :
    ∀ (M i : Nat), i < M →
      ((List.range M).map (fun j => if i = j then v else 0)).sum = v := by
  intro M
  induction M with
  | zero => intro i hi; omega
  | succ M ih =>
    intro i hi
    rw [List.range_succ, List.map_append, List.sum_append]
    by_cases h : i = M
    · subst h
      have hz : ((List.range i).map (fun j => if i = j then v else 0)).sum
          = 0 := by
        refine List.sum_eq_zero ?_
        intro x hx
        obtain ⟨j, hj, hxe⟩ := List.mem_map.mp hx
        have hne : i ≠ j := by
          have := List.mem_range.mp hj
          omega
        rw [← hxe, if_neg hne]
      simp [hz]
    · have hiM : i < M := by omega
      rw [ih i hiM]
      simp [h]

theorem foldl_union_singletons {β : Type} (g : β → List Nat)
    (h2 : β → PolynomialArray) (hexp : ∀ b, (h2 b).exponents = [g b]) :
    ∀ (l : List β) (acc : List (List Nat)),
      (acc ++ l.map g).Nodup →
      (l.map h2).foldl (fun a p => a ++ p.exponents.filter (fun x => x ∉ a))
        acc = acc ++ l.map g := by
  intro l
  induction l with
  | nil => intro acc h; simp
  | cons b l ih =>
    intro acc h
    rw [List.map_cons] at h
    have hnotin : g b ∉ acc := by
      intro hmem
      exact (List.nodup_append.mp h).2.2 hmem (by simp)
    simp only [List.map_cons, List.foldl_cons, hexp b]
    have hfilter : ([g b].filter (fun x => x ∉ acc)) = [g b] := by
      simp [hnotin]
    rw [hfilter]
    have hre : acc ++ g b :: l.map g = (acc ++ [g b]) ++ l.map g := by
      simp
    rw [hre] at h ⊢
    exact ih (acc ++ [g b]) h

theorem foldl_promote_const_dtype :
    ∀ (rest : List Dtype) (d : Dtype), (∀ x ∈ rest, x = d) →
      rest.foldl Dtype.promote d = d := by
  intro rest
  induction rest with
  | nil => intro d _; rfl
  | cons x xs ih =>
    intro d h
    rw [List.foldl_cons, h x (by simp), Dtype.promote_self]
    exact ih d (fun y hy => h y (by simp [hy]))

theorem sumDtype_const {ds : List Dtype} {d : Dtype} (hne : ds ≠ [])
    (h : ∀ x ∈ ds, x = d) : sumDtype ds = d := by
  cases ds with
  | nil => exact absurd rfl hne
  | cons d0 rest =>
    show rest.foldl Dtype.promote d0 = d
    rw [h d0 (by simp)]
    exact foldl_promote_const_dtype rest d (fun y hy => h y (by simp [hy]))

theorem align_dtype_id {qs : List PolynomialArray} {d0 : Dtype}
    (hne : qs ≠ []) (hdt : ∀ q ∈ qs, q.dtype = d0)
    (hq : ∀ q ∈ qs, q.exponents.length = q.coefficients.length ∧
      q.coefficients ≠ [] ∧ (∀ e ∈ q.exponents, e.length = q.names.length) ∧
      ∀ c ∈ q.coefficients, c.shape = q.shape ∧ c.dtype = q.dtype) :
    align_dtype qs = some qs := by
  have hsum : sumDtype (qs.map (fun p => p.dtype)) = d0 := by
    refine sumDtype_const (by simpa using hne) ?_
    intro x hx
    obtain ⟨q, hq2, hqx⟩ := List.mem_map.mp hx
    rw [← hqx]
    exact hdt q hq2
  simp only [align_dtype, hsum]
  have hid : ∀ q ∈ qs,
      from_attributes q.exponents q.coefficients q.names (some d0) false =
      some q := by
    intro q hqm
    obtain ⟨hlen, hcne, har, hhom⟩ := hq q hqm
    obtain ⟨c0, crest, hcs⟩ := List.exists_cons_of_ne_nil hcne
    rw [from_attributes_false_eq hcs hlen har
      (fun c hc => ((hhom c hc).1).trans
        ((hhom c0 (by rw [hcs]; simp)).1).symm)]
    have hres : resolveDtype (some d0) q.coefficients = d0 := rfl
    have hcast : q.coefficients.map
        (castTo (resolveDtype (some d0) q.coefficients)) = q.coefficients := by
      rw [hres]
      refine (List.map_congr_left ?_).trans (List.map_id _)
      intro c hc
      exact castTo_self (((hhom c hc).2).trans (hdt q hqm))
    rw [hcast, hres, (hhom c0 (by rw [hcs]; simp)).1, ← hdt q hqm]
  have := mapM_eq_some_map _ id qs hid
  rw [List.map_id] at this
  exact this

theorem lookupCoeff_singleton {names : List String} {e : List Nat}
    {c : NDArray} {sh : List Nat} {dt : Dtype} (t : List Nat) :
    lookupCoeff ⟨names, [e], [c], sh, dt⟩ t =
      if e = t then some c else none := by
  by_cases h : e = t <;> simp [lookupCoeff, h]

/-- Closed form of one per-slot component built inside `decompose`: a
single-slot polynomial array carrying one exponent tuple and one coefficient,
with a fresh leading axis of extent 1. -/
def compOf (poly : PolynomialArray) (pr : List Nat × NDArray) :
    PolynomialArray :=
  ⟨poly.names, [pr.1],
   [⟨1 :: poly.shape, poly.dtype, pr.2.data⟩],
   1 :: poly.shape, poly.dtype⟩

/-- Closed form of one component after exponent alignment inside
`concatenate`: the full slot list, with the component's own coefficient at
its slot and zeros elsewhere. -/
def alignedComp (poly : PolynomialArray) (pr : List Nat × NDArray) :
    PolynomialArray :=
  ⟨poly.names, poly.exponents,
   poly.exponents.map (fun t =>
     if pr.1 = t then (⟨1 :: poly.shape, poly.dtype, pr.2.data⟩ : NDArray)
     else NDArray.zeros (1 :: poly.shape) poly.dtype),
   1 :: poly.shape, poly.dtype⟩

/-- Closed form of the output of `decompose`: one slot per term of the input,
each coefficient stacking, along a new leading axis, the term's own
coefficient data at its own layer and zero layers elsewhere. -/
def decomposeOut (poly : PolynomialArray) : PolynomialArray :=
  ⟨poly.names, poly.exponents,
   (List.range poly.exponents.length).map (fun j =>
     ⟨poly.exponents.length :: poly.shape, poly.dtype,
      ((poly.exponents.zip poly.coefficients).map (fun pr =>
        if pr.1 = poly.exponents.getD j [] then pr.2.data
        else List.replicate poly.shape.prod 0)).flatten⟩),
   poly.exponents.length :: poly.shape, poly.dtype⟩

theorem concatArrays0_eq {cs : List NDArray} {c0 : NDArray}
    {rest : List NDArray} {sh : List Nat} {dt : Dtype} (hc : cs = c0 :: rest)
    (hsh : ∀ c ∈ cs, c.shape = 1 :: sh) (hdt : c0.dtype = dt) :
    concatArrays0 cs =
      some ⟨cs.length :: sh, dt, (cs.map (fun c => c.data)).flatten⟩ := by
  subst hc
  have h0 : c0.shape = 1 :: sh := hsh c0 (by simp)
  have hall : ((c0 :: rest).all
      (fun c => decide (c.shape.tail = sh ∧ c.shape ≠ []))) = true := by
    rw [List.all_eq_true]
    intro c hcm
    rw [decide_eq_true_eq, hsh c hcm]
    exact ⟨rfl, by simp⟩
  have hones : (c0 :: rest).map (fun c => c.shape.headD 0) =
      List.replicate ((c0 :: rest).map (fun c => c.shape.headD 0)).length 1 := by
    refine List.eq_replicate_of_mem ?_
    intro b hb
    obtain ⟨c, hcm, hcb⟩ := List.mem_map.mp hb
    rw [← hcb, hsh c hcm]
    rfl
  have hsum : ((c0 :: rest).map (fun c => c.shape.headD 0)).sum =
      (c0 :: rest).length := by
    rw [hones]
    simp
  simp only [concatArrays0, h0]
  rw [if_pos hall, hsum, hdt]

/-- Closed form of `decompose` on a well-formed input. -/
theorem decompose_eq {poly : PolynomialArray} (hW : WF poly) :
    decompose poly = some (decomposeOut poly) := by
  obtain ⟨hlen, hne, har, hhom, hnd, hnnd⟩ := hW
  have hexne : poly.exponents ≠ [] := by
    intro h
    apply hne
    refine List.eq_nil_of_length_eq_zero ?_
    rw [← hlen, h]
    rfl
  have hM0 : 0 < poly.exponents.length := List.length_pos.mpr hexne
  have hzlen : (poly.exponents.zip poly.coefficients).length =
      poly.exponents.length := by
    rw [List.length_zip, hlen, Nat.min_self]
  have hzne : poly.exponents.zip poly.coefficients ≠ [] :=
    List.length_pos.mp (hzlen ▸ hM0)
  have hmapfst : (poly.exponents.zip poly.coefficients).map Prod.fst =
      poly.exponents := List.map_fst_zip _ _ (le_of_eq hlen)
  obtain ⟨pr0, prs, hzc⟩ := List.exists_cons_of_ne_nil hzne
  have hmapc : (poly.exponents.zip poly.coefficients).map (compOf poly) =
      compOf poly pr0 :: prs.map (compOf poly) := by
    rw [hzc, List.map_cons]
  -- Step 1: the per-slot components.
  have hcomp : ∀ pr ∈ poly.exponents.zip poly.coefficients,
      (from_attributes [pr.1] [pr.2] poly.names none false).bind
        (fun c => some (newaxis c)) = some (compOf poly pr) := by
    intro pr hpr
    have hece := List.of_mem_zip hpr
    have hsh := hhom pr.2 hece.2
    have hfa : from_attributes [pr.1] [pr.2] poly.names none false =
        some ⟨poly.names, [pr.1], [pr.2], pr.2.shape, pr.2.dtype⟩ := by
      rw [from_attributes_false_eq rfl (by simp)
        (by intro e he; rw [List.mem_singleton] at he; rw [he];
            exact har pr.1 hece.1)
        (by simp)]
      have hres : resolveDtype none [pr.2] = pr.2.dtype :=
        resolveDtype_none_const
          (by intro c hc; rw [List.mem_singleton] at hc; rw [hc])
      rw [hres]
      rw [show [pr.2].map (castTo pr.2.dtype) = [pr.2] by
        simp [castTo_self rfl]]
    rw [hfa, Option.some_bind]
    simp only [newaxis, compOf, List.map_cons, List.map_nil]
    rw [hsh.1, hsh.2.1]
  have hcomps : (poly.exponents.zip poly.coefficients).mapM
      (fun pr => (from_attributes [pr.1] [pr.2] poly.names none false).bind
        (fun c => some (newaxis c))) =
      some ((poly.exponents.zip poly.coefficients).map (compOf poly)) :=
    mapM_eq_some_map _ _ _ hcomp
  -- Step 2: exponent alignment of the components.
  have hWc : ∀ p ∈ (poly.exponents.zip poly.coefficients).map (compOf poly),
      WF p := by
    intro p hp
    obtain ⟨pr, hpr, hppr⟩ := List.mem_map.mp hp
    obtain ⟨he, hc⟩ := List.of_mem_zip hpr
    rw [← hppr]
    refine ⟨rfl, by simp [compOf], ?_, ?_, by simp [compOf], hnnd⟩
    · intro e hee
      simp only [compOf, List.mem_singleton] at hee
      rw [hee]
      exact har pr.1 he
    · intro c hcc
      simp only [compOf, List.mem_singleton] at hcc
      rw [hcc]
      refine ⟨rfl, rfl, ?_⟩
      show pr.2.data.length = (1 :: poly.shape).prod
      rw [List.prod_cons, one_mul]
      exact (hhom pr.2 hc).2.2
  have halignE : align_exponents
      (compOf poly pr0 :: prs.map (compOf poly)) =
      some ((compOf poly pr0 :: prs.map (compOf poly)).map
        (alignExpOut (globalExponents (compOf poly pr0).exponents
          (prs.map (compOf poly))))) := by
    refine align_exponents_eq ?_ ?_
    · intro p hp
      refine hWc p ?_
      rw [hmapc]
      exact hp
    · intro p hp
      have hp2 : p ∈ (poly.exponents.zip poly.coefficients).map
          (compOf poly) := by
        rw [hmapc]
        exact hp
      obtain ⟨pr, hpr, hppr⟩ := List.mem_map.mp hp2
      rw [← hppr]
      rfl
  have hge : globalExponents (compOf poly pr0).exponents
      (prs.map (compOf poly)) = poly.exponents := by
    have h1 : [pr0.1] ++ prs.map Prod.fst = poly.exponents := by
      rw [show [pr0.1] ++ prs.map Prod.fst = (pr0 :: prs).map Prod.fst by simp,
        ← hzc, hmapfst]
    have hnodup : ([pr0.1] ++ prs.map Prod.fst).Nodup := by
      rw [h1]
      exact hnd
    have hfold := foldl_union_singletons Prod.fst (compOf poly)
      (fun b => rfl) prs [pr0.1] hnodup
    show globalExponents [pr0.1] (prs.map (compOf poly)) = poly.exponents
    unfold globalExponents
    rw [hfold, h1]
  rw [hge] at halignE
  have haout : ∀ pr ∈ poly.exponents.zip poly.coefficients,
      alignExpOut poly.exponents (compOf poly pr) = alignedComp poly pr := by
    intro pr hpr
    have hco : poly.exponents.map (fun t =>
        (lookupCoeff (compOf poly pr) t).getD
          (NDArray.zeros (compOf poly pr).shape (compOf poly pr).dtype)) =
        poly.exponents.map (fun t =>
          if pr.1 = t then
            (⟨1 :: poly.shape, poly.dtype, pr.2.data⟩ : NDArray)
          else NDArray.zeros (1 :: poly.shape) poly.dtype) := by
      refine List.map_congr_left ?_
      intro t ht
      rw [show lookupCoeff (compOf poly pr) t =
        if pr.1 = t then
          some (⟨1 :: poly.shape, poly.dtype, pr.2.data⟩ : NDArray)
        else none from lookupCoeff_singleton t]
      by_cases h : pr.1 = t
      · rw [if_pos h, Option.getD_some, if_pos h]
      · rw [if_neg h, if_neg h, Option.getD_none]
        rfl
    show alignExpOut poly.exponents (compOf poly pr) = _
    unfold alignExpOut
    rw [hco]
    rfl
  have halignedL : (compOf poly pr0 :: prs.map (compOf poly)).map
      (alignExpOut poly.exponents) =
      (poly.exponents.zip poly.coefficients).map (alignedComp poly) := by
    rw [← hmapc, List.map_map]
    refine List.map_congr_left ?_
    intro pr hpr
    exact haout pr hpr
  -- Step 3: dtype alignment is the identity here.
  have hdtid : align_dtype
      ((poly.exponents.zip poly.coefficients).map (alignedComp poly)) =
      some ((poly.exponents.zip poly.coefficients).map (alignedComp poly)) := by
    refine @align_dtype_id _ poly.dtype ?_ ?_ ?_
    · intro h
      exact hzne (List.map_eq_nil_iff.mp h)
    · intro q hq2
      obtain ⟨pr, hpr, hppr⟩ := List.mem_map.mp hq2
      rw [← hppr]
      rfl
    · intro q hq2
      obtain ⟨pr, hpr, hppr⟩ := List.mem_map.mp hq2
      rw [← hppr]
      refine ⟨by simp [alignedComp], ?_, ?_, ?_⟩
      · simp only [alignedComp]
        intro hmape
        exact hexne (List.map_eq_nil_iff.mp hmape)
      · intro e hee
        exact har e hee
      · intro c hcc
        simp only [alignedComp] at hcc
        obtain ⟨t, ht, hct⟩ := List.mem_map.mp hcc
        rw [← hct]
        by_cases h : pr.1 = t
        · rw [if_pos h]
          exact ⟨rfl, rfl⟩
        · rw [if_neg h]
          exact ⟨rfl, rfl⟩
  -- Step 4: the stacked coefficients.
  have hmapa : (poly.exponents.zip poly.coefficients).map (alignedComp poly) =
      alignedComp poly pr0 :: prs.map (alignedComp poly) := by
    rw [hzc, List.map_cons]
  have hdata : ∀ (j : Nat) (pr : List Nat × NDArray),
      ((if pr.1 = poly.exponents.getD j [] then
          (⟨1 :: poly.shape, poly.dtype, pr.2.data⟩ : NDArray)
        else NDArray.zeros (1 :: poly.shape) poly.dtype)).data =
      (if pr.1 = poly.exponents.getD j [] then pr.2.data
        else List.replicate poly.shape.prod 0) := by
    intro j pr
    by_cases h : pr.1 = poly.exponents.getD j []
    · rw [if_pos h, if_pos h]
    · rw [if_neg h, if_neg h]
      show List.replicate (1 :: poly.shape).prod (0 : Int) = _
      rw [List.prod_cons, one_mul]
  have hshp : ∀ (j : Nat) (pr : List Nat × NDArray),
      ((if pr.1 = poly.exponents.getD j [] then
          (⟨1 :: poly.shape, poly.dtype, pr.2.data⟩ : NDArray)
        else NDArray.zeros (1 :: poly.shape) poly.dtype)).shape =
      1 :: poly.shape := by
    intro j pr
    by_cases h : pr.1 = poly.exponents.getD j []
    · rw [if_pos h]
    · rw [if_neg h]
      rfl
  have hdtp : ∀ (j : Nat) (pr : List Nat × NDArray),
      ((if pr.1 = poly.exponents.getD j [] then
          (⟨1 :: poly.shape, poly.dtype, pr.2.data⟩ : NDArray)
        else NDArray.zeros (1 :: poly.shape) poly.dtype)).dtype =
      poly.dtype := by
    intro j pr
    by_cases h : pr.1 = poly.exponents.getD j []
    · rw [if_pos h]
    · rw [if_neg h]
      rfl
  have hslot : ∀ (j : Nat), j < poly.exponents.length →
      ∀ pr : List Nat × NDArray,
      (alignedComp poly pr).coefficients.getD j
        (NDArray.zeros [] (alignedComp poly pr).dtype) =
      (if pr.1 = poly.exponents.getD j [] then
        (⟨1 :: poly.shape, poly.dtype, pr.2.data⟩ : NDArray)
      else NDArray.zeros (1 :: poly.shape) poly.dtype) := by
    intro j hj pr
    show (poly.exponents.map (fun t =>
      if pr.1 = t then (⟨1 :: poly.shape, poly.dtype, pr.2.data⟩ : NDArray)
      else NDArray.zeros (1 :: poly.shape) poly.dtype)).getD j _ = _
    rw [List.getD_eq_getElem?_getD, List.getElem?_map,
      List.getElem?_eq_getElem hj, Option.map_some', Option.getD_some]
    rw [List.getD_eq_getElem?_getD, List.getElem?_eq_getElem hj,
      Option.getD_some]
  have hcoeffs : (List.range (alignedComp poly pr0).exponents.length).mapM
      (fun j => concatArrays0
        ((alignedComp poly pr0 :: prs.map (alignedComp poly)).map
          (fun p => p.coefficients.getD j (NDArray.zeros [] p.dtype)))) =
      some ((decomposeOut poly).coefficients) := by
    refine mapM_eq_some_map _ (fun j =>
      (⟨poly.exponents.length :: poly.shape, poly.dtype,
        ((poly.exponents.zip poly.coefficients).map (fun pr =>
          if pr.1 = poly.exponents.getD j [] then pr.2.data
          else List.replicate poly.shape.prod 0)).flatten⟩ : NDArray)) _ ?_
    intro j hj
    have hjM : j < poly.exponents.length := List.mem_range.mp hj
    have hlist : ((alignedComp poly pr0 :: prs.map (alignedComp poly)).map
        (fun p => p.coefficients.getD j (NDArray.zeros [] p.dtype))) =
        (poly.exponents.zip poly.coefficients).map (fun pr =>
          if pr.1 = poly.exponents.getD j [] then
            (⟨1 :: poly.shape, poly.dtype, pr.2.data⟩ : NDArray)
          else NDArray.zeros (1 :: poly.shape) poly.dtype) := by
      rw [← hmapa, List.map_map]
      refine List.map_congr_left ?_
      intro pr hpr
      exact hslot j hjM pr
    rw [hlist]
    have hLne : (poly.exponents.zip poly.coefficients).map (fun pr =>
        if pr.1 = poly.exponents.getD j [] then
          (⟨1 :: poly.shape, poly.dtype, pr.2.data⟩ : NDArray)
        else NDArray.zeros (1 :: poly.shape) poly.dtype) ≠ [] := by
      intro h
      exact hzne (List.map_eq_nil_iff.mp h)
    obtain ⟨d0, drest, hdc⟩ := List.exists_cons_of_ne_nil hLne
    have hd0 : d0 ∈ (poly.exponents.zip poly.coefficients).map (fun pr =>
        if pr.1 = poly.exponents.getD j [] then
          (⟨1 :: poly.shape, poly.dtype, pr.2.data⟩ : NDArray)
        else NDArray.zeros (1 :: poly.shape) poly.dtype) := by
      rw [hdc]
      simp
    have hshAll : ∀ c ∈ (poly.exponents.zip poly.coefficients).map (fun pr =>
        if pr.1 = poly.exponents.getD j [] then
          (⟨1 :: poly.shape, poly.dtype, pr.2.data⟩ : NDArray)
        else NDArray.zeros (1 :: poly.shape) poly.dtype),
        c.shape = 1 :: poly.shape := by
      intro c hcm
      obtain ⟨pr, hpr, hcpr⟩ := List.mem_map.mp hcm
      rw [← hcpr]
      exact hshp j pr
    have hd0dt : d0.dtype = poly.dtype := by
      obtain ⟨pr, hpr, hcpr⟩ := List.mem_map.mp hd0
      rw [← hcpr]
      exact hdtp j pr
    rw [concatArrays0_eq hdc hshAll hd0dt]
    have hlen2 : ((poly.exponents.zip poly.coefficients).map (fun pr =>
        if pr.1 = poly.exponents.getD j [] then
          (⟨1 :: poly.shape, poly.dtype, pr.2.data⟩ : NDArray)
        else NDArray.zeros (1 :: poly.shape) poly.dtype)).length =
        poly.exponents.length := by
      rw [List.length_map, hzlen]
    have hdat2 : ((poly.exponents.zip poly.coefficients).map (fun pr =>
        if pr.1 = poly.exponents.getD j [] then
          (⟨1 :: poly.shape, poly.dtype, pr.2.data⟩ : NDArray)
        else NDArray.zeros (1 :: poly.shape) poly.dtype)).map
          (fun c => c.data) =
        (poly.exponents.zip poly.coefficients).map (fun pr =>
          if pr.1 = poly.exponents.getD j [] then pr.2.data
          else List.replicate poly.shape.prod 0) := by
      rw [List.map_map]
      refine List.map_congr_left ?_
      intro pr hpr
      exact hdata j pr
    rw [hlen2, hdat2]
  -- Step 5: assemble.
  simp only [decompose, Option.bind_eq_bind]
  rw [hcomps, Option.some_bind]
  simp only [concatenate, Option.bind_eq_bind]
  rw [hmapc, halignE, Option.some_bind, halignedL, hdtid, Option.some_bind,
    hmapa]
  simp only [concatCore, Option.bind_eq_bind]
  rw [hcoeffs, Option.some_bind]
  have hc0ex : ((decomposeOut poly).coefficients)[0]? =
      some (⟨poly.exponents.length :: poly.shape, poly.dtype,
        ((poly.exponents.zip poly.coefficients).map (fun pr =>
          if pr.1 = poly.exponents.getD 0 [] then pr.2.data
          else List.replicate poly.shape.prod 0)).flatten⟩ : NDArray) := by
    show ((List.range poly.exponents.length).map _)[0]? = _
    rw [List.getElem?_map, List.getElem?_range hM0, Option.map_some']
  rw [hc0ex, Option.some_bind]
  rfl

theorem decomposeOut_component_slot {poly : PolynomialArray} (hW : WF poly)
    {i j : Nat} {e : List Nat} {c : NDArray}
    (hi : i < poly.exponents.length)
    (hj : poly.exponents[j]? = some e)
    (hc : poly.coefficients[j]? = some c) :
    (component0 (decomposeOut poly) i).coefficients[j]? =
      some (if i = j then (⟨poly.shape, poly.dtype, c.data⟩ : NDArray)
        else NDArray.zeros poly.shape poly.dtype) := by
  have hW2 := hW
  obtain ⟨hlen, hne, har, hhom, hnd, hnnd⟩ := hW2
  have hjM : j < poly.exponents.length := by
    by_contra hcon
    rw [List.getElem?_eq_none (not_lt.mp hcon)] at hj
    cases hj
  have hzlen : (poly.exponents.zip poly.coefficients).length =
      poly.exponents.length := by
    rw [List.length_zip, hlen, Nat.min_self]
  have hdj : (decomposeOut poly).coefficients[j]? =
      some (⟨poly.exponents.length :: poly.shape, poly.dtype,
        ((poly.exponents.zip poly.coefficients).map (fun pr =>
          if pr.1 = poly.exponents.getD j [] then pr.2.data
          else List.replicate poly.shape.prod 0)).flatten⟩ : NDArray) := by
    show ((List.range poly.exponents.length).map _)[j]? = _
    rw [List.getElem?_map, List.getElem?_range hjM, Option.map_some']
  have hstep : (component0 (decomposeOut poly) i).coefficients[j]? =
      some (⟨poly.shape, poly.dtype,
        ((((poly.exponents.zip poly.coefficients).map (fun pr =>
          if pr.1 = poly.exponents.getD j [] then pr.2.data
          else List.replicate poly.shape.prod 0)).flatten.drop
            (i * poly.shape.prod)).take poly.shape.prod)⟩ : NDArray) := by
    show ((decomposeOut poly).coefficients.map _)[j]? = _
    rw [List.getElem?_map, hdj, Option.map_some']
    rfl
  rw [hstep]
  have hblocks : ∀ b ∈ (poly.exponents.zip poly.coefficients).map (fun pr =>
      if pr.1 = poly.exponents.getD j [] then pr.2.data
      else List.replicate poly.shape.prod 0), b.length = poly.shape.prod := by
    intro b hb
    obtain ⟨pr, hpr, hbp⟩ := List.mem_map.mp hb
    rw [← hbp]
    by_cases h : pr.1 = poly.exponents.getD j []
    · rw [if_pos h]
      exact (hhom pr.2 (List.of_mem_zip hpr).2).2.2
    · rw [if_neg h]
      simp
  have hiblk : i < ((poly.exponents.zip poly.coefficients).map (fun pr =>
      if pr.1 = poly.exponents.getD j [] then pr.2.data
      else List.replicate poly.shape.prod 0)).length := by
    rw [List.length_map, hzlen]
    exact hi
  rw [flatten_block _ i hblocks hiblk]
  have hi2 : i < poly.coefficients.length := by
    rw [← hlen]
    exact hi
  have hzipi : (poly.exponents.zip poly.coefficients)[i]? =
      some (poly.exponents[i], poly.coefficients[i]) := by
    rw [List.zip_eq_zipWith, List.getElem?_zipWith,
      List.getElem?_eq_getElem hi, List.getElem?_eq_getElem hi2]
  have hgetd : ((poly.exponents.zip poly.coefficients).map (fun pr =>
      if pr.1 = poly.exponents.getD j [] then pr.2.data
      else List.replicate poly.shape.prod 0)).getD i [] =
      (if poly.exponents[i] = poly.exponents.getD j [] then
        poly.coefficients[i].data
      else List.replicate poly.shape.prod 0) := by
    rw [List.getD_eq_getElem?_getD, List.getElem?_map, hzipi,
      Option.map_some', Option.getD_some]
  rw [hgetd]
  have htj : poly.exponents.getD j [] = e := by
    rw [List.getD_eq_getElem?_getD, hj, Option.getD_some]
  rw [htj]
  by_cases hij : i = j
  · subst hij
    have he : poly.exponents[i] = e := by
      have h1 := List.getElem?_eq_getElem hi
      rw [hj] at h1
      exact (Option.some.inj h1).symm
    have hcv : poly.coefficients[i] = c := by
      have h2 := List.getElem?_eq_getElem hi2
      rw [hc] at h2
      exact (Option.some.inj h2).symm
    rw [if_pos he, if_pos rfl, hcv]
  · have hne2 : poly.exponents[i] ≠ e := by
      intro hcontra
      have h1 := indexOf?_of_getElem?_nodup hnd (List.getElem?_eq_getElem hi)
      rw [hcontra] at h1
      have h2 := indexOf?_of_getElem?_nodup hnd hj
      rw [h1] at h2
      exact hij (Option.some.inj h2)
    rw [if_neg hne2, if_neg hij]
    rfl

theorem decomposeOut_component_eval {poly : PolynomialArray} (hW : WF poly)
    (f : String → Int) (ix : List Nat) {i : Nat}
    (hi : i < poly.exponents.length) :
    (component0 (decomposeOut poly) i).evalAt f ix =
      (poly.coefficients.getD i (NDArray.zeros poly.shape poly.dtype)).get ix *
        evalMonomial f poly.names (poly.exponents.getD i []) := by
  have hW2 := hW
  obtain ⟨hlen, hne, har, hhom, hnd, hnnd⟩ := hW2
  show (((component0 (decomposeOut poly) i).exponents.zip
      (component0 (decomposeOut poly) i).coefficients).map (fun pr =>
        pr.2.get ix * evalMonomial f (component0 (decomposeOut poly) i).names
          pr.1)).sum = _
  have hexpc : (component0 (decomposeOut poly) i).exponents =
      poly.exponents := rfl
  have hnamec : (component0 (decomposeOut poly) i).names = poly.names := rfl
  rw [hexpc, hnamec]
  have hclen : (component0 (decomposeOut poly) i).coefficients.length =
      poly.exponents.length := by
    show ((decomposeOut poly).coefficients.map _).length = _
    rw [List.length_map]
    show ((List.range poly.exponents.length).map _).length = _
    rw [List.length_map, List.length_range]
  have hlist : (poly.exponents.zip
      (component0 (decomposeOut poly) i).coefficients).map (fun pr =>
        pr.2.get ix * evalMonomial f poly.names pr.1) =
      (List.range poly.exponents.length).map (fun n =>
        if i = n then
          (poly.coefficients.getD i (NDArray.zeros poly.shape
            poly.dtype)).get ix *
            evalMonomial f poly.names (poly.exponents.getD i [])
        else 0) := by
    refine List.ext_getElem? ?_
    intro n
    rw [List.getElem?_map, List.getElem?_map]
    by_cases hn : n < poly.exponents.length
    · have hn2 : n < poly.coefficients.length := by
        rw [← hlen]
        exact hn
      have hcn : (component0 (decomposeOut poly) i).coefficients[n]? =
          some (if i = n then
            (⟨poly.shape, poly.dtype, poly.coefficients[n].data⟩ : NDArray)
          else NDArray.zeros poly.shape poly.dtype) :=
        decomposeOut_component_slot hW hi (List.getElem?_eq_getElem hn)
          (List.getElem?_eq_getElem hn2)
      have hzipn : (poly.exponents.zip
          (component0 (decomposeOut poly) i).coefficients)[n]? =
          some (poly.exponents[n],
            if i = n then
              (⟨poly.shape, poly.dtype, poly.coefficients[n].data⟩ : NDArray)
            else NDArray.zeros poly.shape poly.dtype) := by
        rw [List.zip_eq_zipWith, List.getElem?_zipWith,
          List.getElem?_eq_getElem hn, hcn]
      rw [hzipn, List.getElem?_range hn, Option.map_some', Option.map_some']
      by_cases h : i = n
      · subst h
        have hgd1 : poly.coefficients.getD i
            (NDArray.zeros poly.shape poly.dtype) = poly.coefficients[i] := by
          rw [List.getD_eq_getElem?_getD, List.getElem?_eq_getElem hn2,
            Option.getD_some]
        have hgd2 : poly.exponents.getD i [] = poly.exponents[i] := by
          rw [List.getD_eq_getElem?_getD, List.getElem?_eq_getElem hn,
            Option.getD_some]
        have hgets : (⟨poly.shape, poly.dtype,
            poly.coefficients[i].data⟩ : NDArray).get ix =
            poly.coefficients[i].get ix := by
          unfold NDArray.get
          rw [(hhom (poly.coefficients[i])
            (List.getElem?_mem (List.getElem?_eq_getElem hn2))).1]
        rw [if_pos rfl, if_pos rfl, hgd1, hgd2, hgets]
      · rw [if_neg h, if_neg h, zeros_get, zero_mul]
    · rw [List.getElem?_eq_none
        (by rw [List.length_zip, hclen, Nat.min_self]; exact not_lt.mp hn),
        List.getElem?_eq_none
        (by rw [List.length_range]; exact not_lt.mp hn)]
      rfl
  rw [hlist]
  exact sum_map_ite_eq _ _ i hi

/-- C10: on a well-formed polynomial array with M term slots, `decompose`
returns a polynomial array of shape (M,) prepended to the input's shape whose
component at layer i of axis 0 carries exactly the i-th term slot of the
input — its coefficient data at slot i and zero padding at every other
slot — and summing the components along axis 0 yields, at every position and
assignment, the same value as the input. -/
theorem C10_decompose (poly : PolynomialArray) (hW : WF poly) :
    decompose poly = some (decomposeOut poly) ∧
    (decomposeOut poly).shape = poly.exponents.length :: poly.shape ∧
    (decomposeOut poly).names = poly.names ∧
    (decomposeOut poly).exponents = poly.exponents ∧
    (decomposeOut poly).dtype = poly.dtype ∧
    (∀ (i j : Nat) (e : List Nat) (c : NDArray),
      i < poly.exponents.length →
      poly.exponents[j]? = some e → poly.coefficients[j]? = some c →
      (component0 (decomposeOut poly) i).coefficients[j]? =
        some (if i = j then (⟨poly.shape, poly.dtype, c.data⟩ : NDArray)
          else NDArray.zeros poly.shape poly.dtype)) ∧
    ∀ (f : String → Int) (ix : List Nat),
      ((List.range poly.exponents.length).map (fun i =>
        (component0 (decomposeOut poly) i).evalAt f ix)).sum =
      poly.evalAt f ix := by
  refine ⟨decompose_eq hW, rfl, rfl, rfl, rfl, ?_, ?_⟩
  · intro i j e c hi hj hc
    exact decomposeOut_component_slot hW hi hj hc
  · intro f ix
    have hcong : (List.range poly.exponents.length).map (fun i =>
        (component0 (decomposeOut poly) i).evalAt f ix) =
        (List.range poly.exponents.length).map (fun i =>
          (poly.coefficients.getD i (NDArray.zeros poly.shape
            poly.dtype)).get ix *
            evalMonomial f poly.names (poly.exponents.getD i [])) := by
      refine List.map_congr_left ?_
      intro i hi2
      exact decomposeOut_component_eval hW f ix (List.mem_range.mp hi2)
    rw [hcong]
    have hW2 := hW
    obtain ⟨hlen, -, -, hhom, -, -⟩ := hW2
    have hzlen : (poly.exponents.zip poly.coefficients).length =
        poly.exponents.length := by
      rw [List.length_zip, hlen, Nat.min_self]
    have hlist : (List.range poly.exponents.length).map (fun n =>
        (poly.coefficients.getD n (NDArray.zeros poly.shape
          poly.dtype)).get ix *
          evalMonomial f poly.names (poly.exponents.getD n [])) =
        (poly.exponents.zip poly.coefficients).map (fun pr =>
          pr.2.get ix * evalMonomial f poly.names pr.1) := by
      refine List.ext_getElem? ?_
      intro n
      rw [List.getElem?_map, List.getElem?_map]
      by_cases hn : n < poly.exponents.length
      · have hn2 : n < poly.coefficients.length := by
          rw [← hlen]
          exact hn
        have hzipn : (poly.exponents.zip poly.coefficients)[n]? =
            some (poly.exponents[n], poly.coefficients[n]) := by
          rw [List.zip_eq_zipWith, List.getElem?_zipWith,
            List.getElem?_eq_getElem hn, List.getElem?_eq_getElem hn2]
        rw [List.getElem?_range hn, hzipn, Option.map_some', Option.map_some']
        have hgd1 : poly.coefficients.getD n
            (NDArray.zeros poly.shape poly.dtype) = poly.coefficients[n] := by
          rw [List.getD_eq_getElem?_getD, List.getElem?_eq_getElem hn2,
            Option.getD_some]
        have hgd2 : poly.exponents.getD n [] = poly.exponents[n] := by
          rw [List.getD_eq_getElem?_getD, List.getElem?_eq_getElem hn,
            Option.getD_some]
        rw [hgd1, hgd2]
      · rw [List.getElem?_eq_none
          (by rw [List.length_range]; exact not_lt.mp hn),
          List.getElem?_eq_none
          (by rw [hzlen]; exact not_lt.mp hn)]
        rfl
    rw [hlist]
    rfl

/-- Concrete two-slot polynomial array, mirroring `[q**2-1, 2]`. -/
def dpolyP : PolynomialArray :=
  ⟨["q"], [[0], [2]],
   [⟨[2], .int64, [-1, 2]⟩, ⟨[2], .int64, [1, 0]⟩], [2], .int64⟩

theorem C10_decompose_witness :
    decompose dpolyP = some (decomposeOut dpolyP) ∧
    decompose dpolyP = some ⟨["q"], [[0], [2]],
      [⟨[2, 2], .int64, [-1, 2, 0, 0]⟩, ⟨[2, 2], .int64, [0, 0, 1, 0]⟩],
      [2, 2], .int64⟩ ∧
    ((List.range 2).map (fun i =>
      (component0 (decomposeOut dpolyP) i).evalAt (fun _ => 3) [0])).sum =
      dpolyP.evalAt (fun _ => 3) [0] :=
  ⟨(C10_decompose dpolyP (by decide)).1, by decide,
   (C10_decompose dpolyP (by decide)).2.2.2.2.2.2 (fun _ => 3) [0]⟩

theorem C7_add_witness :
    (∀ o, add yP nyP (some o) (fun _ => true) =
      writeSlotSums (⟨["y"], [[1]], [NDArray.intScalar 1], [], .int64⟩ :
          PolynomialArray)
        (⟨["y"], [[1]], [NDArray.intScalar (-1)], [], .int64⟩ :
          PolynomialArray) o (fun _ => true)) ∧
    add yP nyP none (fun _ => true) =
      some ⟨["y"], [[0]], [NDArray.intScalar 0], [], .int64⟩ ∧
    add yP nyP (some obufP) (fun _ => true) =
      some ⟨["y"], [[1]], [NDArray.intScalar 0], [], .int64⟩ :=
  ⟨(C7_add yP nyP (fun _ => true)
      ⟨["y"], [[1]], [NDArray.intScalar 1], [], .int64⟩
      ⟨["y"], [[1]], [NDArray.intScalar (-1)], [], .int64⟩ (by decide)).2.1,
   by decide, by decide⟩

/-! ### Claim C3: value preservation of alignment.  Indexing lemmas. -/

theorem flatIndex_lt_prod :
    ∀ (s ix : List Nat), validIx s ix → flatIndex s ix < s.prod := by
  intro s
  induction s with
  | nil =>
    intro ix h
    show 0 < 1
    omega
  | cons d ds ih =>
    intro ix h
    obtain ⟨hlen, hbound⟩ := h
    cases ix with
    | nil => simp at hlen
    | cons i ixr =>
      have hi : i < d := by
        have := hbound 0
        simpa using this
      have hrec : validIx ds ixr := by
        refine ⟨by simpa using hlen, ?_⟩
        intro k
        have := hbound (k + 1)
        simpa using this
      have hlt := ih ixr hrec
      show i * ds.prod + flatIndex ds ixr < (d :: ds).prod
      rw [List.prod_cons]
      calc i * ds.prod + flatIndex ds ixr < (i + 1) * ds.prod := by
            rw [Nat.succ_mul]
            omega
        _ ≤ d * ds.prod := Nat.mul_le_mul_right _ hi

theorem allIndices_length : ∀ (s : List Nat), (allIndices s).length = s.prod := by
  intro s
  induction s with
  | nil => rfl
  | cons d ds ih =>
    show ((List.range d).flatMap _).length = _
    rw [List.length_flatMap]
    have hconst : (List.range d).map
        (List.length ∘ fun i => (allIndices ds).map (fun ix => i :: ix)) =
        (List.range d).map (fun _ => ds.prod) := by
      refine List.map_congr_left ?_
      intro i hi2
      show ((allIndices ds).map _).length = _
      rw [List.length_map, ih]
    rw [hconst, List.prod_cons]
    simp [List.map_const', List.sum_replicate]

theorem allIndices_getElem :
    ∀ (s ix : List Nat), validIx s ix →
      (allIndices s)[flatIndex s ix]? = some ix := by
  intro s
  induction s with
  | nil =>
    intro ix h
    have hnil : ix = [] := List.eq_nil_of_length_eq_zero h.1
    subst hnil
    rfl
  | cons d ds ih =>
    intro ix h
    obtain ⟨hlen, hbound⟩ := h
    cases ix with
    | nil => simp at hlen
    | cons i ixr =>
      have hi : i < d := by
        have := hbound 0
        simpa using this
      have hrec : validIx ds ixr := by
        refine ⟨by simpa using hlen, ?_⟩
        intro k
        have := hbound (k + 1)
        simpa using this
      have hfi := flatIndex_lt_prod ds ixr hrec
      have hblen : ∀ b ∈ (List.range d).map
          (fun i => (allIndices ds).map (fun jx => i :: jx)),
          b.length = ds.prod := by
        intro b hb
        obtain ⟨m, hm, hbm⟩ := List.mem_map.mp hb
        rw [← hbm, List.length_map, allIndices_length]
      have hiblk : i < ((List.range d).map
          (fun i => (allIndices ds).map (fun jx => i :: jx))).length := by
        rw [List.length_map, List.length_range]
        exact hi
      have hblock := flatten_block _ i hblen hiblk
      have hgd : ((List.range d).map
          (fun i => (allIndices ds).map (fun jx => i :: jx))).getD i [] =
          (allIndices ds).map (fun jx => i :: jx) := by
        rw [List.getD_eq_getElem?_getD, List.getElem?_map,
          List.getElem?_range hi, Option.map_some', Option.getD_some]
      show ((List.range d).flatMap
        (fun i => (allIndices ds).map (fun jx => i :: jx)))[
          i * ds.prod + flatIndex ds ixr]? = some (i :: ixr)
      have hflat : (List.range d).flatMap
          (fun i => (allIndices ds).map (fun jx => i :: jx)) =
          ((List.range d).map
            (fun i => (allIndices ds).map (fun jx => i :: jx))).flatten := rfl
      rw [hflat, ← List.getElem?_drop]
      have htake : (((((List.range d).map
          (fun i => (allIndices ds).map (fun jx => i :: jx))).flatten).drop
            (i * ds.prod)).take ds.prod)[flatIndex ds ixr]? =
          ((((List.range d).map
            (fun i => (allIndices ds).map (fun jx => i :: jx))).flatten).drop
              (i * ds.prod))[flatIndex ds ixr]? := by
        rw [List.getElem?_take]
        exact if_pos hfi
      rw [← htake, hblock, hgd, List.getElem?_map, ih ixr hrec,
        Option.map_some']

theorem get_map_allIndices {dt : Dtype} {g : List Nat → Int}
    {s ix : List Nat} (h : validIx s ix) :
    (⟨s, dt, (allIndices s).map g⟩ : NDArray).get ix = g ix := by
  show ((allIndices s).map g).getD (flatIndex s ix) 0 = g ix
  rw [List.getD_eq_getElem?_getD, List.getElem?_map, allIndices_getElem s ix h,
    Option.map_some', Option.getD_some]

theorem zip_pick_valid :
    ∀ (s ix : List Nat), ix.length = s.length →
      (∀ k, ix.getD k 0 < s.getD k 1) →
      (s.zip ix).map (fun p => if p.1 = 1 then 0 else p.2) = ix := by
  intro s
  induction s with
  | nil =>
    intro ix hlen _
    rw [List.eq_nil_of_length_eq_zero hlen]
    rfl
  | cons a s ih =>
    intro ix hlen hbound
    cases ix with
    | nil => simp at hlen
    | cons i ixr =>
      have hhead : (if a = 1 then 0 else i) = i := by
        by_cases h : a = 1
        · rw [if_pos h]
          have := hbound 0
          rw [h] at this
          simp at this
          omega
        · rw [if_neg h]
      show (if a = 1 then 0 else i) :: _ = i :: ixr
      rw [hhead]
      congr 1
      refine ih ixr (by simpa using hlen) ?_
      intro k
      have := hbound (k + 1)
      simpa using this

theorem srcIndex_self {s ix : List Nat} (h : validIx s ix) :
    NDArray.srcIndex s ix = ix := by
  unfold NDArray.srcIndex
  rw [h.1, Nat.sub_self, List.drop_zero]
  exact zip_pick_valid s ix h.1 h.2

theorem broadcastDim_left_one_or_eq {a b c : Nat}
    (h : broadcastDim a b = some c) : a = 1 ∨ c = a := by
  unfold broadcastDim at h
  split_ifs at h with h1 h2 h3
  · exact Or.inr (Option.some.inj h).symm
  · exact Or.inl h2
  · exact Or.inr (Option.some.inj h).symm

theorem bcastR_spec : ∀ (s t u : List Nat), bcastR s t = some u →
    s.length ≤ u.length ∧
    ∀ k, k < s.length → s.getD k 1 = 1 ∨ u.getD k 1 = s.getD k 1 := by
  intro s
  induction s with
  | nil =>
    intro t u _
    exact ⟨Nat.zero_le _, fun k hk => absurd hk (by simp)⟩
  | cons a s ih =>
    intro t u h
    cases t with
    | nil =>
      have hu : u = a :: s := (Option.some.inj h).symm
      subst hu
      exact ⟨le_refl _, fun k hk => Or.inr rfl⟩
    | cons b t =>
      simp only [bcastR, Option.bind_eq_bind] at h
      obtain ⟨d, hd, h2⟩ := Option.bind_eq_some.mp h
      obtain ⟨r, hr, h3⟩ := Option.bind_eq_some.mp h2
      obtain rfl := (Option.some.inj h3).symm
      obtain ⟨hlen, hdims⟩ := ih t r hr
      refine ⟨by simpa using Nat.succ_le_succ hlen, ?_⟩
      intro k hk
      cases k with
      | zero =>
        simp only [List.getD_cons_zero]
        rcases broadcastDim_left_one_or_eq hd with h1 | h1
        · exact Or.inl h1
        · exact Or.inr h1
      | succ k =>
        simp only [List.getD_cons_succ]
        exact hdims k (by simpa using hk)

theorem getD_reverse {l : List Nat} {m : Nat} (d : Nat) (h : m < l.length) :
    l.reverse.getD m d = l.getD (l.length - 1 - m) d := by
  have h2 : m < l.reverse.length := by simpa using h
  have h3 : l.length - 1 - m < l.length := by omega
  rw [List.getD_eq_getElem?_getD, List.getElem?_eq_getElem h2,
    Option.getD_some, List.getD_eq_getElem?_getD,
    List.getElem?_eq_getElem h3, Option.getD_some]
  exact List.getElem_reverse _

theorem broadcastShapes_inv {s t u : List Nat}
    (h : broadcastShapes s t = some u) :
    bcastR s.reverse t.reverse = some u.reverse := by
  unfold broadcastShapes at h
  obtain ⟨v, hv, hvu⟩ := Option.map_eq_some'.mp h
  rw [hv, ← hvu, List.reverse_reverse]

theorem broadcastShapes_length_le {s t u : List Nat}
    (h : broadcastShapes s t = some u) : s.length ≤ u.length := by
  have := (bcastR_spec _ _ _ (broadcastShapes_inv h)).1
  simpa using this

theorem broadcast_dim_eq {s u : List Nat} (hb : broadcastShapes s u = some u)
    {k : Nat} (hk : k < s.length) (hne : s.getD k 1 ≠ 1) :
    u.getD (u.length - s.length + k) 1 = s.getD k 1 := by
  have hinv := broadcastShapes_inv hb
  have hspec := bcastR_spec _ _ _ hinv
  have hlen : s.length ≤ u.length := by simpa using hspec.1
  have hdisj := hspec.2 (s.length - 1 - k)
    (by rw [List.length_reverse]; omega)
  have hsrev : s.reverse.getD (s.length - 1 - k) 1 = s.getD k 1 := by
    rw [getD_reverse 1 (by omega : s.length - 1 - k < s.length)]
    congr 1
    omega
  have hurev : u.reverse.getD (s.length - 1 - k) 1 =
      u.getD (u.length - s.length + k) 1 := by
    rw [getD_reverse 1 (by omega : s.length - 1 - k < u.length)]
    congr 1
    omega
  rw [hsrev] at hdisj
  rcases hdisj with h1 | h1
  · exact absurd h1 hne
  · rw [hurev] at h1
    exact h1

theorem validIx_srcIndex {s u ix : List Nat}
    (hb : broadcastShapes s u = some u) (hix : validIx u ix) :
    validIx s (NDArray.srcIndex s ix) := by
  have hlen : s.length ≤ u.length := broadcastShapes_length_le hb
  obtain ⟨hixlen, hixb⟩ := hix
  unfold NDArray.srcIndex
  rw [hixlen]
  constructor
  · rw [List.length_map, List.length_zip, List.length_drop, hixlen]
    omega
  · intro k
    by_cases hk : k < s.length
    · have hixk : (u.length - s.length) + k < ix.length := by
        rw [hixlen]
        omega
      have hzip : (s.zip (ix.drop (u.length - s.length)))[k]? =
          some (s[k], ix[(u.length - s.length) + k]) := by
        rw [List.zip_eq_zipWith, List.getElem?_zipWith,
          List.getElem?_eq_getElem hk, List.getElem?_drop,
          List.getElem?_eq_getElem hixk]
      have hentry : ((s.zip (ix.drop (u.length - s.length))).map
          (fun p => if p.1 = 1 then 0 else p.2)).getD k 0 =
          (if s[k] = 1 then 0 else ix[(u.length - s.length) + k]) := by
        rw [List.getD_eq_getElem?_getD, List.getElem?_map, hzip,
          Option.map_some', Option.getD_some]
      rw [hentry]
      have hsgd : s.getD k 1 = s[k] := by
        rw [List.getD_eq_getElem?_getD, List.getElem?_eq_getElem hk,
          Option.getD_some]
      by_cases h1 : s[k] = 1
      · rw [if_pos h1, hsgd, h1]
        omega
      · rw [if_neg h1]
        have hne : s.getD k 1 ≠ 1 := by
          rw [hsgd]
          exact h1
        have hdim := broadcast_dim_eq hb hk hne
        have hixval := hixb ((u.length - s.length) + k)
        have hixgd : ix.getD ((u.length - s.length) + k) 0 =
            ix[(u.length - s.length) + k] := by
          rw [List.getD_eq_getElem?_getD, List.getElem?_eq_getElem hixk,
            Option.getD_some]
        rw [hixgd] at hixval
        rw [← hdim]
        exact hixval
    · have hout : ((s.zip (ix.drop (u.length - s.length))).map
          (fun p => if p.1 = 1 then 0 else p.2)).getD k 0 = 0 := by
        rw [List.getD_eq_getElem?_getD, List.getElem?_eq_none]
        · rfl
        · rw [List.length_map, List.length_zip]
          exact le_trans (Nat.min_le_left _ _) (not_lt.mp hk)
      have hsout : s.getD k 1 = 1 := by
        rw [List.getD_eq_getElem?_getD, List.getElem?_eq_none (not_lt.mp hk)]
        rfl
      rw [hout, hsout]
      omega

theorem ones_bget_one {s u ix : List Nat} (hb : broadcastShapes s u = some u)
    (hix : validIx u ix) : (NDArray.ones s).bget ix = 1 := by
  have hv := validIx_srcIndex hb hix
  show (List.replicate s.prod (1 : Int)).getD
    (flatIndex s (NDArray.srcIndex s ix)) 0 = 1
  have hflt := flatIndex_lt_prod s _ hv
  rw [List.getD_eq_getElem?_getD, List.getElem?_replicate, if_pos hflt]
  rfl

theorem commonFold_get_one :
    ∀ (polys : List PolynomialArray) (acc r : NDArray),
      (∀ p ∈ polys, WF p) →
      polys.foldlM commonStep acc = some r →
      (∀ ix, validIx acc.shape ix → acc.get ix = 1) →
      ∀ ix, validIx r.shape ix → r.get ix = 1 := by
  intro polys
  induction polys with
  | nil =>
    intro acc r _ h hinv
    have hra : acc = r := by simpa using h
    subst hra
    exact hinv
  | cons p ps ih =>
    intro acc r hW h hinv
    rw [List.foldlM_cons] at h
    obtain ⟨m, hm, hrest⟩ := Option.bind_eq_some.mp h
    refine ih m r (fun q hq => hW q (by simp [hq])) hrest ?_
    obtain ⟨hplen, hpne, -, hhom, -, -⟩ := hW p (by simp)
    by_cases hz : p.shape.prod ≠ 0
    · obtain ⟨c0, crest, hcs⟩ := List.exists_cons_of_ne_nil hpne
      have hc0get : p.coefficients[0]? = some c0 := by
        rw [hcs]
        simp
      have hc0sh : c0.shape = p.shape := (hhom c0 (by rw [hcs]; simp)).1
      unfold commonStep at hm
      rw [if_pos hz, hc0get] at hm
      simp only [Option.bind_eq_bind, Option.some_bind, hc0sh] at hm
      unfold NDArray.mulB NDArray.binopB at hm
      obtain ⟨S, hS, hSm⟩ := Option.map_eq_some'.mp hm
      have hS2 : broadcastShapes p.shape acc.shape = some S := hS
      have habs_p : broadcastShapes p.shape S = some S :=
        broadcastShapes_absorb hS2
      have hcomm : broadcastShapes acc.shape p.shape = some S := by
        rw [broadcastShapes_comm]
        exact hS2
      have habs_a : broadcastShapes acc.shape S = some S :=
        broadcastShapes_absorb hcomm
      intro ix hvix
      rw [← hSm] at hvix ⊢
      have hvix2 : validIx S ix := hvix
      show (⟨S, (NDArray.ones p.shape).dtype.promote acc.dtype,
        (allIndices S).map (fun jx =>
          (NDArray.ones p.shape).bget jx * acc.bget jx)⟩ : NDArray).get ix = 1
      rw [get_map_allIndices hvix2, ones_bget_one habs_p hvix2]
      have hacc : acc.bget ix = 1 := by
        show acc.get (NDArray.srcIndex acc.shape ix) = 1
        exact hinv _ (validIx_srcIndex habs_a hvix2)
      rw [hacc, one_mul]
    · unfold commonStep at hm
      rw [if_neg hz] at hm
      have hm2 : some acc = some m := hm
      obtain rfl := Option.some.inj hm2
      exact hinv

/-- Value of a term-slot list at one position under an assignment. -/
def termsEval (f : String → Int) (names : List String) (ix : List Nat)
    (ts : List (List Nat × NDArray)) : Int :=
  (ts.map (fun pr => pr.2.get ix * evalMonomial f names pr.1)).sum

theorem zip_fst_snd (l : List (List Nat × NDArray)) :
    (l.map Prod.fst).zip (l.map Prod.snd) = l :=
  (List.zip_of_prod rfl rfl).symm

theorem isZero_get {a : NDArray} (h : a.isZero = true) (ix : List Nat) :
    a.get ix = 0 := by
  unfold NDArray.isZero at h
  rw [List.all_eq_true] at h
  show a.data.getD (flatIndex a.shape ix) 0 = 0
  rw [List.getD_eq_getElem?_getD]
  cases hv : a.data[flatIndex a.shape ix]? with
  | none => rfl
  | some v =>
    have := h v (List.getElem?_mem hv)
    rw [Option.getD_some]
    simpa using this

theorem termsEval_filter (f : String → Int) (names : List String)
    (ix : List Nat) : ∀ ts : List (List Nat × NDArray),
    termsEval f names ix (ts.filter (fun pr => !pr.2.isZero)) =
      termsEval f names ix ts := by
  intro ts
  induction ts with
  | nil => rfl
  | cons pr ts ih =>
    rw [List.filter_cons]
    by_cases h : pr.2.isZero
    · rw [if_neg (by simp [h])]
      show termsEval f names ix (ts.filter _) =
        pr.2.get ix * evalMonomial f names pr.1 + termsEval f names ix ts
      rw [isZero_get h, zero_mul, zero_add]
      exact ih
    · rw [if_pos (by simp [h])]
      show pr.2.get ix * evalMonomial f names pr.1 +
          termsEval f names ix (ts.filter _) =
        pr.2.get ix * evalMonomial f names pr.1 + termsEval f names ix ts
      rw [ih]

theorem termsEval_cleanTerms (f : String → Int) (names : List String)
    (ix : List Nat) (ar : Nat) (sh : List Nat) (dt : Dtype)
    (ts : List (List Nat × NDArray)) :
    termsEval f names ix (cleanTerms ar sh dt ts) = termsEval f names ix ts := by
  simp only [cleanTerms]
  by_cases h : (ts.filter (fun pr => !pr.2.isZero)).isEmpty
  · rw [if_pos h, ← termsEval_filter f names ix ts,
      List.isEmpty_iff.mp h]
    show (NDArray.zeros sh dt).get ix * _ + 0 = 0
    rw [zeros_get, zero_mul, zero_add]
  · rw [if_neg h]
    exact termsEval_filter f names ix ts

theorem addInto_append :
    ∀ (acc : List (List Nat × NDArray)) (e : List Nat) (c : NDArray),
      e ∉ acc.map Prod.fst → addInto acc e c = acc ++ [(e, c)] := by
  intro acc
  induction acc with
  | nil => intro e c _; rfl
  | cons pr acc ih =>
    intro e c h
    have hne : pr.1 ≠ e := by
      intro hcon
      exact h (by rw [← hcon]; simp)
    show (if pr.1 = e then _ else _) = _
    rw [if_neg hne]
    have := ih e c (fun hmem => h (by simp [hmem]))
    rw [this]
    rfl

theorem foldl_addInto_eq :
    ∀ (ts acc : List (List Nat × NDArray)),
      ((acc ++ ts).map Prod.fst).Nodup →
      ts.foldl (fun a pr => addInto a pr.1 pr.2) acc = acc ++ ts := by
  intro ts
  induction ts with
  | nil => intro acc _; simp
  | cons pr ts ih =>
    intro acc h
    have hnotin : pr.1 ∉ acc.map Prod.fst := by
      intro hmem
      rw [List.map_append] at h
      refine (List.nodup_append.mp h).2.2 hmem ?_
      simp
    rw [List.foldl_cons, addInto_append acc pr.1 pr.2 hnotin]
    have hre : acc ++ pr :: ts = (acc ++ [pr]) ++ ts := by simp
    rw [hre] at h ⊢
    exact ih (acc ++ [pr]) h

theorem dedupTerms_eq_self {ts : List (List Nat × NDArray)}
    (h : (ts.map Prod.fst).Nodup) : dedupTerms ts = ts := by
  unfold dedupTerms
  have := foldl_addInto_eq ts [] (by simpa using h)
  simpa using this

theorem evalMonomial_allzero {f : String → Int} {names : List String}
    {e : List Nat} (h : ∀ x ∈ e, x = 0) : evalMonomial f names e = 1 := by
  refine List.prod_eq_one ?_
  intro x hx
  obtain ⟨pr, hpr, hxp⟩ := List.mem_map.mp hx
  rw [← hxp, h pr.2 (List.of_mem_zip hpr).2, pow_zero]

theorem cleanTerms_ne_nil (ar : Nat) (sh : List Nat) (dt : Dtype)
    (ts : List (List Nat × NDArray)) : cleanTerms ar sh dt ts ≠ [] := by
  simp only [cleanTerms]
  by_cases h : (ts.filter (fun pr => !pr.2.isZero)).isEmpty
  · rw [if_pos h]
    simp
  · rw [if_neg h]
    intro hc
    exact h (by rw [hc]; rfl)

theorem cleanTerms_mem {ar : Nat} {sh : List Nat} {dt : Dtype}
    {ts : List (List Nat × NDArray)} {pr : List Nat × NDArray}
    (h : pr ∈ cleanTerms ar sh dt ts) :
    pr ∈ ts ∨ pr = (List.replicate ar 0, NDArray.zeros sh dt) := by
  simp only [cleanTerms] at h
  by_cases he : (ts.filter (fun q => !q.2.isZero)).isEmpty
  · rw [if_pos he] at h
    right
    simpa using h
  · rw [if_neg he] at h
    left
    exact List.mem_of_mem_filter h

theorem cleanTerms_fst_nodup {ar : Nat} {sh : List Nat} {dt : Dtype}
    {ts : List (List Nat × NDArray)} (h : (ts.map Prod.fst).Nodup) :
    ((cleanTerms ar sh dt ts).map Prod.fst).Nodup := by
  simp only [cleanTerms]
  by_cases he : (ts.filter (fun q => !q.2.isZero)).isEmpty
  · rw [if_pos he]
    simp
  · rw [if_neg he]
    exact List.Nodup.sublist (List.Sublist.map _ (List.filter_sublist _)) h

theorem nodup_all_eq_length_le_one {α : Type} {l : List α} (hnd : l.Nodup)
    (heq : ∀ x ∈ l, ∀ y ∈ l, x = y) : l.length ≤ 1 := by
  cases l with
  | nil => simp
  | cons a l2 =>
    cases l2 with
    | nil => simp
    | cons b l3 =>
      have hab : a = b := heq a (by simp) b (by simp)
      have := (List.nodup_cons.mp hnd).1
      exact absurd (by rw [hab]; simp) this

theorem intScalar_one_inv :
    ∀ ix : List Nat, validIx (NDArray.intScalar 1).shape ix →
      (NDArray.intScalar 1).get ix = 1 := by
  intro ix _
  rfl

theorem castTo_get (dt : Dtype) (c : NDArray) (ix : List Nat) :
    (castTo dt c).get ix = c.get ix := rfl

theorem termsEval_map_snd (f : String → Int) (names : List String)
    (ix : List Nat) (g : NDArray → NDArray)
    (hg : ∀ c, (g c).get ix = c.get ix) (l : List (List Nat × NDArray)) :
    termsEval f names ix (l.map (Prod.map id g)) = termsEval f names ix l := by
  unfold termsEval
  rw [List.map_map]
  refine congrArg List.sum (List.map_congr_left ?_)
  intro pr hpr
  show (g pr.2).get ix * evalMonomial f names pr.1 = _
  rw [hg]

/-- Specification of a cleaning construction with no requested dtype: the
output is well formed, constants collapse to at most one slot, and the value
at every position and assignment is that of the given term slots. -/
theorem from_attributes_true_spec {exps : List (List Nat)} {cs : List NDArray}
    {names : List String} {q : PolynomialArray} {c0 : NDArray}
    {rest : List NDArray}
    (hc : cs = c0 :: rest) (hlen : exps.length = cs.length)
    (har : ∀ e ∈ exps, e.length = names.length)
    (hnd : exps.Nodup) (hnnd : names.Nodup)
    (hsh : ∀ c ∈ cs, c.shape = c0.shape)
    (hdata : ∀ c ∈ cs, c.data.length = c0.shape.prod)
    (h : from_attributes exps cs names none true = some q) :
    WF q ∧ q.names = names ∧ q.shape = c0.shape ∧
    (q.isconstant = true → q.exponents.length ≤ 1) ∧
    ∀ (f : String → Int) (ix : List Nat),
      q.evalAt f ix = termsEval f names ix (exps.zip cs) := by
  rw [from_attributes_true_eq hc hlen har hsh] at h
  obtain rfl := (Option.some.inj h).symm
  have hkeys : ((exps.zip (cs.map (castTo (resolveDtype none cs)))).map
      Prod.fst) = exps := by
    refine List.map_fst_zip _ _ ?_
    rw [List.length_map]
    exact le_of_eq hlen
  have hdedup := @dedupTerms_eq_self (exps.zip
    (cs.map (castTo (resolveDtype none cs)))) (by rw [hkeys]; exact hnd)
  have hmemts : ∀ pr ∈ cleanTerms names.length c0.shape (resolveDtype none cs)
      (dedupTerms (exps.zip (cs.map (castTo (resolveDtype none cs))))),
      (pr.1 ∈ exps ∧ ∃ c ∈ cs, pr.2 = castTo (resolveDtype none cs) c) ∨
      pr = (List.replicate names.length 0,
        NDArray.zeros c0.shape (resolveDtype none cs)) := by
    intro pr hpr
    rcases cleanTerms_mem hpr with h2 | h2
    · rw [hdedup] at h2
      obtain ⟨h3, h4⟩ := List.of_mem_zip h2
      obtain ⟨c, hcm, hcpr⟩ := List.mem_map.mp h4
      exact Or.inl ⟨h3, c, hcm, hcpr.symm⟩
    · exact Or.inr h2
  refine ⟨?_, rfl, rfl, ?_, ?_⟩
  · refine ⟨by rw [List.length_map, List.length_map], ?_, ?_, ?_, ?_, hnnd⟩
    · intro hcne
      exact cleanTerms_ne_nil _ _ _ _ (List.map_eq_nil_iff.mp hcne)
    · intro e hee
      obtain ⟨pr, hpr, hpre⟩ := List.mem_map.mp hee
      rcases hmemts pr hpr with ⟨h3, -⟩ | h3
      · rw [← hpre]
        exact har pr.1 h3
      · rw [← hpre, h3]
        simp
    · intro c hcc
      obtain ⟨pr, hpr, hprc⟩ := List.mem_map.mp hcc
      rcases hmemts pr hpr with ⟨-, c2, hc2, hc2e⟩ | h3
      · rw [← hprc, hc2e]
        exact ⟨hsh c2 hc2, rfl, hdata c2 hc2⟩
      · rw [← hprc, h3]
        exact ⟨rfl, rfl, by simp [NDArray.zeros]⟩
    · refine cleanTerms_fst_nodup ?_
      rw [hdedup, hkeys]
      exact hnd
  · intro hconst
    show ((cleanTerms _ _ _ _).map Prod.fst).length ≤ 1
    refine nodup_all_eq_length_le_one (cleanTerms_fst_nodup
      (by rw [hdedup, hkeys]; exact hnd)) ?_
    have hconst2 : ∀ pr ∈ cleanTerms names.length c0.shape
        (resolveDtype none cs)
        (dedupTerms (exps.zip (cs.map (castTo (resolveDtype none cs))))),
        ∀ x ∈ pr.1, x = 0 := by
      unfold PolynomialArray.isconstant at hconst
      rw [zip_fst_snd, List.all_eq_true] at hconst
      intro pr hpr x hx
      have h2 := hconst pr hpr
      simp only [Bool.or_eq_true, List.all_eq_true, decide_eq_true_eq] at h2
      rcases h2 with h2 | h2
      · simp only [cleanTerms] at hpr
        by_cases he : ((dedupTerms (exps.zip (cs.map (castTo
            (resolveDtype none cs))))).filter
              (fun pr => !pr.2.isZero)).isEmpty
        · rw [if_pos he, List.mem_singleton] at hpr
          have hx2 : x ∈ List.replicate names.length 0 := by
            rw [hpr] at hx
            exact hx
          exact List.eq_of_mem_replicate hx2
        · rw [if_neg he] at hpr
          have hf := List.of_mem_filter hpr
          simp only [Bool.not_eq_eq_eq_not, Bool.not_true] at hf
          rw [h2] at hf
          cases hf
      · exact h2 x hx
    intro x hx y hy
    obtain ⟨prx, hprx, hprxe⟩ := List.mem_map.mp hx
    obtain ⟨pry, hpry, hprye⟩ := List.mem_map.mp hy
    have hxlen : x.length = names.length := by
      rcases hmemts prx hprx with ⟨h3, -⟩ | h3
      · rw [← hprxe]
        exact har prx.1 h3
      · rw [← hprxe, h3]
        simp
    have hylen : y.length = names.length := by
      rcases hmemts pry hpry with ⟨h3, -⟩ | h3
      · rw [← hprye]
        exact har pry.1 h3
      · rw [← hprye, h3]
        simp
    have hxz : ∀ v ∈ x, v = 0 := by
      rw [← hprxe]
      exact hconst2 prx hprx
    have hyz : ∀ v ∈ y, v = 0 := by
      rw [← hprye]
      exact hconst2 pry hpry
    rw [List.eq_replicate_of_mem hxz, List.eq_replicate_of_mem hyz,
      hxlen, hylen]
  · intro f ix
    show termsEval f names ix (((cleanTerms _ _ _ _).map Prod.fst).zip
      ((cleanTerms _ _ _ _).map Prod.snd)) = _
    rw [zip_fst_snd, termsEval_cleanTerms, hdedup]
    have hzm : exps.zip (cs.map (castTo (resolveDtype none cs))) =
        (exps.zip cs).map (Prod.map id (castTo (resolveDtype none cs))) :=
      List.zip_map_right _ _ _
    rw [hzm, termsEval_map_snd f names ix _ (fun c => castTo_get _ c ix)]

theorem mul_ones_term_get {p : PolynomialArray} {r : NDArray} {S : List Nat}
    (hS : broadcastShapes p.shape r.shape = some S)
    (hr1 : ∀ jx, validIx r.shape jx → r.get jx = 1)
    {c : NDArray} (hcsh : c.shape = p.shape)
    {ix : List Nat} (hvix : validIx S ix) :
    (⟨S, c.dtype.promote r.dtype,
      (allIndices S).map (fun jx => c.bget jx * r.bget jx)⟩ : NDArray).get ix =
    c.get (NDArray.srcIndex p.shape ix) := by
  rw [get_map_allIndices hvix]
  have hcomm : broadcastShapes r.shape p.shape = some S := by
    rw [broadcastShapes_comm]
    exact hS
  have habs_r : broadcastShapes r.shape S = some S :=
    broadcastShapes_absorb hcomm
  have hrb : r.bget ix = 1 := by
    show r.get (NDArray.srcIndex r.shape ix) = 1
    exact hr1 _ (validIx_srcIndex habs_r hvix)
  rw [hrb, mul_one]
  show c.get (NDArray.srcIndex c.shape ix) = _
  rw [hcsh]

/-- Stage lemma for `align_shape`: outputs are well formed, keep their input's
names, clean constants down to at most one slot, have a shape absorbing the
input's shape, and preserve the represented value up to broadcasting. -/
theorem align_shape_eval {polys qs : List PolynomialArray}
    (hW : ∀ p ∈ polys, WF p) (h : align_shape polys = some qs) :
    qs.length = polys.length ∧
    ∀ (k : Nat) (p q : PolynomialArray), polys[k]? = some p →
      qs[k]? = some q →
      WF q ∧ q.names = p.names ∧
      (q.isconstant = true → q.exponents.length ≤ 1) ∧
      broadcastShapes p.shape q.shape = some q.shape ∧
      ∀ (f : String → Int) (ix : List Nat), validIx q.shape ix →
        q.evalAt f ix = p.evalAt f (NDArray.srcIndex p.shape ix) := by
  obtain ⟨r, hr, hmap⟩ := align_shape_some_inv h
  obtain ⟨hlen, hinv⟩ := mapM_some_inv _ polys qs hmap
  have hr1 : ∀ jx, validIx r.shape jx → r.get jx = 1 :=
    commonFold_get_one polys (NDArray.intScalar 1) r hW hr intScalar_one_inv
  refine ⟨hlen, ?_⟩
  intro k p q hpk hqk
  obtain ⟨q2, hq2, hfp⟩ := hinv k p hpk
  rw [hq2] at hqk
  obtain rfl := (Option.some.inj hqk).symm
  have hWp := hW p (List.getElem?_mem hpk)
  obtain ⟨hplen, hpne, har, hhom, hnd, hnnd⟩ := hWp
  obtain ⟨c0, crest, hcs⟩ := List.exists_cons_of_ne_nil hpne
  rcases hcm : p.coefficients.mapM (fun c => NDArray.mulB c r) with _ | cs2
  · rw [hcm] at hfp
    simp at hfp
  rw [hcm] at hfp
  simp only [Option.bind_eq_bind, Option.some_bind] at hfp
  have hS0 : ∃ S, broadcastShapes p.shape r.shape = some S := by
    obtain ⟨hlen2, hinv2⟩ := mapM_some_inv _ _ _ hcm
    obtain ⟨b, hb, hfb⟩ := hinv2 0 c0 (by rw [hcs]; simp)
    refine ⟨b.shape, ?_⟩
    rw [← (hhom c0 (by rw [hcs]; simp)).1]
    exact mulB_shape hfb
  obtain ⟨S, hS⟩ := hS0
  have hmulall : ∀ c ∈ p.coefficients, NDArray.mulB c r =
      some ⟨S, c.dtype.promote r.dtype,
        (allIndices S).map (fun jx => c.bget jx * r.bget jx)⟩ := by
    intro c hc
    refine mulB_some_of ?_
    rw [(hhom c hc).1]
    exact hS
  have hcs2 : cs2 = p.coefficients.map (fun c =>
      (⟨S, c.dtype.promote r.dtype,
        (allIndices S).map (fun jx => c.bget jx * r.bget jx)⟩ : NDArray)) := by
    have hm2 := mapM_eq_some_map _ _ _ hmulall
    rw [hm2] at hcm
    exact (Option.some.inj hcm).symm
  subst hcs2
  have hmc : p.coefficients.map (fun c =>
      (⟨S, c.dtype.promote r.dtype,
        (allIndices S).map (fun jx => c.bget jx * r.bget jx)⟩ : NDArray)) =
      (⟨S, c0.dtype.promote r.dtype,
        (allIndices S).map (fun jx => c0.bget jx * r.bget jx)⟩ : NDArray) ::
      crest.map (fun c =>
        (⟨S, c.dtype.promote r.dtype,
          (allIndices S).map (fun jx => c.bget jx * r.bget jx)⟩ : NDArray)) := by
    rw [hcs, List.map_cons]
  have hspec := from_attributes_true_spec hmc
    (by rw [List.length_map]; exact hplen) har hnd hnnd
    (by
      intro c hc
      obtain ⟨x, -, hx⟩ := List.mem_map.mp hc
      rw [← hx])
    (by
      intro c hc
      obtain ⟨x, -, hx⟩ := List.mem_map.mp hc
      rw [← hx]
      show ((allIndices S).map _).length = S.prod
      rw [List.length_map, allIndices_length])
    hfp
  obtain ⟨hWq, hqnames, hqshape, hqconst, hqeval⟩ := hspec
  refine ⟨hWq, hqnames, hqconst, ?_, ?_⟩
  · rw [hqshape]
    exact broadcastShapes_absorb hS
  · intro f ix hvix
    have hvix2 : validIx S ix := by
      rw [hqshape] at hvix
      exact hvix
    rw [hqeval f ix]
    have hzm : p.exponents.zip (p.coefficients.map (fun c =>
        (⟨S, c.dtype.promote r.dtype,
          (allIndices S).map (fun jx => c.bget jx * r.bget jx)⟩ : NDArray))) =
        (p.exponents.zip p.coefficients).map (Prod.map id (fun c =>
          (⟨S, c.dtype.promote r.dtype,
            (allIndices S).map
              (fun jx => c.bget jx * r.bget jx)⟩ : NDArray))) :=
      List.zip_map_right _ _ _
    rw [hzm]
    unfold termsEval
    rw [List.map_map]
    show ((p.exponents.zip p.coefficients).map _).sum =
      ((p.exponents.zip p.coefficients).map (fun pr =>
        pr.2.get (NDArray.srcIndex p.shape ix) *
          evalMonomial f p.names pr.1)).sum
    refine congrArg List.sum (List.map_congr_left ?_)
    intro pr hpr
    show (⟨S, pr.2.dtype.promote r.dtype,
        (allIndices S).map (fun jx => pr.2.bget jx * r.bget jx)⟩ :
          NDArray).get ix * evalMonomial f p.names pr.1 = _
    rw [mul_ones_term_get hS hr1 (hhom pr.2 (List.of_mem_zip hpr).2).1 hvix2]

theorem indexOf_inj_on_mem {cn : List String} (hcnd : cn.Nodup)
    {a b : String} (ha : a ∈ cn) (hb : b ∈ cn)
    (h : cn.indexOf a = cn.indexOf b) : a = b := by
  have h1 := getElem?_indexOf_of_mem ha
  have h2 := getElem?_indexOf_of_mem hb
  rw [h, h2] at h1
  exact (Option.some.inj h1).symm

theorem zip_map_eq_range_map {α β γ : Type} (k : α → β → γ)
    (dflta : α) (dfltb : β) (l1 : List α) (l2 : List β)
    (hlen : l2.length = l1.length) :
    (l1.zip l2).map (fun pr => k pr.1 pr.2) =
    (List.range l1.length).map
      (fun j => k (l1.getD j dflta) (l2.getD j dfltb)) := by
  refine List.ext_getElem? ?_
  intro n
  rw [List.getElem?_map, List.getElem?_map]
  by_cases hn : n < l1.length
  · have hn2 : n < l2.length := by omega
    rw [List.zip_eq_zipWith, List.getElem?_zipWith,
      List.getElem?_eq_getElem hn, List.getElem?_eq_getElem hn2,
      List.getElem?_range hn]
    simp only [Option.map_some']
    rw [List.getD_eq_getElem?_getD, List.getElem?_eq_getElem hn,
      Option.getD_some, List.getD_eq_getElem?_getD,
      List.getElem?_eq_getElem hn2, Option.getD_some]
  · rw [List.getElem?_eq_none
      (by rw [List.length_zip, hlen, Nat.min_self]; exact not_lt.mp hn),
      List.getElem?_eq_none
      (by rw [List.length_range]; exact not_lt.mp hn)]
    rfl

theorem evalMonomial_assignCols {f : String → Int} {cn names : List String}
    {e : List Nat}
    (hnnd : names.Nodup) (hcnd : cn.Nodup)
    (hsub : ∀ n ∈ names, n ∈ cn)
    (helen : e.length = names.length) :
    evalMonomial f cn (assignCols cn.length
      (names.map (fun n => cn.indexOf n)) e) =
    evalMonomial f names e := by
  have hrowlen : (assignCols cn.length
      (names.map (fun n => cn.indexOf n)) e).length = cn.length := by
    unfold assignCols
    rw [List.length_map, List.length_range]
  have hrowval : ∀ j, j < cn.length →
      (assignCols cn.length (names.map (fun n => cn.indexOf n)) e).getD j 0 =
      (if cn.getD j "" ∈ names then
        e.getD (names.indexOf (cn.getD j "")) 0 else 0) := by
    intro j hj
    have hcnj : cn[j]? = some (cn.getD j "") := by
      rw [List.getD_eq_getElem?_getD, List.getElem?_eq_getElem hj,
        Option.getD_some]
    rw [List.getD_eq_getElem?_getD, assignCols_getElem? hj, Option.getD_some,
      indexOf?_map_indexOf hcnd hsub hcnj]
    by_cases hmem : cn.getD j "" ∈ names
    · rw [if_pos hmem, if_pos hmem]
    · rw [if_neg hmem, if_neg hmem]
  show ((cn.zip _).map (fun pr => f pr.1 ^ pr.2)).prod = _
  rw [zip_map_eq_range_map (fun a b => f a ^ b) "" 0 cn _ hrowlen]
  have hcong : (List.range cn.length).map (fun j =>
      f (cn.getD j "") ^ (assignCols cn.length
        (names.map (fun n => cn.indexOf n)) e).getD j 0) =
      (List.range cn.length).map (fun j =>
        f (cn.getD j "") ^ (if cn.getD j "" ∈ names then
          e.getD (names.indexOf (cn.getD j "")) 0 else 0)) := by
    refine List.map_congr_left ?_
    intro j hj
    rw [hrowval j (List.mem_range.mp hj)]
  rw [hcong]
  have hbridge : ((List.range cn.length).map (fun j =>
      f (cn.getD j "") ^ (if cn.getD j "" ∈ names then
        e.getD (names.indexOf (cn.getD j "")) 0 else 0))).prod =
      ∏ j ∈ Finset.range cn.length,
        f (cn.getD j "") ^ (if cn.getD j "" ∈ names then
          e.getD (names.indexOf (cn.getD j "")) 0 else 0) := rfl
  rw [hbridge]
  have hindnd : (names.map (fun n => cn.indexOf n)).Nodup := by
    refine List.Nodup.map_on ?_ hnnd
    intro a ha b hb hab
    exact indexOf_inj_on_mem hcnd (hsub a ha) (hsub b hb) hab
  have hsubset : (names.map (fun n => cn.indexOf n)).toFinset ⊆
      Finset.range cn.length := by
    intro j hjm
    rw [List.mem_toFinset] at hjm
    obtain ⟨n, hn, hnj⟩ := List.mem_map.mp hjm
    rw [← hnj]
    exact Finset.mem_range.mpr (List.indexOf_lt_length.mpr (hsub n hn))
  have hones : ∀ j ∈ Finset.range cn.length,
      j ∉ (names.map (fun n => cn.indexOf n)).toFinset →
      f (cn.getD j "") ^ (if cn.getD j "" ∈ names then
        e.getD (names.indexOf (cn.getD j "")) 0 else 0) = 1 := by
    intro j hjr hjn
    have hnm : cn.getD j "" ∉ names := by
      intro hmem
      refine hjn ?_
      rw [List.mem_toFinset]
      refine List.mem_map.mpr ⟨cn.getD j "", hmem, ?_⟩
      refine indexOf_getElem?_of_nodup hcnd ?_
      have hj := Finset.mem_range.mp hjr
      rw [List.getD_eq_getElem?_getD, List.getElem?_eq_getElem hj,
        Option.getD_some]
    rw [if_neg hnm, pow_zero]
  rw [← Finset.prod_subset hsubset hones,
    List.prod_toFinset _ hindnd, List.map_map]
  have hfinal : names.map ((fun j => f (cn.getD j "") ^
      (if cn.getD j "" ∈ names then
        e.getD (names.indexOf (cn.getD j "")) 0 else 0)) ∘
      (fun n => cn.indexOf n)) =
      (List.range names.length).map (fun k =>
        f (names.getD k "") ^ e.getD k 0) := by
    refine List.ext_getElem? ?_
    intro k
    rw [List.getElem?_map, List.getElem?_map]
    by_cases hk : k < names.length
    · rw [List.getElem?_eq_getElem hk, List.getElem?_range hk]
      simp only [Option.map_some', Function.comp_apply]
      have hmemk : names[k] ∈ names := List.getElem?_mem
        (List.getElem?_eq_getElem hk)
      have hcngd : cn.getD (cn.indexOf names[k]) "" = names[k] := by
        rw [List.getD_eq_getElem?_getD,
          getElem?_indexOf_of_mem (hsub _ hmemk), Option.getD_some]
      rw [hcngd, if_pos hmemk,
        indexOf_getElem?_of_nodup hnnd (List.getElem?_eq_getElem hk)]
      have hngd : names.getD k "" = names[k] := by
        rw [List.getD_eq_getElem?_getD, List.getElem?_eq_getElem hk,
          Option.getD_some]
      rw [hngd]
    · rw [List.getElem?_eq_none (not_lt.mp hk),
        List.getElem?_eq_none
        (by rw [List.length_range]; exact not_lt.mp hk)]
      rfl
  rw [hfinal]
  show _ = ((names.zip e).map (fun pr => f pr.1 ^ pr.2)).prod
  rw [zip_map_eq_range_map (fun a b => f a ^ b) "" 0 names e helen]

theorem nodup_of_length_le_one {α : Type} {l : List α} (h : l.length ≤ 1) :
    l.Nodup := by
  cases l with
  | nil => simp
  | cons a l2 =>
    cases l2 with
    | nil => simp
    | cons b l3 => simp at h

theorem assignCols_inj {W : Nat} {indices : List Nat} (hnd : indices.Nodup)
    {e1 e2 : List Nat}
    (h1 : e1.length = indices.length) (h2 : e2.length = indices.length)
    (hWb : ∀ j ∈ indices, j < W)
    (heq : assignCols W indices e1 = assignCols W indices e2) : e1 = e2 := by
  refine List.ext_getElem? ?_
  intro k
  by_cases hk : k < indices.length
  · have hjW : indices[k] < W :=
      hWb _ (List.getElem?_mem (List.getElem?_eq_getElem hk))
    have hidx : indices.indexOf? indices[k] = some k :=
      indexOf?_of_getElem?_nodup hnd (List.getElem?_eq_getElem hk)
    have hv1 : (assignCols W indices e1)[indices[k]]? =
        some (match indices.indexOf? indices[k] with
          | some k2 => e1.getD k2 0
          | none => 0) := assignCols_getElem? hjW
    have hv2 : (assignCols W indices e2)[indices[k]]? =
        some (match indices.indexOf? indices[k] with
          | some k2 => e2.getD k2 0
          | none => 0) := assignCols_getElem? hjW
    rw [hidx] at hv1 hv2
    have hv1b : (assignCols W indices e1)[indices[k]]? =
        some (e1.getD k 0) := hv1
    have hv2b : (assignCols W indices e2)[indices[k]]? =
        some (e2.getD k 0) := hv2
    rw [heq, hv2b] at hv1b
    have hdeq : e2.getD k 0 = e1.getD k 0 := Option.some.inj hv1b
    have hk1 : k < e1.length := by omega
    have hk2 : k < e2.length := by omega
    rw [List.getElem?_eq_getElem hk1, List.getElem?_eq_getElem hk2]
    have hg1 : e1.getD k 0 = e1[k] := by
      rw [List.getD_eq_getElem?_getD, List.getElem?_eq_getElem hk1,
        Option.getD_some]
    have hg2 : e2.getD k 0 = e2[k] := by
      rw [List.getD_eq_getElem?_getD, List.getElem?_eq_getElem hk2,
        Option.getD_some]
    rw [← hg1, ← hg2, hdeq]
  · rw [List.getElem?_eq_none (by omega), List.getElem?_eq_none (by omega)]

theorem from_attributes_false_homo {exps2 : List (List Nat)}
    {cs : List NDArray} {names2 : List String} {sh : List Nat} {dt : Dtype}
    (hlen : exps2.length = cs.length) (hne : cs ≠ [])
    (har : ∀ e ∈ exps2, e.length = names2.length)
    (hhom : ∀ c ∈ cs, c.shape = sh ∧ c.dtype = dt) :
    from_attributes exps2 cs names2 none false =
      some ⟨names2, exps2, cs, sh, dt⟩ := by
  obtain ⟨c0, rest, hc⟩ := List.exists_cons_of_ne_nil hne
  rw [from_attributes_false_eq hc hlen har
    (fun c hcm => ((hhom c hcm).1).trans ((hhom c0 (by rw [hc]; simp)).1).symm)]
  have hdt : resolveDtype none cs = dt := by
    rw [hc]
    exact resolveDtype_none_const (fun c hcm => (hhom c (hc ▸ hcm)).2)
  have hcast : cs.map (castTo dt) = cs := by
    refine (List.map_congr_left ?_).trans (List.map_id _)
    intro c hcm
    exact castTo_self ((hhom c hcm).2)
  rw [hdt, hcast, (hhom c0 (by rw [hc]; simp)).1]

theorem align_indeterminants_empty {polys : List PolynomialArray}
    (h : commonNames polys = []) : align_indeterminants polys = some polys := by
  simp only [align_indeterminants]
  rw [if_pos (by rw [h]; rfl)]

/-- Stage lemma for `align_indeterminants`: either the common name list is
empty and the inputs pass through unchanged, or every output carries the
common name list; outputs are well formed, keep their shape, and preserve the
represented value at every position. -/
theorem align_indeterminants_eval {polys qs : List PolynomialArray}
    (hW : ∀ p ∈ polys, WF p)
    (hC : ∀ p ∈ polys, p.isconstant = true → p.exponents.length ≤ 1)
    (h : align_indeterminants polys = some qs) :
    qs.length = polys.length ∧
    ((commonNames polys = [] ∧ qs = polys) ∨
      ∀ q ∈ qs, q.names = commonNames polys) ∧
    ∀ (k : Nat) (p q : PolynomialArray), polys[k]? = some p →
      qs[k]? = some q →
      WF q ∧ q.shape = p.shape ∧
      ∀ (f : String → Int) (ix : List Nat), q.evalAt f ix = p.evalAt f ix := by
  simp only [align_indeterminants] at h
  by_cases hcn : (commonNames polys).isEmpty
  · rw [if_pos hcn] at h
    obtain rfl := Option.some.inj h
    refine ⟨rfl, Or.inl ⟨List.isEmpty_iff.mp hcn, rfl⟩, ?_⟩
    intro k p q hpk hqk
    rw [hpk] at hqk
    obtain rfl := Option.some.inj hqk
    exact ⟨hW p (List.getElem?_mem hpk), rfl, fun f ix => rfl⟩
  · rw [if_neg hcn] at h
    obtain ⟨hlen, hinv⟩ := mapM_some_inv _ polys qs h
    have hmain : ∀ (k : Nat) (p q : PolynomialArray), polys[k]? = some p →
        qs[k]? = some q →
        q.names = commonNames polys ∧ WF q ∧ q.shape = p.shape ∧
        ∀ (f : String → Int) (ix : List Nat),
          q.evalAt f ix = p.evalAt f ix := by
      intro k p q hpk hqk
      obtain ⟨q2, hq2, hfp⟩ := hinv k p hpk
      rw [hq2] at hqk
      obtain rfl := (Option.some.inj hqk).symm
      have hpmem := List.getElem?_mem hpk
      obtain ⟨hplen, hpne, har, hhom, hnd, hnnd⟩ := hW p hpmem
      have hcnnd := commonNames_nodup polys
      have hfp2 : (if ((p.names.filter (fun n => n ∈ commonNames polys)).map
          (fun n => (commonNames polys).indexOf n)).isEmpty then
          from_attributes (p.exponents.map
            (fun _ => List.replicate (commonNames polys).length 0))
            p.coefficients (commonNames polys) none false
        else if ((p.names.filter (fun n => n ∈ commonNames polys)).map
            (fun n => (commonNames polys).indexOf n)).length =
              p.names.length then
          from_attributes (p.exponents.map
            (assignCols (commonNames polys).length
              ((p.names.filter (fun n => n ∈ commonNames polys)).map
                (fun n => (commonNames polys).indexOf n))))
            p.coefficients (commonNames polys) none false
        else none) = some q := hfp
      by_cases hind : ((p.names.filter (fun n => n ∈ commonNames polys)).map
          (fun n => (commonNames polys).indexOf n)).isEmpty
      · -- no name of p occurs in the common list: p is constant
        rw [if_pos hind] at hfp2
        rw [from_attributes_false_homo
          (by rw [List.length_map]; exact hplen)
          hpne
          (by
            intro e hee
            obtain ⟨x, -, hx⟩ := List.mem_map.mp hee
            rw [← hx]
            simp)
          (fun c hcm => ⟨(hhom c hcm).1, (hhom c hcm).2.1⟩)] at hfp2
        obtain rfl := (Option.some.inj hfp2).symm
        have hpc : p.isconstant = true := by
          by_contra hpcn
          have hpcf : p.isconstant = false := by
            cases hx : p.isconstant
            · rfl
            · exact absurd hx hpcn
          have hnames_ne : p.names ≠ [] := by
            intro hn
            have hcp : p.isconstant = true := by
              unfold PolynomialArray.isconstant
              rw [List.all_eq_true]
              intro pr hpr
              have harz := har pr.1 (List.of_mem_zip hpr).1
              rw [hn] at harz
              have hprn : pr.1 = [] := List.eq_nil_of_length_eq_zero harz
              simp [hprn]
            rw [hcp] at hpcf
            cases hpcf
          obtain ⟨n, hn⟩ := List.exists_mem_of_ne_nil _ hnames_ne
          have hncn : n ∈ commonNames polys :=
            mem_commonNames.mpr ⟨p, hpmem, hpcf, hn⟩
          have hfmem : n ∈ p.names.filter (fun m => m ∈ commonNames polys) :=
            List.mem_filter.mpr ⟨hn, by simpa using hncn⟩
          have : ((p.names.filter (fun m => m ∈ commonNames polys)).map
              (fun m => (commonNames polys).indexOf m)) ≠ [] := by
            intro hmape
            rw [List.map_eq_nil_iff.mp hmape] at hfmem
            cases hfmem
          exact this (List.isEmpty_iff.mp hind)
        have hle1 : p.exponents.length ≤ 1 := hC p hpmem hpc
        have hslotz : ∀ pr ∈ p.exponents.zip p.coefficients,
            pr.2.isZero = true ∨ ∀ x ∈ pr.1, x = 0 := by
          unfold PolynomialArray.isconstant at hpc
          rw [List.all_eq_true] at hpc
          intro pr hpr
          have h2 := hpc pr hpr
          simp only [Bool.or_eq_true, List.all_eq_true,
            decide_eq_true_eq] at h2
          exact h2
        refine ⟨rfl, ?_, rfl, ?_⟩
        · refine ⟨by rw [List.length_map]; exact hplen,
            hpne, ?_, ?_, ?_, hcnnd⟩
          · intro e hee
            obtain ⟨x, -, hx⟩ := List.mem_map.mp hee
            rw [← hx]
            simp
          · intro c hcm
            exact hhom c hcm
          · refine nodup_of_length_le_one ?_
            rw [List.length_map]
            exact hle1
        · intro f ix
          show termsEval f (commonNames polys) ix
            ((p.exponents.map (fun _ =>
              List.replicate (commonNames polys).length 0)).zip
              p.coefficients) = p.evalAt f ix
          rw [List.zip_map_left]
          unfold termsEval PolynomialArray.evalAt
          rw [List.map_map]
          refine congrArg List.sum (List.map_congr_left ?_)
          intro pr hpr
          show pr.2.get ix * evalMonomial f (commonNames polys)
            (List.replicate (commonNames polys).length 0) =
            pr.2.get ix * evalMonomial f p.names pr.1
          rw [evalMonomial_allzero (fun x hx => List.eq_of_mem_replicate hx)]
          rcases hslotz pr hpr with hz | hz
          · rw [isZero_get hz, zero_mul, zero_mul]
          · rw [evalMonomial_allzero hz]
      · rw [if_neg hind] at hfp2
        by_cases hfull : ((p.names.filter
            (fun n => n ∈ commonNames polys)).map
            (fun n => (commonNames polys).indexOf n)).length =
              p.names.length
        · rw [if_pos hfull] at hfp2
          have hsub : ∀ n ∈ p.names, n ∈ commonNames polys := by
            rw [List.length_map] at hfull
            have := List.filter_length_eq_length.mp hfull
            intro n hn
            simpa using this n hn
          have hfilter : p.names.filter (fun n => n ∈ commonNames polys) =
              p.names := by
            refine List.filter_eq_self.mpr ?_
            intro n hn
            simpa using hsub n hn
          rw [hfilter] at hfp2
          rw [from_attributes_false_homo
            (by rw [List.length_map]; exact hplen)
            hpne
            (by
              intro e hee
              obtain ⟨x, -, hx⟩ := List.mem_map.mp hee
              rw [← hx]
              show (assignCols _ _ x).length = _
              unfold assignCols
              rw [List.length_map, List.length_range])
            (fun c hcm => ⟨(hhom c hcm).1, (hhom c hcm).2.1⟩)] at hfp2
          obtain rfl := (Option.some.inj hfp2).symm
          have hindnd : (p.names.map
              (fun n => (commonNames polys).indexOf n)).Nodup := by
            refine List.Nodup.map_on ?_ hnnd
            intro a ha b hb hab
            exact indexOf_inj_on_mem hcnnd (hsub a ha) (hsub b hb) hab
          have hbnd : ∀ j ∈ p.names.map
              (fun n => (commonNames polys).indexOf n),
              j < (commonNames polys).length := by
            intro j hj
            obtain ⟨n, hn, hnj⟩ := List.mem_map.mp hj
            rw [← hnj]
            exact List.indexOf_lt_length.mpr (hsub n hn)
          refine ⟨rfl, ?_, rfl, ?_⟩
          · refine ⟨by rw [List.length_map]; exact hplen,
              hpne, ?_, ?_, ?_, hcnnd⟩
            · intro e hee
              obtain ⟨x, -, hx⟩ := List.mem_map.mp hee
              rw [← hx]
              show (assignCols _ _ x).length = _
              unfold assignCols
              rw [List.length_map, List.length_range]
            · intro c hcm
              exact hhom c hcm
            · refine List.Nodup.map_on ?_ hnd
              intro e1 he1 e2 he2 heq
              exact assignCols_inj hindnd
                (by rw [List.length_map]; exact har e1 he1)
                (by rw [List.length_map]; exact har e2 he2)
                hbnd heq
          · intro f ix
            show termsEval f (commonNames polys) ix
              ((p.exponents.map (assignCols (commonNames polys).length
                (p.names.map (fun n => (commonNames polys).indexOf n)))).zip
                p.coefficients) = p.evalAt f ix
            rw [List.zip_map_left]
            unfold termsEval PolynomialArray.evalAt
            rw [List.map_map]
            refine congrArg List.sum (List.map_congr_left ?_)
            intro pr hpr
            show pr.2.get ix * evalMonomial f (commonNames polys)
              (assignCols (commonNames polys).length
                (p.names.map (fun n => (commonNames polys).indexOf n))
                pr.1) =
              pr.2.get ix * evalMonomial f p.names pr.1
            rw [evalMonomial_assignCols hnnd hcnnd hsub
              (har pr.1 (List.of_mem_zip hpr).1)]
        · rw [if_neg hfull] at hfp2
          cases hfp2
    refine ⟨hlen, Or.inr ?_, ?_⟩
    · intro q hq
      obtain ⟨k, hk⟩ := List.getElem?_of_mem hq
      have hk2 : k < polys.length := by
        have hkq : k < qs.length := by
          by_contra hcon
          rw [List.getElem?_eq_none (not_lt.mp hcon)] at hk
          cases hk
        omega
      exact (hmain k polys[k] q (List.getElem?_eq_getElem hk2) hk).1
    · intro k p q hpk hqk
      exact (hmain k p q hpk hqk).2

theorem globalExponents_nodup_aux :
    ∀ (rest : List PolynomialArray) (acc : List (List Nat)),
      acc.Nodup → (∀ p ∈ rest, p.exponents.Nodup) →
      (rest.foldl (fun a p => a ++ p.exponents.filter (fun x => x ∉ a))
        acc).Nodup := by
  intro rest
  induction rest with
  | nil => intro acc h _; exact h
  | cons p ps ih =>
    intro acc h hrest
    rw [List.foldl_cons]
    refine ih _ ?_ (fun x hx => hrest x (by simp [hx]))
    rw [List.nodup_append]
    refine ⟨h, List.Nodup.sublist (List.filter_sublist _)
      (hrest p (by simp)), ?_⟩
    intro x hxacc hxfil
    have := List.mem_filter.mp hxfil
    simp only [decide_eq_true_eq] at this
    exact this.2 hxacc

theorem globalExponents_nodup {p0exps : List (List Nat)}
    {rest : List PolynomialArray} (h0 : p0exps.Nodup)
    (hrest : ∀ p ∈ rest, p.exponents.Nodup) :
    (globalExponents p0exps rest).Nodup :=
  globalExponents_nodup_aux rest p0exps h0 hrest

theorem globalExponents_src_sub :
    ∀ (rest : List PolynomialArray) (acc : List (List Nat)),
      ∀ p ∈ rest, ∀ e ∈ p.exponents,
      e ∈ rest.foldl (fun a q => a ++ q.exponents.filter (fun x => x ∉ a))
        acc := by
  intro rest
  induction rest with
  | nil => intro acc p hp; cases hp
  | cons q qs ih =>
    intro acc p hp e he
    rw [List.foldl_cons]
    rcases List.mem_cons.mp hp with hq | hq
    · subst hq
      refine globalExponents_acc_mem ?_
      by_cases hacc : e ∈ acc
      · simp [hacc]
      · refine List.mem_append.mpr (Or.inr ?_)
        refine List.mem_filter.mpr ⟨he, ?_⟩
        simpa using hacc
    · exact ih _ p hq e he

theorem zip_self_map {α β : Type} (l : List α) (g : α → β) :
    l.zip (l.map g) = l.map (fun a => (a, g a)) := by
  induction l with
  | nil => rfl
  | cons a l2 ih =>
    rw [List.map_cons, List.map_cons, List.zip_cons_cons, ih]

theorem sum_map_filter_eq {α : Type} (pred : α → Bool) (v : α → Int) :
    ∀ l : List α, (∀ a ∈ l, pred a = false → v a = 0) →
      ((l.filter pred).map v).sum = (l.map v).sum := by
  intro l
  induction l with
  | nil => intro _; rfl
  | cons a l2 ih =>
    intro h
    rw [List.filter_cons]
    by_cases hp : pred a
    · rw [if_pos (by simpa using hp), List.map_cons, List.map_cons,
        List.sum_cons, List.sum_cons,
        ih (fun x hx hpx => h x (by simp [hx]) hpx)]
    · rw [if_neg (by simpa using hp), List.map_cons, List.sum_cons,
        h a (by simp) (by simpa using hp), zero_add,
        ih (fun x hx hpx => h x (by simp [hx]) hpx)]

theorem from_attributes_some_arity {exps : List (List Nat)}
    {cs : List NDArray} {names : List String} {dtq : Option Dtype} {b : Bool}
    {q : PolynomialArray} (h : from_attributes exps cs names dtq b = some q) :
    ∀ e ∈ exps, e.length = names.length := by
  cases cs with
  | nil => simp [from_attributes] at h
  | cons c0 rest =>
    simp only [from_attributes] at h
    split at h
    · rename_i hcond
      exact hcond.2.1
    · cases h

theorem align_exponents_some_inv2 {polys qs : List PolynomialArray}
    (h : align_exponents polys = some qs) :
    ∃ (polys2 : List PolynomialArray) (p0 : PolynomialArray)
      (rest : List PolynomialArray),
      ((polys2 = polys ∧ ∀ p ∈ polys, ∀ p2 ∈ polys, p.names = p2.names) ∨
        ((∃ p ∈ polys, ∃ p2 ∈ polys, p.names ≠ p2.names) ∧
          align_indeterminants polys = some polys2)) ∧
      polys2 = p0 :: rest ∧
      qs.length = polys2.length ∧
      ∀ (k : Nat) (p : PolynomialArray), polys2[k]? = some p →
        ∃ q, qs[k]? = some q ∧
          from_attributes (globalExponents p0.exponents rest)
            ((globalExponents p0.exponents rest).map (fun t =>
              (lookupCoeff p t).getD (NDArray.zeros p.shape p.dtype)))
            p.names none false = some q := by
  cases polys with
  | nil => simp [align_exponents] at h
  | cons r0 rrest =>
    by_cases hall : ((r0 :: rrest).all (fun p => p.names = r0.names)) = true
    · simp only [align_exponents, hall, if_true, Option.bind_eq_bind,
        Option.some_bind] at h
      obtain ⟨hlen, hinv⟩ := mapM_some_inv _ _ _ h
      refine ⟨r0 :: rrest, r0, rrest, Or.inl ⟨rfl, ?_⟩, rfl, hlen, hinv⟩
      simp only [List.all_eq_true, decide_eq_true_eq] at hall
      intro p hp p2 hp2
      rw [hall p hp, hall p2 hp2]
    · have hallf : ((r0 :: rrest).all (fun p => p.names = r0.names)) =
          false := by
        cases h2 : (r0 :: rrest).all (fun p => p.names = r0.names)
        · rfl
        · exact absurd h2 hall
      have hex : ∃ p ∈ r0 :: rrest, ∃ p2 ∈ r0 :: rrest,
          p.names ≠ p2.names := by
        rw [List.all_eq_true] at hall
        push_neg at hall
        obtain ⟨p, hp, hpn⟩ := hall
        exact ⟨p, hp, r0, by simp, by simpa using hpn⟩
      simp only [align_exponents, hallf, Bool.false_eq_true, if_false,
        Option.bind_eq_bind] at h
      rcases hai : align_indeterminants (r0 :: rrest) with _ | polys2
      · rw [hai] at h
        simp at h
      · rw [hai] at h
        simp only [Option.some_bind] at h
        cases polys2 with
        | nil => simp at h
        | cons p0 rest =>
          obtain ⟨hlen, hinv⟩ := mapM_some_inv _ _ _ h
          exact ⟨p0 :: rest, p0, rest, Or.inr ⟨hex, rfl⟩, rfl, hlen, hinv⟩

/-- Stage lemma for `align_exponents`: when the inputs already share one name
list, or the common name list is empty, outputs are well formed, keep their
input's shape and names, and preserve the represented value at every
position. -/
theorem align_exponents_eval {polys qs : List PolynomialArray}
    (hW : ∀ p ∈ polys, WF p)
    (hnames : (∀ p ∈ polys, ∀ p2 ∈ polys, p.names = p2.names) ∨
      commonNames polys = [])
    (h : align_exponents polys = some qs) :
    qs.length = polys.length ∧
    ∀ (k : Nat) (p q : PolynomialArray), polys[k]? = some p →
      qs[k]? = some q →
      WF q ∧ q.shape = p.shape ∧ q.names = p.names ∧
      ∀ (f : String → Int) (ix : List Nat),
        q.evalAt f ix = p.evalAt f ix := by
  obtain ⟨polys2, p0, rest, hbranch, hcons, hlen, hinv⟩ :=
    align_exponents_some_inv2 h
  have hpoly2 : polys2 = polys := by
    rcases hbranch with ⟨heq, -⟩ | ⟨hex, hai⟩
    · exact heq
    · rcases hnames with hglob | hcn
      · obtain ⟨p, hp, p2, hp2, hne⟩ := hex
        exact absurd (hglob p hp p2 hp2) hne
      · rw [align_indeterminants_empty hcn] at hai
        exact (Option.some.inj hai).symm
  subst hpoly2
  refine ⟨by rw [hlen], ?_⟩
  intro k p q hpk hqk
  obtain ⟨q2, hq2, hfa⟩ := hinv k p hpk
  rw [hq2] at hqk
  obtain rfl := (Option.some.inj hqk).symm
  have hpmem := List.getElem?_mem hpk
  obtain ⟨hplen, hpne, har, hhom, hnd, hnnd⟩ := hW p hpmem
  have hge_ne : globalExponents p0.exponents rest ≠ [] := by
    obtain ⟨h0len, h0ne, -, -, -, -⟩ := hW p0 (by rw [hcons]; simp)
    refine globalExponents_ne_nil ?_
    intro h0
    apply h0ne
    refine List.eq_nil_of_length_eq_zero ?_
    rw [← h0len, h0]
    rfl
  have harq := from_attributes_some_arity hfa
  have hhom3 : ∀ c ∈ (globalExponents p0.exponents rest).map (fun t =>
      (lookupCoeff p t).getD (NDArray.zeros p.shape p.dtype)),
      c.shape = p.shape ∧ c.dtype = p.dtype ∧
      c.data.length = p.shape.prod := by
    intro c hcm
    obtain ⟨t, -, hct⟩ := List.mem_map.mp hcm
    cases hl : lookupCoeff p t with
    | none =>
      rw [← hct, hl]
      exact ⟨rfl, rfl, by simp [NDArray.zeros]⟩
    | some c2 =>
      have := hhom c2 (lookupCoeff_mem hl)
      rw [← hct, hl]
      exact this
  rw [from_attributes_false_homo (by rw [List.length_map])
      (by intro hmape; exact hge_ne (List.map_eq_nil_iff.mp hmape))
      harq (fun c hcm => ⟨(hhom3 c hcm).1, (hhom3 c hcm).2.1⟩)] at hfa
  obtain rfl := (Option.some.inj hfa).symm
  have hgnd : (globalExponents p0.exponents rest).Nodup := by
    refine globalExponents_nodup ?_ ?_
    · exact (hW p0 (by rw [hcons]; simp)).2.2.2.2.1
    · intro r hr
      exact (hW r (by rw [hcons]; simp [hr])).2.2.2.2.1
  have hsubexp : ∀ e ∈ p.exponents,
      e ∈ globalExponents p0.exponents rest := by
    have hpm2 : p ∈ p0 :: rest := by
      rw [← hcons]
      exact hpmem
    rcases List.mem_cons.mp hpm2 with hp0 | hpr
    · intro e he
      exact globalExponents_acc_mem (hp0 ▸ he)
    · intro e he
      exact globalExponents_src_sub rest p0.exponents p hpr e he
  refine ⟨?_, rfl, rfl, ?_⟩
  · refine ⟨by rw [List.length_map],
      (by intro hmape; exact hge_ne (List.map_eq_nil_iff.mp hmape)),
      harq, ?_, hgnd, hnnd⟩
    intro c hcm
    exact hhom3 c hcm
  · intro f ix
    show termsEval f p.names ix ((globalExponents p0.exponents rest).zip
      ((globalExponents p0.exponents rest).map (fun t =>
        (lookupCoeff p t).getD (NDArray.zeros p.shape p.dtype)))) =
      p.evalAt f ix
    rw [zip_self_map]
    unfold termsEval
    have hlm : ((globalExponents p0.exponents rest).map (fun t =>
        (t, (lookupCoeff p t).getD (NDArray.zeros p.shape p.dtype)))).map
        (fun pr => pr.2.get ix * evalMonomial f p.names pr.1) =
        (globalExponents p0.exponents rest).map (fun t =>
          ((lookupCoeff p t).getD
            (NDArray.zeros p.shape p.dtype)).get ix *
            evalMonomial f p.names t) := by
      rw [List.map_map]
      rfl
    rw [hlm]
    rw [← sum_map_filter_eq (fun t => decide (t ∈ p.exponents))
      (fun t => ((lookupCoeff p t).getD
        (NDArray.zeros p.shape p.dtype)).get ix *
        evalMonomial f p.names t)
      (globalExponents p0.exponents rest)
      (by
        intro t htm htf
        have htn : t ∉ p.exponents := of_decide_eq_false htf
        show ((lookupCoeff p t).getD
          (NDArray.zeros p.shape p.dtype)).get ix *
          evalMonomial f p.names t = 0
        rw [lookupCoeff_eq_none htn, Option.getD_none, zeros_get, zero_mul])]
    have hperm : ((globalExponents p0.exponents rest).filter
        (fun t => decide (t ∈ p.exponents))).Perm p.exponents := by
      refine (List.perm_ext_iff_of_nodup
        (List.Nodup.sublist (List.filter_sublist _) hgnd) hnd).mpr ?_
      intro a
      constructor
      · intro ha
        have := List.mem_filter.mp ha
        simpa using this.2
      · intro ha
        exact List.mem_filter.mpr ⟨hsubexp a ha, by simpa using ha⟩
    rw [(hperm.map (fun t => ((lookupCoeff p t).getD
      (NDArray.zeros p.shape p.dtype)).get ix *
      evalMonomial f p.names t)).sum_eq]
    have hluk : ∀ (n : Nat) (hn : n < p.exponents.length),
        lookupCoeff p (p.exponents[n]) =
        some (p.coefficients.get ⟨n, by rw [← hplen]; exact hn⟩) := by
      intro n hn
      obtain ⟨i, c, hie, hic, hl⟩ := lookupCoeff_eq_of_mem hnd hplen
        (List.getElem?_mem (List.getElem?_eq_getElem hn))
      have hio1 := indexOf?_of_getElem?_nodup hnd hie
      have hio2 := indexOf?_of_getElem?_nodup hnd
        (List.getElem?_eq_getElem hn)
      rw [hio2] at hio1
      obtain rfl := Option.some.inj hio1
      rw [List.getElem?_eq_getElem (by rw [← hplen]; exact hn)] at hic
      rw [hl]
      refine congrArg some ?_
      have hcc := Option.some.inj hic
      rw [← hcc]
      rfl
    have hfinal : p.exponents.map (fun t => ((lookupCoeff p t).getD
        (NDArray.zeros p.shape p.dtype)).get ix *
        evalMonomial f p.names t) =
        (p.exponents.zip p.coefficients).map (fun pr =>
          pr.2.get ix * evalMonomial f p.names pr.1) := by
      refine List.ext_getElem? ?_
      intro n
      rw [List.getElem?_map, List.getElem?_map]
      by_cases hn : n < p.exponents.length
      · have hn2 : n < p.coefficients.length := by
          rw [← hplen]
          exact hn
        have hzipn : (p.exponents.zip p.coefficients)[n]? =
            some (p.exponents[n], p.coefficients[n]) := by
          rw [List.zip_eq_zipWith, List.getElem?_zipWith,
            List.getElem?_eq_getElem hn, List.getElem?_eq_getElem hn2]
        rw [List.getElem?_eq_getElem hn, hzipn, Option.map_some',
          Option.map_some', hluk n hn, Option.getD_some]
        rfl
      · rw [List.getElem?_eq_none (not_lt.mp hn),
          List.getElem?_eq_none
          (by
            rw [List.length_zip, ← hplen, Nat.min_self]
            exact not_lt.mp hn)]
        rfl
    rw [hfinal]
    rfl

/-- Stage lemma for `align_dtype`: outputs are well formed, keep their
input's shape and names, and preserve the represented value at every
position. -/
theorem align_dtype_eval {polys qs : List PolynomialArray}
    (hW : ∀ p ∈ polys, WF p) (h : align_dtype polys = some qs) :
    qs.length = polys.length ∧
    ∀ (k : Nat) (p q : PolynomialArray), polys[k]? = some p →
      qs[k]? = some q →
      WF q ∧ q.shape = p.shape ∧ q.names = p.names ∧
      ∀ (f : String → Int) (ix : List Nat),
        q.evalAt f ix = p.evalAt f ix := by
  simp only [align_dtype] at h
  obtain ⟨hlen, hinv⟩ := mapM_some_inv _ polys qs h
  refine ⟨hlen, ?_⟩
  intro k p q hpk hqk
  obtain ⟨q2, hq2, hfp⟩ := hinv k p hpk
  rw [hq2] at hqk
  obtain rfl := (Option.some.inj hqk).symm
  obtain ⟨hplen, hpne, har, hhom, hnd, hnnd⟩ := hW p (List.getElem?_mem hpk)
  obtain ⟨c0, crest, hcs⟩ := List.exists_cons_of_ne_nil hpne
  rw [from_attributes_false_eq hcs hplen har
    (fun c hc => ((hhom c hc).1).trans
      ((hhom c0 (by rw [hcs]; simp)).1).symm)] at hfp
  obtain rfl := (Option.some.inj hfp).symm
  have hc0sh : c0.shape = p.shape := (hhom c0 (by rw [hcs]; simp)).1
  refine ⟨?_, hc0sh, rfl, ?_⟩
  · refine ⟨by rw [List.length_map]; exact hplen,
      (by
        intro hmape
        exact hpne (List.map_eq_nil_iff.mp hmape)),
      har, ?_, hnd, hnnd⟩
    intro c hcm
    obtain ⟨x, hx, hxc⟩ := List.mem_map.mp hcm
    rw [← hxc]
    refine ⟨((hhom x hx).1).trans hc0sh.symm, rfl, ?_⟩
    show x.data.length = c0.shape.prod
    rw [hc0sh]
    exact (hhom x hx).2.2
  · intro f ix
    show termsEval f p.names ix (p.exponents.zip (p.coefficients.map _)) = _
    rw [List.zip_map_right,
      termsEval_map_snd f p.names ix _ (fun c => castTo_get _ c ix)]
    rfl

/-- C3: whenever the top-level alignment orchestrator succeeds on a list of
well-formed polynomial arrays, each output's shape absorbs its input's shape
under the dense-array broadcast rule, and at every valid position of the
output and every assignment of integer values to the indeterminate names the
output evaluates to its input's value at the broadcast source position:
alignment changes representation, never value. -/
theorem C3_align_polynomials (polys qs : List PolynomialArray)
    (hW : ∀ p ∈ polys, WF p)
    (halign : align_polynomials polys = some qs) :
    qs.length = polys.length ∧
    ∀ (k : Nat) (p q : PolynomialArray), polys[k]? = some p →
      qs[k]? = some q →
      broadcastShapes p.shape q.shape = some q.shape ∧
      ∀ (f : String → Int) (ix : List Nat), validIx q.shape ix →
        q.evalAt f ix = p.evalAt f (NDArray.srcIndex p.shape ix) := by
  simp only [align_polynomials, Option.bind_eq_bind] at halign
  obtain ⟨qs1, h1, hrest1⟩ := Option.bind_eq_some.mp halign
  obtain ⟨qs2, h2, hrest2⟩ := Option.bind_eq_some.mp hrest1
  obtain ⟨qs3, h3, h4⟩ := Option.bind_eq_some.mp hrest2
  have S1 := align_shape_eval hW h1
  have hmemk : ∀ {l1 l2 : List PolynomialArray}, l2.length = l1.length →
      ∀ q ∈ l2, ∃ (k : Nat) (p : PolynomialArray),
        l1[k]? = some p ∧ l2[k]? = some q := by
    intro l1 l2 hl q hq
    obtain ⟨k, hk⟩ := List.getElem?_of_mem hq
    have hkl : k < l2.length := by
      by_contra hcon
      rw [List.getElem?_eq_none (not_lt.mp hcon)] at hk
      cases hk
    have hkp : k < l1.length := by omega
    exact ⟨k, l1[k], List.getElem?_eq_getElem hkp, hk⟩
  have hW1 : ∀ p ∈ qs1, WF p := by
    intro q hq
    obtain ⟨k, p, hkp, hkq⟩ := hmemk S1.1 q hq
    exact (S1.2 k p q hkp hkq).1
  have hC1 : ∀ p ∈ qs1, p.isconstant = true → p.exponents.length ≤ 1 := by
    intro q hq
    obtain ⟨k, p, hkp, hkq⟩ := hmemk S1.1 q hq
    exact (S1.2 k p q hkp hkq).2.2.1
  have S2 := align_indeterminants_eval hW1 hC1 h2
  have hW2 : ∀ p ∈ qs2, WF p := by
    intro q hq
    obtain ⟨k, p, hkp, hkq⟩ := hmemk S2.1 q hq
    exact (S2.2.2 k p q hkp hkq).1
  have hnames : (∀ p ∈ qs2, ∀ p2 ∈ qs2, p.names = p2.names) ∨
      commonNames qs2 = [] := by
    rcases S2.2.1 with ⟨hcn, hqq⟩ | hall
    · right
      rw [hqq]
      exact hcn
    · left
      intro p hp p2 hp2
      rw [hall p hp, hall p2 hp2]
  have S3 := align_exponents_eval hW2 hnames h3
  have hW3 : ∀ p ∈ qs3, WF p := by
    intro q hq
    obtain ⟨k, p, hkp, hkq⟩ := hmemk S3.1 q hq
    exact (S3.2 k p q hkp hkq).1
  have S4 := align_dtype_eval hW3 h4
  refine ⟨by rw [S4.1, S3.1, S2.1, S1.1], ?_⟩
  intro k p q hpk hqk
  have hkq : k < qs.length := by
    by_contra hcon
    rw [List.getElem?_eq_none (not_lt.mp hcon)] at hqk
    cases hqk
  have hk3 : k < qs3.length := by
    rw [← S4.1]
    exact hkq
  have hk2 : k < qs2.length := by
    rw [← S3.1]
    exact hk3
  have hk1 : k < qs1.length := by
    rw [← S2.1]
    exact hk2
  have R1 := S1.2 k p qs1[k] hpk (List.getElem?_eq_getElem hk1)
  have R2 := S2.2.2 k qs1[k] qs2[k] (List.getElem?_eq_getElem hk1)
    (List.getElem?_eq_getElem hk2)
  have R3 := S3.2 k qs2[k] qs3[k] (List.getElem?_eq_getElem hk2)
    (List.getElem?_eq_getElem hk3)
  have R4 := S4.2 k qs3[k] q (List.getElem?_eq_getElem hk3) hqk
  have hshape : q.shape = qs1[k].shape := by
    rw [R4.2.1, R3.2.1, R2.2.1]
  refine ⟨?_, ?_⟩
  · rw [hshape]
    exact R1.2.2.2.1
  · intro f ix hvix
    rw [hshape] at hvix
    rw [R4.2.2.2 f ix, R3.2.2.2 f ix, R2.2.2 f ix,
      R1.2.2.2.2 f ix hvix]

/-- Concrete outputs of aligning the monomials x and y. -/
def QxP : PolynomialArray :=
  ⟨["x", "y"], [[1, 0], [0, 1]],
   [⟨[], .int64, [1]⟩, ⟨[], .int64, [0]⟩], [], .int64⟩

/-- Concrete second output of aligning the monomials x and y. -/
def QyP : PolynomialArray :=
  ⟨["x", "y"], [[1, 0], [0, 1]],
   [⟨[], .int64, [0]⟩, ⟨[], .int64, [1]⟩], [], .int64⟩

theorem C3_align_polynomials_witness :
    align_polynomials [xP, yP] = some [QxP, QyP] ∧
    QxP.evalAt (fun n => if n = "x" then 5 else 7) [] =
      xP.evalAt (fun n => if n = "x" then 5 else 7)
        (NDArray.srcIndex xP.shape []) ∧
    QyP.evalAt (fun n => if n = "x" then 5 else 7) [] =
      yP.evalAt (fun n => if n = "x" then 5 else 7)
        (NDArray.srcIndex yP.shape []) :=
  ⟨by decide,
   ((C3_align_polynomials [xP, yP] [QxP, QyP] (by decide) (by decide)).2
     0 xP QxP (by decide) (by decide)).2 _ []
     ⟨rfl, fun k => by
       show ([] : List Nat).getD k 0 < ([] : List Nat).getD k 1
       rw [List.getD_nil, List.getD_nil]
       omega⟩,
   ((C3_align_polynomials [xP, yP] [QxP, QyP] (by decide) (by decide)).2
     1 yP QyP (by decide) (by decide)).2 _ []
     ⟨rfl, fun k => by
       show ([] : List Nat).getD k 0 < ([] : List Nat).getD k 1
       rw [List.getD_nil, List.getD_nil]
       omega⟩⟩

/-! ### Claim C4: idempotence of alignment.  Stable-union machinery. -/

/-- The stable union of a family of exponent-tuple lists, in first-encounter
order. -/
def unionAll (As : List (List (List Nat))) : List (List Nat) :=
  As.foldl (fun acc A => acc ++ A.filter (fun x => x ∉ acc)) []

theorem foldl_union_ext :
    ∀ (As : List (List (List Nat))) (acc : List (List Nat)),
      ∃ ext, As.foldl (fun acc A => acc ++ A.filter (fun x => x ∉ acc)) acc =
        acc ++ ext := by
  intro As
  induction As with
  | nil => intro acc; exact ⟨[], by simp⟩
  | cons A As ih =>
    intro acc
    rw [List.foldl_cons]
    obtain ⟨ext, hext⟩ := ih (acc ++ A.filter (fun x => x ∉ acc))
    exact ⟨A.filter (fun x => x ∉ acc) ++ ext, by rw [hext, List.append_assoc]⟩

theorem filter_notmem_nil (l : List (List Nat)) :
    l.filter (fun x => x ∉ ([] : List (List Nat))) = l := by
  refine List.filter_eq_self.mpr ?_
  intro a _
  simp

theorem unionAll_cons (A : List (List Nat)) (As : List (List (List Nat))) :
    unionAll (A :: As) =
      As.foldl (fun acc A2 => acc ++ A2.filter (fun x => x ∉ acc)) A := by
  unfold unionAll
  rw [List.foldl_cons, List.nil_append, filter_notmem_nil]

theorem filter_filter_seg {G P Anew ext : List (List Nat)}
    {A : List (List Nat)}
    (hG : G = P ++ Anew ++ ext) (hnd : G.Nodup)
    (hAnew : Anew = A.filter (fun x => x ∉ P)) :
    (G.filter (fun t => t ∈ A)).filter (fun t => t ∉ P) =
      A.filter (fun x => x ∉ P) := by
  rw [List.filter_filter, hG, List.filter_append, List.filter_append]
  have hP : P.filter (fun t => decide (t ∉ P) && decide (t ∈ A)) = [] := by
    refine List.filter_eq_nil_iff.mpr ?_
    intro a ha
    simp [ha]
  have hA2 : Anew.filter (fun t => decide (t ∉ P) && decide (t ∈ A)) =
      Anew := by
    refine List.filter_eq_self.mpr ?_
    intro a ha
    rw [hAnew] at ha
    have h2 := List.mem_filter.mp ha
    simp only [decide_eq_true_eq] at h2
    simp [h2.1, List.mem_of_mem_filter ha, h2.2]
  have hext : ext.filter (fun t => decide (t ∉ P) && decide (t ∈ A)) =
      [] := by
    refine List.filter_eq_nil_iff.mpr ?_
    intro a ha
    rw [hG, List.nodup_append] at hnd
    have hanotin : a ∉ P ++ Anew := fun hmem => hnd.2.2 hmem ha
    by_cases hap : a ∈ A
    · by_cases hpp : a ∈ P
      · simp [hpp]
      · exfalso
        refine hanotin (List.mem_append.mpr (Or.inr ?_))
        rw [hAnew]
        exact List.mem_filter.mpr ⟨hap, by simpa using hpp⟩
    · simp [hap]
  rw [hP, hA2, hext, hAnew]
  simp

theorem unionAll_filter_aux {G : List (List Nat)} (hnd : G.Nodup) :
    ∀ (As : List (List (List Nat))) (P : List (List Nat)),
      As.foldl (fun acc A => acc ++ A.filter (fun x => x ∉ acc)) P = G →
      (As.map (fun A => G.filter (fun t => t ∈ A))).foldl
        (fun acc A => acc ++ A.filter (fun x => x ∉ acc)) P = G := by
  intro As
  induction As with
  | nil =>
    intro P h
    simpa using h
  | cons A As ih =>
    intro P h
    rw [List.foldl_cons] at h
    rw [List.map_cons, List.foldl_cons]
    obtain ⟨ext, hext⟩ := foldl_union_ext As (P ++ A.filter (fun x => x ∉ P))
    have hGdecomp : G = P ++ A.filter (fun x => x ∉ P) ++ ext := by
      rw [← h, hext, List.append_assoc]
    have hkey := filter_filter_seg (by rw [hGdecomp, List.append_assoc])
      hnd rfl
    have hkey2 : (G.filter (fun t => t ∈ A)).filter (fun x => x ∉ P) =
        A.filter (fun x => x ∉ P) := hkey
    rw [hkey2]
    exact ih _ h

theorem unionAll_filter_id {G : List (List Nat)}
    {As : List (List (List Nat))} (hG : unionAll As = G) (hnd : G.Nodup) :
    unionAll (As.map (fun A => G.filter (fun t => t ∈ A))) = G := by
  unfold unionAll at hG ⊢
  exact unionAll_filter_aux hnd As [] hG

theorem allIndices_enum :
    ∀ (s : List Nat) (n : Nat), n < s.prod →
      ∃ ix, (allIndices s)[n]? = some ix ∧ validIx s ix ∧
        flatIndex s ix = n := by
  intro s
  induction s with
  | nil =>
    intro n hn
    have hn0 : n = 0 := by
      rw [List.prod_nil] at hn
      omega
    subst hn0
    refine ⟨[], rfl, ⟨rfl, ?_⟩, rfl⟩
    intro k
    rw [List.getD_nil, List.getD_nil]
    omega
  | cons d ds ih =>
    intro n hn
    rw [List.prod_cons] at hn
    have hP : 0 < ds.prod := by
      rcases Nat.eq_zero_or_pos ds.prod with h0 | h0
      · rw [h0] at hn
        omega
      · exact h0
    have hi : n / ds.prod < d := Nat.div_lt_of_lt_mul
      (by rw [Nat.mul_comm ds.prod d]; exact hn)
    have hrem : n % ds.prod < ds.prod := Nat.mod_lt _ hP
    obtain ⟨ix2, hix2, hval2, hflat2⟩ := ih (n % ds.prod) hrem
    refine ⟨(n / ds.prod) :: ix2, ?_, ?_, ?_⟩
    · have hblen : ∀ b ∈ (List.range d).map
          (fun i => (allIndices ds).map (fun jx => i :: jx)),
          b.length = ds.prod := by
        intro b hb
        obtain ⟨m, hm, hbm⟩ := List.mem_map.mp hb
        rw [← hbm, List.length_map, allIndices_length]
      have hiblk : n / ds.prod < ((List.range d).map
          (fun i => (allIndices ds).map (fun jx => i :: jx))).length := by
        rw [List.length_map, List.length_range]
        exact hi
      have hblock := flatten_block _ (n / ds.prod) hblen hiblk
      have hgd : ((List.range d).map
          (fun i => (allIndices ds).map (fun jx => i :: jx))).getD
          (n / ds.prod) [] =
          (allIndices ds).map (fun jx => (n / ds.prod) :: jx) := by
        rw [List.getD_eq_getElem?_getD, List.getElem?_map,
          List.getElem?_range hi, Option.map_some', Option.getD_some]
      show ((List.range d).flatMap
        (fun i => (allIndices ds).map (fun jx => i :: jx)))[n]? =
        some ((n / ds.prod) :: ix2)
      have hflat : (List.range d).flatMap
          (fun i => (allIndices ds).map (fun jx => i :: jx)) =
          ((List.range d).map
            (fun i => (allIndices ds).map (fun jx => i :: jx))).flatten := rfl
      have hsplit : n = n / ds.prod * ds.prod + n % ds.prod :=
        (Nat.div_add_mod' n ds.prod).symm
      rw [hflat]
      conv_lhs => rw [hsplit]
      rw [← List.getElem?_drop]
      have htake : (((((List.range d).map
          (fun i => (allIndices ds).map (fun jx => i :: jx))).flatten).drop
            (n / ds.prod * ds.prod)).take ds.prod)[n % ds.prod]? =
          ((((List.range d).map
            (fun i => (allIndices ds).map (fun jx => i :: jx))).flatten).drop
              (n / ds.prod * ds.prod))[n % ds.prod]? := by
        rw [List.getElem?_take]
        exact if_pos hrem
      rw [← htake, hblock, hgd, List.getElem?_map, hix2, Option.map_some']
    · refine ⟨by simpa using hval2.1, ?_⟩
      intro k
      cases k with
      | zero => simpa using hi
      | succ k =>
        have := hval2.2 k
        simpa using this
    · show n / ds.prod * ds.prod + flatIndex ds ix2 = n
      rw [hflat2]
      exact Nat.div_add_mod' n ds.prod

theorem map_bget_eq_data {c r : NDArray} {s : List Nat}
    (hcs : c.shape = s) (hclen : c.data.length = s.prod)
    (hr1 : ∀ ix, validIx s ix → r.bget ix = 1) :
    (allIndices s).map (fun ix => c.bget ix * r.bget ix) = c.data := by
  refine List.ext_getElem? ?_
  intro n
  rw [List.getElem?_map]
  by_cases hn : n < s.prod
  · obtain ⟨ix, hix, hval, hflat⟩ := allIndices_enum s n hn
    rw [hix, Option.map_some', hr1 ix hval, mul_one]
    have hsrc : NDArray.srcIndex c.shape ix = ix := by
      rw [hcs]
      exact srcIndex_self hval
    show some (c.get (NDArray.srcIndex c.shape ix)) = _
    rw [hsrc]
    show some (c.data.getD (flatIndex c.shape ix) 0) = _
    rw [hcs, hflat, List.getD_eq_getElem?_getD,
      List.getElem?_eq_getElem (by rw [hclen]; exact hn), Option.getD_some]
  · rw [List.getElem?_eq_none
      (by rw [allIndices_length]; exact not_lt.mp hn),
      List.getElem?_eq_none (by rw [hclen]; exact not_lt.mp hn)]
    rfl

theorem commonFold_dtype_int64 :
    ∀ (polys : List PolynomialArray) (acc r : NDArray),
      polys.foldlM commonStep acc = some r →
      acc.dtype = Dtype.int64 → r.dtype = Dtype.int64 := by
  intro polys
  induction polys with
  | nil =>
    intro acc r h hd
    have hra : acc = r := by simpa using h
    rw [← hra]
    exact hd
  | cons p ps ih =>
    intro acc r h hd
    rw [List.foldlM_cons] at h
    obtain ⟨m, hm, hrest⟩ := Option.bind_eq_some.mp h
    refine ih m r hrest ?_
    unfold commonStep at hm
    by_cases hz : p.shape.prod ≠ 0
    · rw [if_pos hz] at hm
      obtain ⟨c0, hc0, hm2⟩ := Option.bind_eq_some.mp hm
      unfold NDArray.mulB NDArray.binopB at hm2
      obtain ⟨S, hS, hSm⟩ := Option.map_eq_some'.mp hm2
      rw [← hSm]
      show (NDArray.ones c0.shape).dtype.promote acc.dtype = Dtype.int64
      rw [hd]
      rfl
    · rw [if_neg hz] at hm
      have hm2 : some acc = some m := hm
      rw [← Option.some.inj hm2]
      exact hd

theorem bcastR_nil_right (s : List Nat) : bcastR s [] = some s := by
  cases s <;> rfl

theorem broadcastShapes_nil_right (s : List Nat) :
    broadcastShapes s [] = some s := by
  unfold broadcastShapes
  rw [List.reverse_nil, bcastR_nil_right, Option.map_some', List.reverse_reverse]

theorem broadcastShapes_zero {s t u : List Nat}
    (h : broadcastShapes s t = some u) (hz : s.prod = 0) : u.prod = 0 := by
  unfold broadcastShapes at h
  obtain ⟨v, hv, hvu⟩ := Option.map_eq_some'.mp h
  have hspec := bcastR_spec _ _ _ hv
  have hz2 : (0 : Nat) ∈ s.reverse := by
    rw [List.mem_reverse]
    exact List.prod_eq_zero_iff.mp hz
  obtain ⟨k, hk, hke⟩ := List.mem_iff_getElem.mp hz2
  have hsk : s.reverse.getD k 1 = 0 := by
    rw [List.getD_eq_getElem?_getD, List.getElem?_eq_getElem hk, hke]
    rfl
  have hvk : v.getD k 1 = 0 := by
    rcases hspec.2 k hk with h1 | h1
    · rw [hsk] at h1
      cases h1
    · rw [h1]
      exact hsk
  have hkv : k < v.length := by
    by_contra hkge
    rw [List.getD_eq_getElem?_getD, List.getElem?_eq_none (by omega)] at hvk
    cases hvk
  have hmem : (0 : Nat) ∈ v := by
    have : v.getD k 1 = v[k] := by
      rw [List.getD_eq_getElem?_getD, List.getElem?_eq_getElem hkv]
      rfl
    rw [this] at hvk
    exact hvk ▸ List.getElem_mem hkv
  rw [← hvu, List.prod_reverse]
  exact List.prod_eq_zero_iff.mpr hmem

theorem sortNames_idem (l : List String) : sortNames (sortNames l) = sortNames l :=
  sortNames_eq_of_perm (sortNames_perm l)

theorem lookupCoeff_some_mem {p : PolynomialArray} {t : List Nat} {c : NDArray}
    (h : lookupCoeff p t = some c) : t ∈ p.exponents := by
  unfold lookupCoeff at h
  obtain ⟨pr, hpr, -⟩ := Option.map_eq_some'.mp h
  have hmem := List.mem_of_mem_getLast? hpr
  have hfst : pr.1 = t := by simpa using List.of_mem_filter hmem
  have := (List.of_mem_zip (List.mem_of_mem_filter hmem)).1
  rw [hfst] at this
  exact this

theorem castTo_isZero (dt : Dtype) (c : NDArray) :
    (castTo dt c).isZero = c.isZero := rfl

theorem castTo_zeros (dt : Dtype) (sh : List Nat) (d : Dtype) :
    castTo dt (NDArray.zeros sh d) = NDArray.zeros sh dt := rfl

theorem commonNames_nil_of_constant {polys : List PolynomialArray}
    (h : ∀ p ∈ polys, p.isconstant = true) : commonNames polys = [] := by
  unfold commonNames
  have hfil : polys.filter (fun p => !p.isconstant) = [] := by
    rw [List.filter_eq_nil_iff]
    intro p hp
    rw [h p hp]
    simp
  rw [hfil]
  rfl

theorem all_constant_of_commonNames_nil {polys : List PolynomialArray}
    (hW : ∀ p ∈ polys, WF p) (h : commonNames polys = []) :
    ∀ p ∈ polys, p.isconstant = true := by
  intro p hp
  by_contra hpc
  have hpcf : p.isconstant = false := by
    cases hx : p.isconstant
    · rfl
    · exact absurd hx hpc
  have hne := nonconstant_names_ne_nil (hW p hp) hpcf
  obtain ⟨n, hn⟩ := List.exists_mem_of_ne_nil _ hne
  have : n ∈ commonNames polys := mem_commonNames.mpr ⟨p, hp, hpcf, hn⟩
  rw [h] at this
  cases this

theorem mem_unionAll_of_mem {As : List (List (List Nat))} {A : List (List Nat)}
    {t : List Nat} (hA : A ∈ As) (ht : t ∈ A) : t ∈ unionAll As := by
  obtain ⟨pre, post, hsplit⟩ := List.append_of_mem hA
  subst hsplit
  show t ∈ (pre ++ A :: post).foldl
    (fun acc A2 => acc ++ A2.filter (fun x => x ∉ acc)) []
  rw [List.foldl_append, List.foldl_cons]
  obtain ⟨ext, hext⟩ := foldl_union_ext post
    ((pre.foldl (fun acc A2 => acc ++ A2.filter (fun x => x ∉ acc)) []) ++
      A.filter (fun x => x ∉
        pre.foldl (fun acc A2 => acc ++ A2.filter (fun x => x ∉ acc)) []))
  rw [hext]
  refine List.mem_append_left _ ?_
  by_cases hin : t ∈ pre.foldl (fun acc A2 => acc ++ A2.filter (fun x => x ∉ acc)) []
  · exact List.mem_append_left _ hin
  · refine List.mem_append_right _ ?_
    rw [List.mem_filter]
    exact ⟨ht, by simpa using hin⟩

theorem globalExponents_eq_unionAll (e0 : List (List Nat))
    (rest : List PolynomialArray) :
    globalExponents e0 rest = unionAll (e0 :: rest.map (fun p => p.exponents)) := by
  show rest.foldl (fun acc p => acc ++ p.exponents.filter (fun e => e ∉ acc)) e0 =
    (e0 :: rest.map (fun p => p.exponents)).foldl
      (fun acc A => acc ++ A.filter (fun x => x ∉ acc)) []
  rw [List.foldl_cons, filter_notmem_nil, List.nil_append, List.foldl_map]

theorem map_indexOf_self_eq_range {l : List String} (hnd : l.Nodup) :
    l.map (fun n => l.indexOf n) = List.range l.length := by
  refine List.ext_getElem? ?_
  intro k
  by_cases hk : k < l.length
  · rw [List.getElem?_map, List.getElem?_eq_getElem hk, Option.map_some',
      List.getElem?_range hk]
    have hidx := indexOf_getElem?_of_nodup hnd (List.getElem?_eq_getElem hk)
    rw [hidx]
  · rw [List.getElem?_eq_none (by rw [List.length_map]; omega),
      List.getElem?_eq_none (by rw [List.length_range]; omega)]

theorem range_indexOf? {W j : Nat} (hj : j < W) :
    (List.range W).indexOf? j = some j :=
  indexOf?_of_getElem?_nodup (List.nodup_range W) (List.getElem?_range hj)

theorem assignCols_range_id {W : Nat} {row : List Nat} (hlen : row.length = W) :
    assignCols W (List.range W) row = row := by
  refine List.ext_getElem? ?_
  intro j
  by_cases hj : j < W
  · rw [assignCols_getElem? hj, range_indexOf? hj,
      List.getElem?_eq_getElem (by omega)]
    show some (row.getD j 0) = _
    rw [List.getD_eq_getElem?_getD, List.getElem?_eq_getElem (by omega)]
    rfl
  · rw [List.getElem?_eq_none, List.getElem?_eq_none (by omega)]
    show (assignCols W (List.range W) row).length ≤ j
    unfold assignCols
    rw [List.length_map, List.length_range]
    omega

theorem assignCols_zero_row {W : Nat} {indices : List Nat} {row : List Nat}
    (hz : ∀ x ∈ row, x = 0) :
    assignCols W indices row = List.replicate W 0 := by
  refine List.ext_getElem? ?_
  intro j
  by_cases hj : j < W
  · rw [assignCols_getElem? hj, List.getElem?_replicate, if_pos hj]
    refine congrArg some ?_
    cases hio : indices.indexOf? j with
    | none => rfl
    | some k =>
      show row.getD k 0 = 0
      rw [List.getD_eq_getElem?_getD]
      cases hrk : row[k]? with
      | none => rfl
      | some x =>
        rw [Option.getD_some]
        exact hz x (List.getElem?_mem hrk)
  · rw [List.getElem?_eq_none, List.getElem?_eq_none
      (by rw [List.length_replicate]; omega)]
    show (assignCols W indices row).length ≤ j
    unfold assignCols
    rw [List.length_map, List.length_range]
    omega

theorem filter_zip_map_fst {β : Type} :
    ∀ {G : List (List Nat)} {cs : List β} {pred : List Nat × β → Bool}
      {predt : List Nat → Bool}, G.length = cs.length →
      (∀ pr ∈ G.zip cs, pred pr = predt pr.1) →
      ((G.zip cs).filter pred).map Prod.fst = G.filter predt := by
  intro G
  induction G with
  | nil => intro cs pred predt _ _; simp
  | cons t G ih =>
    intro cs pred predt hlen hpt
    cases cs with
    | nil => simp at hlen
    | cons c cs =>
      rw [List.zip_cons_cons, List.filter_cons, List.filter_cons,
        hpt (t, c) (by simp)]
      by_cases hp : predt t = true
      · rw [hp, if_pos rfl, if_pos rfl, List.map_cons,
          ih (by simpa using hlen) (fun pr hpr => hpt pr (by simp [hpr]))]
      · have hpf : predt t = false := by
          cases hx : predt t
          · rfl
          · exact absurd hx hp
        rw [hpf]
        simp only [Bool.false_eq_true, if_false]
        exact ih (by simpa using hlen) (fun pr hpr => hpt pr (by simp [hpr]))

theorem mulB_id {c r : NDArray} (hcl : c.data.length = c.shape.prod)
    (hb : broadcastShapes c.shape r.shape = some c.shape)
    (hr1 : ∀ jx, validIx r.shape jx → r.get jx = 1)
    (hrd : r.dtype = Dtype.int64) :
    NDArray.mulB c r = some c := by
  rw [mulB_some_of hb]
  refine congrArg some ?_
  have hdata : (allIndices c.shape).map (fun ix => c.bget ix * r.bget ix) =
      c.data := by
    refine map_bget_eq_data rfl hcl ?_
    intro ix hvix
    show r.get (NDArray.srcIndex r.shape ix) = 1
    have hcomm : broadcastShapes r.shape c.shape = some c.shape := by
      rw [broadcastShapes_comm]
      exact hb
    exact hr1 _ (validIx_srcIndex hcomm hvix)
  show (⟨c.shape, c.dtype.promote r.dtype,
    (allIndices c.shape).map (fun ix => c.bget ix * r.bget ix)⟩ : NDArray) = c
  rw [hdata, hrd, Dtype.promote_int64_right]

theorem commonFold_exists {B : List Nat} :
    ∀ (polys : List PolynomialArray) (acc : NDArray),
      (∀ p ∈ polys, p.coefficients ≠ [] ∧
        (∀ c ∈ p.coefficients, c.shape = p.shape) ∧
        (p.shape.prod ≠ 0 → p.shape = B)) →
      broadcastShapes B acc.shape = some B →
      ∃ r, polys.foldlM commonStep acc = some r ∧
        (r.shape = acc.shape ∨ r.shape = B) := by
  intro polys
  induction polys with
  | nil =>
    intro acc _ _
    exact ⟨acc, by simp, Or.inl rfl⟩
  | cons p ps ih =>
    intro acc hp hB
    obtain ⟨hne, hsh, hBp⟩ := hp p (by simp)
    by_cases hz : p.shape.prod ≠ 0
    · obtain ⟨c0, crest, hcs⟩ := List.exists_cons_of_ne_nil hne
      have hc0 : p.coefficients[0]? = some c0 := by
        rw [hcs]
        simp
      have hc0sh : c0.shape = p.shape := hsh c0 (by rw [hcs]; simp)
      have hpB := hBp hz
      have hbb : broadcastShapes (NDArray.ones c0.shape).shape acc.shape =
          some B := by
        show broadcastShapes c0.shape acc.shape = some B
        rw [hc0sh, hpB]
        exact hB
      have hstep : commonStep acc p = some
          ⟨B, (NDArray.ones c0.shape).dtype.promote acc.dtype,
           (allIndices B).map (fun ix =>
             (NDArray.ones c0.shape).bget ix * acc.bget ix)⟩ := by
        unfold commonStep
        rw [if_pos hz, hc0]
        simpa using mulB_some_of hbb
      obtain ⟨r, hr, hrs⟩ := ih
        ⟨B, (NDArray.ones c0.shape).dtype.promote acc.dtype,
         (allIndices B).map (fun ix =>
           (NDArray.ones c0.shape).bget ix * acc.bget ix)⟩
        (fun q hq => hp q (by simp [hq]))
        (broadcastShapes_self B)
      refine ⟨r, ?_, Or.inr ?_⟩
      · rw [List.foldlM_cons, hstep]
        simpa using hr
      · rcases hrs with h2 | h2
        · exact h2
        · exact h2
    · have hstep : commonStep acc p = pure acc := by
        unfold commonStep
        rw [if_neg hz]
      obtain ⟨r, hr, hrs⟩ := ih acc (fun q hq => hp q (by simp [hq])) hB
      refine ⟨r, ?_, hrs⟩
      rw [List.foldlM_cons, hstep]
      simpa using hr

/-- Closed form of a homogeneous cleaning construction: slots with a non-zero
coefficient are kept in order, and an all-zero slot list collapses to the
single zero constant slot. -/
theorem from_attributes_true_homo {exps : List (List Nat)} {cs : List NDArray}
    {names : List String} {sh : List Nat} {dt : Dtype}
    (hlen : exps.length = cs.length) (hne : cs ≠ [])
    (har : ∀ e ∈ exps, e.length = names.length)
    (hhom : ∀ c ∈ cs, c.shape = sh ∧ c.dtype = dt)
    (hnd : exps.Nodup) :
    from_attributes exps cs names none true =
      some (if ((exps.zip cs).filter (fun pr => !pr.2.isZero)).isEmpty then
        ⟨names, [List.replicate names.length 0], [NDArray.zeros sh dt], sh, dt⟩
      else
        ⟨names, ((exps.zip cs).filter (fun pr => !pr.2.isZero)).map Prod.fst,
         ((exps.zip cs).filter (fun pr => !pr.2.isZero)).map Prod.snd,
         sh, dt⟩) := by
  obtain ⟨c0, crest, hcs⟩ := List.exists_cons_of_ne_nil hne
  subst hcs
  have hc0sh : c0.shape = sh := (hhom c0 (by simp)).1
  rw [from_attributes_true_eq rfl hlen har
    (fun c hc => ((hhom c hc).1).trans hc0sh.symm)]
  have hdt : resolveDtype none (c0 :: crest) = dt :=
    resolveDtype_none_const (fun c hc => (hhom c hc).2)
  rw [hdt]
  have hcast : (c0 :: crest).map (castTo dt) = c0 :: crest := by
    refine (List.map_congr_left ?_).trans (List.map_id _)
    intro c hc
    exact castTo_self ((hhom c hc).2)
  rw [hcast]
  have hdedup : dedupTerms (exps.zip (c0 :: crest)) = exps.zip (c0 :: crest) := by
    refine dedupTerms_eq_self ?_
    rw [List.map_fst_zip _ _ (le_of_eq hlen)]
    exact hnd
  rw [hdedup]
  have hclean : cleanTerms names.length c0.shape dt (exps.zip (c0 :: crest)) =
      if ((exps.zip (c0 :: crest)).filter (fun pr => !pr.2.isZero)).isEmpty then
        [(List.replicate names.length 0, NDArray.zeros c0.shape dt)]
      else (exps.zip (c0 :: crest)).filter (fun pr => !pr.2.isZero) := rfl
  rw [hclean]
  by_cases hke : ((exps.zip (c0 :: crest)).filter
      (fun pr => !pr.2.isZero)).isEmpty
  · rw [if_pos hke, if_pos hke, hc0sh]
    rfl
  · rw [if_neg hke, if_neg hke, hc0sh]

/-- Structural stage lemma for `align_shape`: besides well-formedness, every
output's slots all carry non-zero coefficients unless the output is the
literal zero-constant fallback, and all outputs of nonzero size share the
common broadcast shape, which every output shape absorbs. -/
theorem align_shape_struct {polys qs : List PolynomialArray}
    (hW : ∀ p ∈ polys, WF p) (h : align_shape polys = some qs) :
    ∃ B, qs.length = polys.length ∧
      ∀ (k : Nat) (p q : PolynomialArray), polys[k]? = some p →
        qs[k]? = some q →
        WF q ∧ q.names = p.names ∧
        (q.isconstant = true → q.exponents.length ≤ 1) ∧
        (q.shape.prod ≠ 0 → q.shape = B) ∧
        broadcastShapes q.shape B = some q.shape ∧
        ((∀ c ∈ q.coefficients, c.isZero = false) ∨
          (q.exponents = [List.replicate q.names.length 0] ∧
           q.coefficients = [NDArray.zeros q.shape q.dtype])) := by
  obtain ⟨r, hr, hmap⟩ := align_shape_some_inv h
  obtain ⟨hlen, hinv⟩ := mapM_some_inv _ polys qs hmap
  have hcf := codeFold_spec polys hW (NDArray.intScalar 1)
  rcases hsf : ((polys.filter (fun p => p.shape.prod ≠ 0)).map
      (fun p => p.shape)).foldlM (fun S s => broadcastShapes S s)
      (NDArray.intScalar 1).shape with _ | B0
  · rw [hcf.2 hsf] at hr
    cases hr
  · obtain ⟨r2, hr2, hr2s, hallB, -⟩ := hcf.1 B0 hsf
    rw [hr] at hr2
    obtain rfl := Option.some.inj hr2
    refine ⟨B0, hlen, ?_⟩
    intro k p q hpk hqk
    obtain ⟨q2, hq2, hfp⟩ := hinv k p hpk
    rw [hq2] at hqk
    obtain rfl := (Option.some.inj hqk).symm
    have hWp := hW p (List.getElem?_mem hpk)
    obtain ⟨hplen, hpne, har, hhom, hnd, hnnd⟩ := hWp
    obtain ⟨c0, crest, hcs⟩ := List.exists_cons_of_ne_nil hpne
    rcases hcm : p.coefficients.mapM (fun c => NDArray.mulB c r) with _ | cs2
    · rw [hcm] at hfp
      simp at hfp
    rw [hcm] at hfp
    simp only [Option.bind_eq_bind, Option.some_bind] at hfp
    have hS0 : ∃ S, broadcastShapes p.shape r.shape = some S := by
      obtain ⟨hlen2, hinv2⟩ := mapM_some_inv _ _ _ hcm
      obtain ⟨b, hb, hfb⟩ := hinv2 0 c0 (by rw [hcs]; simp)
      refine ⟨b.shape, ?_⟩
      rw [← (hhom c0 (by rw [hcs]; simp)).1]
      exact mulB_shape hfb
    obtain ⟨S, hS⟩ := hS0
    have hmulall : ∀ c ∈ p.coefficients, NDArray.mulB c r =
        some ⟨S, c.dtype.promote r.dtype,
          (allIndices S).map (fun jx => c.bget jx * r.bget jx)⟩ := by
      intro c hc
      refine mulB_some_of ?_
      rw [(hhom c hc).1]
      exact hS
    have hcs2 : cs2 = p.coefficients.map (fun c =>
        (⟨S, c.dtype.promote r.dtype,
          (allIndices S).map (fun jx => c.bget jx * r.bget jx)⟩ : NDArray)) := by
      have hm2 := mapM_eq_some_map _ _ _ hmulall
      rw [hm2] at hcm
      exact (Option.some.inj hcm).symm
    subst hcs2
    have hmc : p.coefficients.map (fun c =>
        (⟨S, c.dtype.promote r.dtype,
          (allIndices S).map (fun jx => c.bget jx * r.bget jx)⟩ : NDArray)) =
        (⟨S, c0.dtype.promote r.dtype,
          (allIndices S).map (fun jx => c0.bget jx * r.bget jx)⟩ : NDArray) ::
        crest.map (fun c =>
          (⟨S, c.dtype.promote r.dtype,
            (allIndices S).map (fun jx => c.bget jx * r.bget jx)⟩ : NDArray)) := by
      rw [hcs, List.map_cons]
    have hspec := from_attributes_true_spec hmc
      (by rw [List.length_map]; exact hplen) har hnd hnnd
      (by
        intro c hc
        obtain ⟨x, -, hx⟩ := List.mem_map.mp hc
        rw [← hx])
      (by
        intro c hc
        obtain ⟨x, -, hx⟩ := List.mem_map.mp hc
        rw [← hx]
        show ((allIndices S).map _).length = S.prod
        rw [List.length_map, allIndices_length])
      hfp
    obtain ⟨hWq, hqnames, hqshape, hqconst, -⟩ := hspec
    have hbroad : broadcastShapes q.shape B0 = some q.shape ∧
        (q.shape.prod ≠ 0 → q.shape = B0) := by
      by_cases hz : p.shape.prod ≠ 0
      · have hpB := hallB p (List.getElem?_mem hpk) hz
        have hSB : S = B0 := by
          rw [hr2s] at hS
          rw [hS] at hpB
          exact Option.some.inj hpB
        rw [hqshape, hSB]
        exact ⟨broadcastShapes_self B0, fun _ => rfl⟩
      · have hz2 : p.shape.prod = 0 := by omega
        have hSz : S.prod = 0 := broadcastShapes_zero hS hz2
        have habs : broadcastShapes S B0 = some S := by
          rw [← hr2s]
          have hS2 : broadcastShapes r.shape p.shape = some S := by
            rw [broadcastShapes_comm]
            exact hS
          have hS3 := broadcastShapes_absorb hS2
          rw [broadcastShapes_comm]
          exact hS3
        rw [hqshape]
        exact ⟨habs, fun hqz => absurd hSz hqz⟩
    refine ⟨hWq, hqnames, hqconst, hbroad.2, hbroad.1, ?_⟩
    have hhomo2 : ∀ c ∈ p.coefficients.map (fun c =>
        (⟨S, c.dtype.promote r.dtype,
          (allIndices S).map (fun jx => c.bget jx * r.bget jx)⟩ : NDArray)),
        c.shape = S ∧ c.dtype = p.dtype.promote r.dtype := by
      intro c hc
      obtain ⟨x, hxm, hx⟩ := List.mem_map.mp hc
      rw [← hx]
      exact ⟨rfl, by rw [(hhom x hxm).2.1]⟩
    have hhomo3 := from_attributes_true_homo
      (by rw [List.length_map]; exact hplen)
      (by rw [hcs]; simp)
      har hhomo2 hnd
    rw [hhomo3] at hfp
    by_cases hke : ((p.exponents.zip (p.coefficients.map (fun c =>
        (⟨S, c.dtype.promote r.dtype,
          (allIndices S).map (fun jx => c.bget jx * r.bget jx)⟩ : NDArray)))).filter
        (fun pr => !pr.2.isZero)).isEmpty
    · rw [if_pos hke] at hfp
      obtain rfl := (Option.some.inj hfp).symm
      right
      exact ⟨rfl, rfl⟩
    · rw [if_neg hke] at hfp
      obtain rfl := (Option.some.inj hfp).symm
      left
      intro c hc
      show c.isZero = false
      obtain ⟨pr, hpr, hprc⟩ := List.mem_map.mp hc
      have := List.of_mem_filter hpr
      rw [← hprc]
      simpa using this

/-- Structural stage lemma for `align_indeterminants`: either the common name
list is empty and the inputs pass through unchanged, or every output is its
input rebuilt over the common name list with exponent rows transformed by a
per-input re-indexing map that sends all-zero rows to all-zero rows, keeping
coefficients, shape and dtype. -/
theorem align_indeterminants_struct {polys qs : List PolynomialArray}
    (hW : ∀ p ∈ polys, WF p)
    (hC : ∀ p ∈ polys, p.isconstant = true → p.exponents.length ≤ 1)
    (h : align_indeterminants polys = some qs) :
    (commonNames polys = [] ∧ qs = polys) ∨
    (commonNames polys ≠ [] ∧ qs.length = polys.length ∧
      ∀ (k : Nat) (p q : PolynomialArray), polys[k]? = some p →
        qs[k]? = some q →
        ∃ g : List Nat → List Nat,
          q = ⟨commonNames polys, p.exponents.map g, p.coefficients, p.shape,
               p.dtype⟩ ∧
          (p.exponents.map g).Nodup ∧
          (∀ e, (∀ x ∈ e, x = 0) →
            g e = List.replicate (commonNames polys).length 0) ∧
          (∀ e, (g e).length = (commonNames polys).length)) := by
  simp only [align_indeterminants] at h
  by_cases hcn : (commonNames polys).isEmpty
  · rw [if_pos hcn] at h
    exact Or.inl ⟨List.isEmpty_iff.mp hcn, (Option.some.inj h).symm⟩
  · rw [if_neg hcn] at h
    have hcnne : commonNames polys ≠ [] := by
      intro h2
      rw [h2] at hcn
      exact hcn rfl
    obtain ⟨hlen, hinv⟩ := mapM_some_inv _ polys qs h
    refine Or.inr ⟨hcnne, hlen, ?_⟩
    intro k p q hpk hqk
    obtain ⟨q2, hq2, hfp⟩ := hinv k p hpk
    rw [hq2] at hqk
    obtain rfl := (Option.some.inj hqk).symm
    have hpmem := List.getElem?_mem hpk
    obtain ⟨hplen, hpne, har, hhom, hnd, hnnd⟩ := hW p hpmem
    have hcnnd := commonNames_nodup polys
    by_cases hind : ((p.names.filter (fun n => n ∈ commonNames polys)).map
        (fun n => (commonNames polys).indexOf n)).isEmpty
    · rw [if_pos hind] at hfp
      rw [from_attributes_false_homo
        (by rw [List.length_map]; exact hplen)
        hpne
        (by
          intro e hee
          obtain ⟨x, -, hx⟩ := List.mem_map.mp hee
          rw [← hx]
          simp)
        (fun c hcm => ⟨(hhom c hcm).1, (hhom c hcm).2.1⟩)] at hfp
      obtain rfl := (Option.some.inj hfp).symm
      have hpc : p.isconstant = true := by
        by_contra hpcn
        have hpcf : p.isconstant = false := by
          cases hx : p.isconstant
          · rfl
          · exact absurd hx hpcn
        have hnames_ne : p.names ≠ [] := nonconstant_names_ne_nil
          ⟨hplen, hpne, har, hhom, hnd, hnnd⟩ hpcf
        obtain ⟨n, hn⟩ := List.exists_mem_of_ne_nil _ hnames_ne
        have hncn : n ∈ commonNames polys :=
          mem_commonNames.mpr ⟨p, hpmem, hpcf, hn⟩
        have hfmem : n ∈ p.names.filter (fun m => m ∈ commonNames polys) :=
          List.mem_filter.mpr ⟨hn, by simpa using hncn⟩
        have hne2 : ((p.names.filter (fun m => m ∈ commonNames polys)).map
            (fun m => (commonNames polys).indexOf m)) ≠ [] := by
          intro hmape
          rw [List.map_eq_nil_iff.mp hmape] at hfmem
          cases hfmem
        exact hne2 (List.isEmpty_iff.mp hind)
      have hle1 : p.exponents.length ≤ 1 := hC p hpmem hpc
      refine ⟨fun _ => List.replicate (commonNames polys).length 0, rfl,
        ?_, fun e _ => rfl, fun e => by simp⟩
      refine nodup_of_length_le_one ?_
      rw [List.length_map]
      exact hle1
    · rw [if_neg hind] at hfp
      by_cases hfull : ((p.names.filter
          (fun n => n ∈ commonNames polys)).map
          (fun n => (commonNames polys).indexOf n)).length =
            p.names.length
      · rw [if_pos hfull] at hfp
        have hsub : ∀ n ∈ p.names, n ∈ commonNames polys := by
          rw [List.length_map] at hfull
          have := List.filter_length_eq_length.mp hfull
          intro n hn
          simpa using this n hn
        have hfilter : p.names.filter (fun n => n ∈ commonNames polys) =
            p.names := by
          refine List.filter_eq_self.mpr ?_
          intro n hn
          simpa using hsub n hn
        rw [hfilter] at hfp
        rw [from_attributes_false_homo
          (by rw [List.length_map]; exact hplen)
          hpne
          (by
            intro e hee
            obtain ⟨x, -, hx⟩ := List.mem_map.mp hee
            rw [← hx]
            show (assignCols _ _ x).length = _
            unfold assignCols
            rw [List.length_map, List.length_range])
          (fun c hcm => ⟨(hhom c hcm).1, (hhom c hcm).2.1⟩)] at hfp
        obtain rfl := (Option.some.inj hfp).symm
        have hindnd : (p.names.map
            (fun n => (commonNames polys).indexOf n)).Nodup := by
          refine List.Nodup.map_on ?_ hnnd
          intro a ha b hb hab
          exact indexOf_inj_on_mem hcnnd (hsub a ha) (hsub b hb) hab
        have hbnd : ∀ j ∈ p.names.map
            (fun n => (commonNames polys).indexOf n),
            j < (commonNames polys).length := by
          intro j hj
          obtain ⟨n, hn, hnj⟩ := List.mem_map.mp hj
          rw [← hnj]
          exact List.indexOf_lt_length.mpr (hsub n hn)
        refine ⟨assignCols (commonNames polys).length
          (p.names.map (fun n => (commonNames polys).indexOf n)), rfl,
          ?_, ?_, ?_⟩
        · refine List.Nodup.map_on ?_ hnd
          intro e1 he1 e2 he2 heq
          exact assignCols_inj hindnd
            (by rw [List.length_map]; exact har e1 he1)
            (by rw [List.length_map]; exact har e2 he2)
            hbnd heq
        · intro e hz
          exact assignCols_zero_row hz
        · intro e
          show (assignCols _ _ e).length = _
          unfold assignCols
          rw [List.length_map, List.length_range]
      · rw [if_neg hfull] at hfp
        cases hfp

/-- Structural stage lemma for `align_exponents`: when the inputs already
share one name list or the common name list is empty, every output is exactly
its input rebuilt over the stable union of exponent tuples with looked-up or
zero coefficients. -/
theorem align_exponents_struct {polys qs : List PolynomialArray}
    (hW : ∀ p ∈ polys, WF p)
    (hnames : (∀ p ∈ polys, ∀ p2 ∈ polys, p.names = p2.names) ∨
      commonNames polys = [])
    (h : align_exponents polys = some qs) :
    ∃ p0 rest, polys = p0 :: rest ∧ qs.length = polys.length ∧
      ∀ (k : Nat) (p q : PolynomialArray), polys[k]? = some p →
        qs[k]? = some q →
        (∀ e ∈ globalExponents p0.exponents rest,
          e.length = p.names.length) ∧
        q = alignExpOut (globalExponents p0.exponents rest) p := by
  obtain ⟨polys2, p0, rest, hbranch, hcons, hlen, hinv⟩ :=
    align_exponents_some_inv2 h
  have hpoly2 : polys2 = polys := by
    rcases hbranch with ⟨heq, -⟩ | ⟨hex, hai⟩
    · exact heq
    · rcases hnames with hglob | hcn
      · obtain ⟨p, hp, p2, hp2, hne⟩ := hex
        exact absurd (hglob p hp p2 hp2) hne
      · rw [align_indeterminants_empty hcn] at hai
        exact (Option.some.inj hai).symm
  subst hpoly2
  refine ⟨p0, rest, hcons, by rw [hlen], ?_⟩
  intro k p q hpk hqk
  obtain ⟨q2, hq2, hfa⟩ := hinv k p hpk
  rw [hq2] at hqk
  obtain rfl := (Option.some.inj hqk).symm
  have hpmem := List.getElem?_mem hpk
  obtain ⟨hplen, hpne, har, hhom, hnd, hnnd⟩ := hW p hpmem
  have hge_ne : globalExponents p0.exponents rest ≠ [] := by
    obtain ⟨h0len, h0ne, -, -, -, -⟩ := hW p0 (by rw [hcons]; simp)
    refine globalExponents_ne_nil ?_
    intro h0
    apply h0ne
    refine List.eq_nil_of_length_eq_zero ?_
    rw [← h0len, h0]
    rfl
  have harq := from_attributes_some_arity hfa
  have hhom3 : ∀ c ∈ (globalExponents p0.exponents rest).map (fun t =>
      (lookupCoeff p t).getD (NDArray.zeros p.shape p.dtype)),
      c.shape = p.shape ∧ c.dtype = p.dtype := by
    intro c hcm
    obtain ⟨t, -, hct⟩ := List.mem_map.mp hcm
    cases hl : lookupCoeff p t with
    | none =>
      rw [← hct, hl]
      exact ⟨rfl, rfl⟩
    | some c2 =>
      have := hhom c2 (lookupCoeff_mem hl)
      rw [← hct, hl]
      exact ⟨this.1, this.2.1⟩
  rw [from_attributes_false_homo (by rw [List.length_map])
      (by intro hmape; exact hge_ne (List.map_eq_nil_iff.mp hmape))
      harq hhom3] at hfa
  obtain rfl := (Option.some.inj hfa).symm
  exact ⟨harq, rfl⟩

/-- Closed form of `align_dtype`: every input is rebuilt with its coefficients
cast to the common summed dtype. -/
theorem align_dtype_eq {polys : List PolynomialArray}
    (hB : ∀ p ∈ polys, p.exponents.length = p.coefficients.length ∧
      p.coefficients ≠ [] ∧ (∀ e ∈ p.exponents, e.length = p.names.length) ∧
      ∀ c ∈ p.coefficients, c.shape = p.shape) :
    align_dtype polys = some (polys.map
      (alignDtypeOut (sumDtype (polys.map (fun p => p.dtype))))) := by
  unfold align_dtype
  refine mapM_eq_some_map _ _ polys ?_
  intro p hp
  obtain ⟨hplen, hpne, har, hhom⟩ := hB p hp
  obtain ⟨c0, crest, hcs⟩ := List.exists_cons_of_ne_nil hpne
  rw [from_attributes_false_eq hcs hplen har
    (fun c hc => (hhom c hc).trans (hhom c0 (by rw [hcs]; simp)).symm)]
  unfold alignDtypeOut resolveDtype
  rw [Option.getD_some, hhom c0 (by rw [hcs]; simp)]

theorem align_dtype_struct {polys qs : List PolynomialArray}
    (hB : ∀ p ∈ polys, p.exponents.length = p.coefficients.length ∧
      p.coefficients ≠ [] ∧ (∀ e ∈ p.exponents, e.length = p.names.length) ∧
      ∀ c ∈ p.coefficients, c.shape = p.shape)
    (h : align_dtype polys = some qs) :
    qs = polys.map (alignDtypeOut (sumDtype (polys.map (fun p => p.dtype)))) := by
  rw [align_dtype_eq hB] at h
  exact (Option.some.inj h).symm

theorem zeros_isZero (sh : List Nat) (dt : Dtype) :
    (NDArray.zeros sh dt).isZero = true := by
  unfold NDArray.zeros NDArray.isZero
  rw [List.all_eq_true]
  intro x hx
  simpa using List.eq_of_mem_replicate hx

theorem lookupCoeff_pair_mem {p : PolynomialArray} {t : List Nat} {c : NDArray}
    (h : lookupCoeff p t = some c) :
    (t, c) ∈ p.exponents.zip p.coefficients := by
  unfold lookupCoeff at h
  obtain ⟨pr, hpr, hsnd⟩ := Option.map_eq_some'.mp h
  have hmem := List.mem_of_mem_getLast? hpr
  have hfst : pr.1 = t := by simpa using List.of_mem_filter hmem
  have hzip := List.mem_of_mem_filter hmem
  have hpr2 : pr = (t, c) := by
    cases pr
    cases hfst
    cases hsnd
    rfl
  rw [← hpr2]
  exact hzip

/-- Definitional record of a fully aligned family: common exponent list,
dtype and broadcast shape, slots that are either non-zero or literal zero
fillers, a witness family of contributing slot sets whose stable union is the
common exponent list, and names that are either one common sorted list or
belong to all-constant arrays. -/
def AlignedFixed (qs : List PolynomialArray) : Prop :=
  ∃ (G : List (List Nat)) (dt : Dtype) (B : List Nat)
    (As : List (List (List Nat))),
    qs ≠ [] ∧ G ≠ [] ∧ G.Nodup ∧ As.length = qs.length ∧ unionAll As = G ∧
    ((∃ N, sortNames N = N ∧ ∀ q ∈ qs, q.names = N) ∨
      (∀ q ∈ qs, q.isconstant = true)) ∧
    ∀ (k : Nat) (q : PolynomialArray), qs[k]? = some q →
      ∃ A, As[k]? = some A ∧ A ≠ [] ∧
        q.exponents = G ∧ q.dtype = dt ∧
        q.coefficients.length = G.length ∧
        (∀ e ∈ G, e.length = q.names.length) ∧
        (∀ c ∈ q.coefficients, c.shape = q.shape ∧ c.dtype = dt ∧
          c.data.length = q.shape.prod) ∧
        q.names.Nodup ∧
        (∀ pr ∈ G.zip q.coefficients,
          pr.2.isZero = false ∨ pr.2 = NDArray.zeros q.shape dt) ∧
        ((∀ pr ∈ G.zip q.coefficients, pr.2.isZero = false ↔ pr.1 ∈ A) ∨
          (A = [List.replicate q.names.length 0] ∧
            ∀ c ∈ q.coefficients, c.isZero = true)) ∧
        (q.shape.prod ≠ 0 → q.shape = B) ∧
        broadcastShapes q.shape B = some q.shape

/-- Constancy survives exponent alignment followed by a dtype cast. -/
theorem isconstant_alignOut {ge : List (List Nat)} {p : PolynomialArray}
    {dtF : Dtype} (hc : p.isconstant = true) :
    (alignDtypeOut dtF (alignExpOut ge p)).isconstant = true := by
  unfold PolynomialArray.isconstant at hc ⊢
  rw [List.all_eq_true] at hc ⊢
  intro pr hpr
  have hzip : (alignDtypeOut dtF (alignExpOut ge p)).exponents.zip
      (alignDtypeOut dtF (alignExpOut ge p)).coefficients =
      ge.map (fun t => (t, castTo dtF
        ((lookupCoeff p t).getD (NDArray.zeros p.shape p.dtype)))) := by
    show ge.zip ((ge.map (fun t => (lookupCoeff p t).getD
      (NDArray.zeros p.shape p.dtype))).map (castTo dtF)) = _
    rw [List.map_map]
    exact zip_self_map ge _
  rw [hzip] at hpr
  obtain ⟨t, htm, hpr2⟩ := List.mem_map.mp hpr
  rw [← hpr2]
  show ((castTo dtF ((lookupCoeff p t).getD
    (NDArray.zeros p.shape p.dtype))).isZero || t.all (fun x => x = 0)) = true
  cases hl : lookupCoeff p t with
  | none =>
    rw [Option.getD_none, castTo_zeros, zeros_isZero, Bool.true_or]
  | some c2 =>
    have hpair := lookupCoeff_pair_mem hl
    have h2 := hc (t, c2) hpair
    rw [Option.getD_some, castTo_isZero]
    exact h2

/-- Every successful run of the alignment orchestrator on well-formed inputs
lands in the aligned fixed-point state. -/
theorem align_final_state {polys qs : List PolynomialArray}
    (hW : ∀ p ∈ polys, WF p) (h : align_polynomials polys = some qs) :
    AlignedFixed qs := by
  simp only [align_polynomials, Option.bind_eq_bind] at h
  obtain ⟨qs1, h1, hrest1⟩ := Option.bind_eq_some.mp h
  obtain ⟨qs2, h2, hrest2⟩ := Option.bind_eq_some.mp hrest1
  obtain ⟨qs3, h3, h4⟩ := Option.bind_eq_some.mp hrest2
  have hmemk : ∀ {l1 l2 : List PolynomialArray}, l2.length = l1.length →
      ∀ q ∈ l2, ∃ (k : Nat) (p : PolynomialArray),
        l1[k]? = some p ∧ l2[k]? = some q := by
    intro l1 l2 hl q hq
    obtain ⟨k, hk⟩ := List.getElem?_of_mem hq
    have hkl : k < l2.length := by
      by_contra hcon
      rw [List.getElem?_eq_none (not_lt.mp hcon)] at hk
      cases hk
    have hkp : k < l1.length := by omega
    exact ⟨k, l1[k], List.getElem?_eq_getElem hkp, hk⟩
  obtain ⟨B, hlen1, hper1⟩ := align_shape_struct hW h1
  have hW1 : ∀ p ∈ qs1, WF p := by
    intro q hq
    obtain ⟨k, p, hkp, hkq⟩ := hmemk hlen1 q hq
    exact (hper1 k p q hkp hkq).1
  have hC1 : ∀ p ∈ qs1, p.isconstant = true → p.exponents.length ≤ 1 := by
    intro q hq
    obtain ⟨k, p, hkp, hkq⟩ := hmemk hlen1 q hq
    exact (hper1 k p q hkp hkq).2.2.1
  have S2 := align_indeterminants_struct hW1 hC1 h2
  have hQ2 : qs2.length = qs1.length ∧ (∀ q ∈ qs2, WF q) ∧
      ((∃ N, sortNames N = N ∧ ∀ q ∈ qs2, q.names = N) ∨
        (∀ q ∈ qs2, q.isconstant = true)) ∧
      ∀ (k : Nat) (q : PolynomialArray), qs2[k]? = some q →
        ((∀ c ∈ q.coefficients, c.isZero = false) ∨
          (q.exponents = [List.replicate q.names.length 0] ∧
           q.coefficients = [NDArray.zeros q.shape q.dtype])) ∧
        (q.shape.prod ≠ 0 → q.shape = B) ∧
        broadcastShapes q.shape B = some q.shape := by
    rcases S2 with ⟨hcn, rfl⟩ | ⟨hcnne, hlen2, hper2⟩
    · refine ⟨rfl, hW1, Or.inr (all_constant_of_commonNames_nil hW1 hcn), ?_⟩
      intro k q hqk
      have hkq : k < qs2.length := by
        by_contra hcon
        rw [List.getElem?_eq_none (not_lt.mp hcon)] at hqk
        cases hqk
      have hkp : k < polys.length := by omega
      have R1 := hper1 k polys[k] q (List.getElem?_eq_getElem hkp) hqk
      exact ⟨R1.2.2.2.2.2, R1.2.2.2.1, R1.2.2.2.2.1⟩
    · refine ⟨hlen2, ?_, ?_, ?_⟩
      · intro q hq
        obtain ⟨k, p, hkp, hkq⟩ := hmemk hlen2 q hq
        obtain ⟨g, hrec, hgnd, hgz, hglen⟩ := hper2 k p q hkp hkq
        obtain ⟨hplen, hpne, har, hhom, hnd, hnnd⟩ := hW1 p (List.getElem?_mem hkp)
        subst hrec
        refine ⟨by rw [List.length_map]; exact hplen, hpne, ?_, ?_, hgnd,
          commonNames_nodup qs1⟩
        · intro e hee
          obtain ⟨x, -, hx⟩ := List.mem_map.mp hee
          rw [← hx]
          exact hglen x
        · intro c hcm
          exact hhom c hcm
      · left
        refine ⟨commonNames qs1, ?_, ?_⟩
        · show sortNames (commonNames qs1) = commonNames qs1
          unfold commonNames
          exact sortNames_idem _
        · intro q hq
          obtain ⟨k, p, hkp, hkq⟩ := hmemk hlen2 q hq
          obtain ⟨g, hrec, -, -, -⟩ := hper2 k p q hkp hkq
          rw [hrec]
      · intro k q hqk
        have hkq : k < qs2.length := by
          by_contra hcon
          rw [List.getElem?_eq_none (not_lt.mp hcon)] at hqk
          cases hqk
        have hk1 : k < qs1.length := by omega
        have hkp : k < polys.length := by omega
        obtain ⟨g, hrec, hgnd, hgz, hglen⟩ :=
          hper2 k qs1[k] q (List.getElem?_eq_getElem hk1) hqk
        have R1 := hper1 k polys[k] qs1[k] (List.getElem?_eq_getElem hkp)
          (List.getElem?_eq_getElem hk1)
        obtain ⟨hplen, hpne, har, hhom, hnd, hnnd⟩ :=
          hW1 qs1[k] (List.getElem_mem hk1)
        refine ⟨?_, ?_, ?_⟩
        · rcases R1.2.2.2.2.2 with hnz | ⟨hfe, hfc⟩
          · left
            intro c hcm
            refine hnz c ?_
            rw [hrec] at hcm
            exact hcm
          · right
            rw [hrec, hfe, List.map_cons, List.map_nil]
            constructor
            · show [g (List.replicate qs1[k].names.length 0)] = _
              rw [hgz (List.replicate qs1[k].names.length 0)
                (fun x hx => List.eq_of_mem_replicate hx)]
            · show qs1[k].coefficients = _
              rw [hfc]
        · rw [hrec]
          exact R1.2.2.2.1
        · rw [hrec]
          exact R1.2.2.2.2.1
  have hW2 : ∀ p ∈ qs2, WF p := hQ2.2.1
  have hnames3 : (∀ p ∈ qs2, ∀ p2 ∈ qs2, p.names = p2.names) ∨
      commonNames qs2 = [] := by
    rcases hQ2.2.2.1 with ⟨N, -, hall⟩ | hconst
    · left
      intro p hp p2 hp2
      rw [hall p hp, hall p2 hp2]
    · right
      exact commonNames_nil_of_constant hconst
  obtain ⟨p0, rest, hcons, hlen3, hper3⟩ := align_exponents_struct hW2 hnames3 h3
  have hGne : globalExponents p0.exponents rest ≠ [] := by
    obtain ⟨h0len, h0ne, -, -, -, -⟩ := hW2 p0 (by rw [hcons]; simp)
    refine globalExponents_ne_nil ?_
    intro h0
    apply h0ne
    refine List.eq_nil_of_length_eq_zero ?_
    rw [← h0len, h0]
    rfl
  have hGnd : (globalExponents p0.exponents rest).Nodup := by
    refine globalExponents_nodup (hW2 p0 (by rw [hcons]; simp)).2.2.2.2.1 ?_
    intro r hr
    exact (hW2 r (by rw [hcons]; simp [hr])).2.2.2.2.1
  have hB4 : ∀ p ∈ qs3, p.exponents.length = p.coefficients.length ∧
      p.coefficients ≠ [] ∧ (∀ e ∈ p.exponents, e.length = p.names.length) ∧
      ∀ c ∈ p.coefficients, c.shape = p.shape := by
    intro q3 hq3
    obtain ⟨k, p2, hkp, hkq⟩ := hmemk hlen3 q3 hq3
    obtain ⟨harG, hrec3⟩ := hper3 k p2 q3 hkp hkq
    obtain ⟨hplen, hpne, har, hhom, hnd, hnnd⟩ := hW2 p2 (List.getElem?_mem hkp)
    subst hrec3
    refine ⟨?_, ?_, ?_, ?_⟩
    · show (globalExponents p0.exponents rest).length =
        ((globalExponents p0.exponents rest).map (fun t =>
          (lookupCoeff p2 t).getD (NDArray.zeros p2.shape p2.dtype))).length
      rw [List.length_map]
    · show (globalExponents p0.exponents rest).map (fun t =>
        (lookupCoeff p2 t).getD (NDArray.zeros p2.shape p2.dtype)) ≠ []
      intro hmape
      exact hGne (List.map_eq_nil_iff.mp hmape)
    · show ∀ e ∈ globalExponents p0.exponents rest, e.length = p2.names.length
      exact harG
    · intro c hcm
      obtain ⟨t, -, hct⟩ := List.mem_map.mp hcm
      show c.shape = p2.shape
      cases hl : lookupCoeff p2 t with
      | none =>
        rw [← hct, hl]
        rfl
      | some c2 =>
        rw [← hct, hl]
        exact (hhom c2 (lookupCoeff_mem hl)).1
  have hqs4 := align_dtype_struct hB4 h4
  refine ⟨globalExponents p0.exponents rest,
    sumDtype (qs3.map (fun p => p.dtype)), B,
    qs2.map (fun q => q.exponents), ?_, hGne, hGnd, ?_, ?_, ?_, ?_⟩
  · intro hqnil
    have h0 : qs.length = 0 := by rw [hqnil]; rfl
    rw [hqs4, List.length_map, hlen3, hcons] at h0
    cases h0
  · rw [List.length_map, hqs4, List.length_map, hlen3]
  · rw [hcons, List.map_cons]
    exact (globalExponents_eq_unionAll p0.exponents rest).symm
  · rcases hQ2.2.2.1 with ⟨N, hsort, hall⟩ | hconst
    · left
      refine ⟨N, hsort, ?_⟩
      intro q hq
      rw [hqs4] at hq
      obtain ⟨q3, hq3, hq3q⟩ := List.mem_map.mp hq
      obtain ⟨k, p2, hkp, hkq⟩ := hmemk hlen3 q3 hq3
      obtain ⟨-, hrec3⟩ := hper3 k p2 q3 hkp hkq
      rw [← hq3q, hrec3]
      show p2.names = N
      exact hall p2 (List.getElem?_mem hkp)
    · right
      intro q hq
      rw [hqs4] at hq
      obtain ⟨q3, hq3, hq3q⟩ := List.mem_map.mp hq
      obtain ⟨k, p2, hkp, hkq⟩ := hmemk hlen3 q3 hq3
      obtain ⟨-, hrec3⟩ := hper3 k p2 q3 hkp hkq
      rw [← hq3q, hrec3]
      exact isconstant_alignOut (hconst p2 (List.getElem?_mem hkp))
  · intro k q hqk
    have hkq : k < qs.length := by
      by_contra hcon
      rw [List.getElem?_eq_none (not_lt.mp hcon)] at hqk
      cases hqk
    have hk3 : k < qs3.length := by
      rw [hqs4, List.length_map] at hkq
      exact hkq
    have hk2 : k < qs2.length := by
      rw [← hlen3]
      exact hk3
    obtain ⟨harG, hrec3⟩ := hper3 k qs2[k] qs3[k]
      (List.getElem?_eq_getElem hk2) (List.getElem?_eq_getElem hk3)
    have hqv : q = alignDtypeOut (sumDtype (qs3.map (fun p => p.dtype)))
        (alignExpOut (globalExponents p0.exponents rest) qs2[k]) := by
      rw [hqs4, List.getElem?_map, List.getElem?_eq_getElem hk3,
        Option.map_some'] at hqk
      rw [← Option.some.inj hqk, hrec3]
    obtain ⟨hplen, hpne, har, hhom, hnd, hnnd⟩ :=
      hW2 qs2[k] (List.getElem_mem hk2)
    have hD2 := hQ2.2.2.2 k qs2[k] (List.getElem?_eq_getElem hk2)
    have hzipq : (globalExponents p0.exponents rest).zip
        (alignDtypeOut (sumDtype (qs3.map (fun p => p.dtype)))
          (alignExpOut (globalExponents p0.exponents rest) qs2[k])).coefficients =
        (globalExponents p0.exponents rest).map (fun t =>
          (t, castTo (sumDtype (qs3.map (fun p => p.dtype)))
            ((lookupCoeff qs2[k] t).getD
              (NDArray.zeros qs2[k].shape qs2[k].dtype)))) := by
      show (globalExponents p0.exponents rest).zip
        (((globalExponents p0.exponents rest).map (fun t =>
          (lookupCoeff qs2[k] t).getD
            (NDArray.zeros qs2[k].shape qs2[k].dtype))).map
          (castTo (sumDtype (qs3.map (fun p => p.dtype))))) = _
      rw [List.map_map]
      exact zip_self_map _ _
    refine ⟨qs2[k].exponents, ?_, ?_, ?_, ?_, ?_, ?_, ?_, ?_, ?_, ?_, ?_, ?_⟩
    · rw [List.getElem?_map, List.getElem?_eq_getElem hk2, Option.map_some']
    · intro h0
      apply hpne
      refine List.eq_nil_of_length_eq_zero ?_
      rw [← hplen, h0]
      rfl
    · rw [hqv]
      rfl
    · rw [hqv]
      rfl
    · rw [hqv]
      show (((globalExponents p0.exponents rest).map _).map _).length = _
      rw [List.length_map, List.length_map]
    · rw [hqv]
      exact harG
    · rw [hqv]
      intro c hcm
      obtain ⟨c2, hc2m, hc2⟩ := List.mem_map.mp hcm
      obtain ⟨t, -, hct⟩ := List.mem_map.mp hc2m
      show c.shape = qs2[k].shape ∧
        c.dtype = sumDtype (qs3.map (fun p => p.dtype)) ∧
        c.data.length = qs2[k].shape.prod
      cases hl : lookupCoeff qs2[k] t with
      | none =>
        rw [← hc2, ← hct, hl]
        refine ⟨rfl, rfl, ?_⟩
        show (List.replicate qs2[k].shape.prod (0 : Int)).length = _
        rw [List.length_replicate]
      | some c3 =>
        rw [← hc2, ← hct, hl]
        have hc3 := hhom c3 (lookupCoeff_mem hl)
        exact ⟨hc3.1, rfl, hc3.2.2⟩
    · rw [hqv]
      exact hnnd
    · rw [hqv, hzipq]
      intro pr hpr
      obtain ⟨t, htm, hpr2⟩ := List.mem_map.mp hpr
      rw [← hpr2]
      show (castTo (sumDtype (qs3.map (fun p => p.dtype)))
          ((lookupCoeff qs2[k] t).getD
            (NDArray.zeros qs2[k].shape qs2[k].dtype))).isZero = false ∨
        castTo (sumDtype (qs3.map (fun p => p.dtype)))
          ((lookupCoeff qs2[k] t).getD
            (NDArray.zeros qs2[k].shape qs2[k].dtype)) =
        NDArray.zeros qs2[k].shape (sumDtype (qs3.map (fun p => p.dtype)))
      cases hl : lookupCoeff qs2[k] t with
      | none =>
        right
        rw [Option.getD_none, castTo_zeros]
      | some c3 =>
        rcases hD2.1 with hnz | ⟨hfe, hfc⟩
        · left
          rw [Option.getD_some, castTo_isZero]
          exact hnz c3 (lookupCoeff_mem hl)
        · right
          rw [Option.getD_some]
          have hc3 : c3 = NDArray.zeros qs2[k].shape qs2[k].dtype := by
            have hmem2 := lookupCoeff_mem hl
            rw [hfc] at hmem2
            simpa using hmem2
          rw [hc3, castTo_zeros]
    · rcases hD2.1 with hnz | ⟨hfe, hfc⟩
      · left
        rw [hqv, hzipq]
        intro pr hpr
        obtain ⟨t, htm, hpr2⟩ := List.mem_map.mp hpr
        rw [← hpr2]
        show (castTo (sumDtype (qs3.map (fun p => p.dtype)))
            ((lookupCoeff qs2[k] t).getD
              (NDArray.zeros qs2[k].shape qs2[k].dtype))).isZero = false ↔
          t ∈ qs2[k].exponents
        constructor
        · intro hz
          cases hl : lookupCoeff qs2[k] t with
          | none =>
            rw [hl, Option.getD_none, castTo_zeros, zeros_isZero] at hz
            cases hz
          | some c3 =>
            exact lookupCoeff_some_mem hl
        · intro htm2
          obtain ⟨i, c3, hie, hic, hl⟩ := lookupCoeff_eq_of_mem hnd hplen htm2
          rw [hl, Option.getD_some, castTo_isZero]
          exact hnz c3 (List.getElem?_mem hic)
      · right
        rw [hqv]
        constructor
        · show qs2[k].exponents = [List.replicate qs2[k].names.length 0]
          exact hfe
        · intro c hcm
          obtain ⟨c2, hc2m, hc2⟩ := List.mem_map.mp hcm
          obtain ⟨t, -, hct⟩ := List.mem_map.mp hc2m
          rw [← hc2, ← hct, castTo_isZero]
          cases hl : lookupCoeff qs2[k] t with
          | none =>
            rw [Option.getD_none]
            exact zeros_isZero _ _
          | some c3 =>
            rw [Option.getD_some]
            have hmem2 := lookupCoeff_mem hl
            rw [hfc] at hmem2
            have hc3 : c3 = NDArray.zeros qs2[k].shape qs2[k].dtype := by
              simpa using hmem2
            rw [hc3]
            exact zeros_isZero _ _
    · rw [hqv]
      exact hD2.2.1
    · rw [hqv]
      exact hD2.2.2

theorem filter_singleton_of_notmem {G : List (List Nat)} {z : List Nat}
    (h : z ∉ G) : G.filter (fun t => t ∈ [z]) = [] := by
  rw [List.filter_eq_nil_iff]
  intro t ht
  simp only [List.mem_singleton, decide_eq_true_eq]
  intro htz
  exact h (htz ▸ ht)

theorem filter_mem_singleton {G : List (List Nat)} {z : List Nat}
    (hnd : G.Nodup) (hz : z ∈ G) : G.filter (fun t => t ∈ [z]) = [z] := by
  induction G with
  | nil => cases hz
  | cons a G ih =>
    rw [List.filter_cons]
    rcases List.mem_cons.mp hz with haz | haz
    · subst haz
      rw [if_pos (by simp)]
      have hznot : z ∉ G := (List.nodup_cons.mp hnd).1
      rw [filter_singleton_of_notmem hznot]
    · have hane : a ≠ z := by
        intro hc
        exact (List.nodup_cons.mp hnd).1 (hc ▸ haz)
      rw [if_neg (by simp [hane]), ih (List.nodup_cons.mp hnd).2 haz]

theorem bool_eq_of_iff {a b : Bool} (h : a = true ↔ b = true) : a = b := by
  cases a <;> cases b <;> simp_all

theorem lookupCoeff_pair_unique {p : PolynomialArray} {t : List Nat}
    {c : NDArray} (hnd : p.exponents.Nodup)
    (hlen : p.exponents.length = p.coefficients.length)
    (hmem : (t, c) ∈ p.exponents.zip p.coefficients) :
    lookupCoeff p t = some c := by
  have ht : t ∈ p.exponents := (List.of_mem_zip hmem).1
  obtain ⟨i, c2, hie, hic, hfil⟩ := zip_filter_fst_single hnd hlen ht
  have hmem2 : (t, c) ∈ (p.exponents.zip p.coefficients).filter
      (fun pr => pr.1 = t) := List.mem_filter.mpr ⟨hmem, by simp⟩
  rw [hfil, List.mem_singleton] at hmem2
  unfold lookupCoeff
  rw [hfil]
  show some (t, c2).2 = some c
  rw [← hmem2]

/-- One input of the cleaning pass of a re-run of shape alignment on an
already-aligned family: slots with non-zero coefficients are kept, an
all-zero family collapses to the single zero constant slot. -/
def cleanOut (G : List (List Nat)) (dt : Dtype) (q : PolynomialArray) :
    PolynomialArray :=
  if ((G.zip q.coefficients).filter (fun pr => !pr.2.isZero)).isEmpty then
    ⟨q.names, [List.replicate q.names.length 0], [NDArray.zeros q.shape dt],
     q.shape, dt⟩
  else
    ⟨q.names,
     ((G.zip q.coefficients).filter (fun pr => !pr.2.isZero)).map Prod.fst,
     ((G.zip q.coefficients).filter (fun pr => !pr.2.isZero)).map Prod.snd,
     q.shape, dt⟩

theorem cleanOut_names (G : List (List Nat)) (dt : Dtype)
    (q : PolynomialArray) : (cleanOut G dt q).names = q.names := by
  unfold cleanOut
  by_cases hke : ((G.zip q.coefficients).filter
      (fun pr => !pr.2.isZero)).isEmpty
  · rw [if_pos hke]
  · rw [if_neg hke]

theorem cleanOut_shape (G : List (List Nat)) (dt : Dtype)
    (q : PolynomialArray) : (cleanOut G dt q).shape = q.shape := by
  unfold cleanOut
  by_cases hke : ((G.zip q.coefficients).filter
      (fun pr => !pr.2.isZero)).isEmpty
  · rw [if_pos hke]
  · rw [if_neg hke]

theorem cleanOut_dtype (G : List (List Nat)) (dt : Dtype)
    (q : PolynomialArray) : (cleanOut G dt q).dtype = dt := by
  unfold cleanOut
  by_cases hke : ((G.zip q.coefficients).filter
      (fun pr => !pr.2.isZero)).isEmpty
  · rw [if_pos hke]
  · rw [if_neg hke]

theorem zip_getElem?_mem {α β : Type} :
    ∀ {l1 : List α} {l2 : List β} {i : Nat} {a : α} {b : β},
      l1[i]? = some a → l2[i]? = some b → (a, b) ∈ l1.zip l2 := by
  intro l1
  induction l1 with
  | nil => intro l2 i a b h1 _; simp at h1
  | cons x l1 ih =>
    intro l2 i a b h1 h2
    cases l2 with
    | nil => simp at h2
    | cons y l2 =>
      cases i with
      | zero =>
        simp only [List.getElem?_cons_zero, Option.some.injEq] at h1 h2
        rw [List.zip_cons_cons, ← h1, ← h2]
        simp
      | succ i =>
        simp only [List.getElem?_cons_succ] at h1 h2
        rw [List.zip_cons_cons]
        exact List.mem_cons.mpr (Or.inr (ih h1 h2))

theorem cleanOut_WF {G : List (List Nat)} {dt : Dtype} {q : PolynomialArray}
    (hGnd : G.Nodup) (hGne : G ≠ [])
    (hlen : q.coefficients.length = G.length)
    (har : ∀ e ∈ G, e.length = q.names.length)
    (hhom : ∀ c ∈ q.coefficients, c.shape = q.shape ∧ c.dtype = dt ∧
      c.data.length = q.shape.prod)
    (hnnd : q.names.Nodup) :
    WF (cleanOut G dt q) := by
  unfold cleanOut
  by_cases hke : ((G.zip q.coefficients).filter
      (fun pr => !pr.2.isZero)).isEmpty
  · rw [if_pos hke]
    refine ⟨rfl, by simp, ?_, ?_, by simp, hnnd⟩
    · intro e he
      rw [List.mem_singleton.mp he]
      simp
    · intro c hc
      rw [List.mem_singleton.mp hc]
      exact ⟨rfl, rfl, by simp [NDArray.zeros]⟩
  · rw [if_neg hke]
    refine ⟨by rw [List.length_map, List.length_map], ?_, ?_, ?_, ?_, hnnd⟩
    · intro hmape
      have : ((G.zip q.coefficients).filter (fun pr => !pr.2.isZero)) = [] :=
        List.map_eq_nil_iff.mp hmape
      rw [this] at hke
      exact hke rfl
    · intro e he
      obtain ⟨pr, hpr, hpre⟩ := List.mem_map.mp he
      rw [← hpre]
      exact har pr.1 (List.of_mem_zip (List.mem_of_mem_filter hpr)).1
    · intro c hc
      obtain ⟨pr, hpr, hprc⟩ := List.mem_map.mp hc
      rw [← hprc]
      exact hhom pr.2 (List.of_mem_zip (List.mem_of_mem_filter hpr)).2
    · have hfst : ((G.zip q.coefficients).map Prod.fst) = G :=
        List.map_fst_zip _ _ (le_of_eq hlen.symm)
      have hznd : ((G.zip q.coefficients).map Prod.fst).Nodup := by
        rw [hfst]
        exact hGnd
      exact List.Nodup.sublist (List.Sublist.map _ (List.filter_sublist _)) hznd

theorem cleanOut_isconstant_of {G : List (List Nat)} {dt : Dtype}
    {q : PolynomialArray} (hexp : q.exponents = G)
    (hc : q.isconstant = true) : (cleanOut G dt q).isconstant = true := by
  unfold cleanOut
  by_cases hke : ((G.zip q.coefficients).filter
      (fun pr => !pr.2.isZero)).isEmpty
  · rw [if_pos hke]
    unfold PolynomialArray.isconstant
    rw [List.all_eq_true]
    intro pr hpr
    show (pr.2.isZero || pr.1.all (fun x => x = 0)) = true
    have hpr2 : pr = (List.replicate q.names.length 0,
        NDArray.zeros q.shape dt) := by simpa using hpr
    rw [hpr2]
    show ((NDArray.zeros q.shape dt).isZero ||
      (List.replicate q.names.length 0).all (fun x => x = 0)) = true
    rw [zeros_isZero, Bool.true_or]
  · rw [if_neg hke]
    unfold PolynomialArray.isconstant at hc ⊢
    rw [List.all_eq_true] at hc ⊢
    intro pr hpr
    rw [zip_fst_snd] at hpr
    refine hc pr ?_
    rw [hexp]
    exact List.mem_of_mem_filter hpr

theorem cleanOut_nonconstant_of {G : List (List Nat)} {dt : Dtype}
    {q : PolynomialArray} (hexp : q.exponents = G)
    (hc : q.isconstant = false) : (cleanOut G dt q).isconstant = false := by
  unfold PolynomialArray.isconstant at hc
  rw [List.all_eq_false] at hc
  obtain ⟨pr, hpr, hfail⟩ := hc
  rw [hexp] at hpr
  have hprnz : (!pr.2.isZero) = true := by
    simp only [Bool.or_eq_true, not_or] at hfail
    cases hx : pr.2.isZero
    · rfl
    · exact absurd hx hfail.1
  have hkmem : pr ∈ (G.zip q.coefficients).filter (fun pr => !pr.2.isZero) :=
    List.mem_filter.mpr ⟨hpr, hprnz⟩
  have hkne : ((G.zip q.coefficients).filter (fun pr => !pr.2.isZero)) ≠ [] := by
    intro h0
    rw [h0] at hkmem
    cases hkmem
  unfold cleanOut
  rw [if_neg (by
    intro hke
    exact hkne (List.isEmpty_iff.mp hke))]
  unfold PolynomialArray.isconstant
  rw [List.all_eq_false]
  refine ⟨pr, ?_, hfail⟩
  rw [zip_fst_snd]
  exact hkmem

theorem cleanOut_exponents_left {G : List (List Nat)} {dt : Dtype}
    {q : PolynomialArray} {A : List (List Nat)}
    (hGnd : G.Nodup)
    (hlen : q.coefficients.length = G.length)
    (hiff : ∀ pr ∈ G.zip q.coefficients, pr.2.isZero = false ↔ pr.1 ∈ A)
    (hAne : A ≠ []) (hAsub : ∀ t ∈ A, t ∈ G) :
    (cleanOut G dt q).exponents = G.filter (fun t => t ∈ A) := by
  obtain ⟨t0, ht0⟩ := List.exists_mem_of_ne_nil _ hAne
  obtain ⟨j, hj, hje⟩ := List.mem_iff_getElem.mp (hAsub t0 ht0)
  have hjc : j < q.coefficients.length := by rw [hlen]; exact hj
  have hpair : (t0, q.coefficients[j]) ∈ G.zip q.coefficients :=
    zip_getElem?_mem (by rw [List.getElem?_eq_getElem hj, hje])
      (List.getElem?_eq_getElem hjc)
  have hnz : q.coefficients[j].isZero = false :=
    (hiff _ hpair).mpr ht0
  have hkmem : (t0, q.coefficients[j]) ∈
      (G.zip q.coefficients).filter (fun pr => !pr.2.isZero) :=
    List.mem_filter.mpr ⟨hpair, by rw [hnz]; rfl⟩
  have hkne : ((G.zip q.coefficients).filter (fun pr => !pr.2.isZero)) ≠ [] := by
    intro h0
    rw [h0] at hkmem
    cases hkmem
  unfold cleanOut
  rw [if_neg (by
    intro hke
    exact hkne (List.isEmpty_iff.mp hke))]
  show ((G.zip q.coefficients).filter (fun pr => !pr.2.isZero)).map Prod.fst = _
  refine filter_zip_map_fst hlen.symm ?_
  intro pr hpr
  refine bool_eq_of_iff ?_
  rw [Bool.not_eq_eq_eq_not, Bool.not_true, decide_eq_true_eq]
  exact hiff pr hpr

theorem cleanOut_all_zero {G : List (List Nat)} {dt : Dtype}
    {q : PolynomialArray}
    (hallz : ∀ c ∈ q.coefficients, c.isZero = true) :
    cleanOut G dt q = ⟨q.names, [List.replicate q.names.length 0],
      [NDArray.zeros q.shape dt], q.shape, dt⟩ := by
  unfold cleanOut
  rw [if_pos ?_]
  rw [List.isEmpty_iff, List.filter_eq_nil_iff]
  intro pr hpr hcon
  rw [hallz pr.2 (List.of_mem_zip hpr).2] at hcon
  simp at hcon

theorem from_attributes_cleanOut {G : List (List Nat)} {dt : Dtype}
    {q : PolynomialArray}
    (hGnd : G.Nodup) (hGne : G ≠ [])
    (hlen : q.coefficients.length = G.length)
    (har : ∀ e ∈ G, e.length = q.names.length)
    (hhom : ∀ c ∈ q.coefficients, c.shape = q.shape ∧ c.dtype = dt) :
    from_attributes G q.coefficients q.names none true =
      some (cleanOut G dt q) := by
  have hcne : q.coefficients ≠ [] := by
    intro h0
    apply hGne
    refine List.eq_nil_of_length_eq_zero ?_
    rw [← hlen, h0]
    rfl
  rw [from_attributes_true_homo hlen.symm hcne har hhom hGnd]
  rfl

/-- On a family sharing one sorted nodup name list with at least one
non-constant member, the common name list is that name list. -/
theorem commonNames_id {polys : List PolynomialArray} {N : List String}
    (hnames : ∀ q ∈ polys, q.names = N)
    (hsorted : sortNames N = N) (hNnd : N.Nodup)
    (hex : ∃ q ∈ polys, q.isconstant = false) :
    commonNames polys = N := by
  unfold commonNames
  refine Eq.trans (sortNames_eq_of_perm ?_) hsorted
  refine (List.perm_ext_iff_of_nodup (List.nodup_dedup _) hNnd).mpr ?_
  intro a
  rw [List.mem_dedup, List.mem_flatMap]
  constructor
  · rintro ⟨p, hp, ha⟩
    rw [hnames p (List.mem_of_mem_filter hp)] at ha
    exact ha
  · intro haN
    obtain ⟨q0, hq0, hq0c⟩ := hex
    refine ⟨q0, List.mem_filter.mpr ⟨hq0, by simp [hq0c]⟩, ?_⟩
    rw [hnames q0 hq0]
    exact haN

/-- On a family already carrying the sorted common name list (with some
non-constant member), indeterminant alignment is the identity. -/
theorem align_indeterminants_id {polys : List PolynomialArray} {N : List String}
    (hnames : ∀ q ∈ polys, q.names = N)
    (hNnd : N.Nodup) (hNne : N ≠ [])
    (hcn : commonNames polys = N)
    (hq : ∀ q ∈ polys, q.exponents.length = q.coefficients.length ∧
      q.coefficients ≠ [] ∧ (∀ e ∈ q.exponents, e.length = N.length) ∧
      ∀ c ∈ q.coefficients, c.shape = q.shape ∧ c.dtype = q.dtype) :
    align_indeterminants polys = some polys := by
  simp only [align_indeterminants]
  rw [hcn]
  rw [if_neg (by
    intro hke
    exact hNne (List.isEmpty_iff.mp hke))]
  have hid : ∀ q ∈ polys,
      (if ((q.names.filter (fun n => n ∈ N)).map
          (fun n => N.indexOf n)).isEmpty then
        from_attributes (q.exponents.map (fun _ => List.replicate N.length 0))
          q.coefficients N none false
      else if ((q.names.filter (fun n => n ∈ N)).map
          (fun n => N.indexOf n)).length = q.names.length then
        from_attributes (q.exponents.map (assignCols N.length
          ((q.names.filter (fun n => n ∈ N)).map (fun n => N.indexOf n))))
          q.coefficients N none false
      else none) = some q := by
    intro q hqm
    obtain ⟨hplen, hpne, har, hhom⟩ := hq q hqm
    have hfilter : q.names.filter (fun n => n ∈ N) = q.names := by
      refine List.filter_eq_self.mpr ?_
      intro n hn
      rw [hnames q hqm] at hn
      simpa using hn
    have hidx : (q.names.filter (fun n => n ∈ N)).map
        (fun n => N.indexOf n) = List.range N.length := by
      rw [hfilter, hnames q hqm]
      exact map_indexOf_self_eq_range hNnd
    rw [hidx]
    rw [if_neg (by
      intro hke
      have hrange : List.range N.length = [] := List.isEmpty_iff.mp hke
      have hlen0 : N.length = 0 := by
        have := List.length_range N.length
        rw [hrange] at this
        exact this.symm
      exact hNne (List.eq_nil_of_length_eq_zero hlen0))]
    rw [if_pos (by
      rw [List.length_range, hnames q hqm])]
    have hmap : q.exponents.map (assignCols N.length (List.range N.length)) =
        q.exponents := by
      refine (List.map_congr_left ?_).trans (List.map_id _)
      intro e he
      exact assignCols_range_id (har e he)
    rw [hmap]
    rw [from_attributes_false_homo hplen hpne
      (by rw [← hnames q hqm]; intro e he; rw [har e he, hnames q hqm])
      hhom]
    refine congrArg some ?_
    show (⟨N, q.exponents, q.coefficients, q.shape, q.dtype⟩ :
      PolynomialArray) = q
    rw [← hnames q hqm]
  have := mapM_eq_some_map _ id polys hid
  rw [List.map_id] at this
  exact this

/-- Closed form of `align_exponents` when the inputs share one name list or
the common name list is empty (so the inner indeterminant alignment is the
identity), under the cross-input arity guarantee for the stable union. -/
theorem align_exponents_eq_general {p0 : PolynomialArray}
    {rest : List PolynomialArray}
    (hW : ∀ p ∈ p0 :: rest, WF p)
    (hn : (∀ p ∈ p0 :: rest, p.names = p0.names) ∨
      commonNames (p0 :: rest) = [])
    (har2 : ∀ p ∈ p0 :: rest, ∀ e ∈ globalExponents p0.exponents rest,
      e.length = p.names.length) :
    align_exponents (p0 :: rest) =
      some ((p0 :: rest).map (alignExpOut (globalExponents p0.exponents rest))) := by
  have hge0 : p0.exponents ≠ [] := by
    obtain ⟨h1, h2, -⟩ := hW p0 (by simp)
    intro h
    exact h2 (List.eq_nil_of_length_eq_zero (by rw [← h1, h]; simp [h]))
  have hgene := @globalExponents_ne_nil p0.exponents rest hge0
  have htail : (p0 :: rest).mapM (fun p =>
      from_attributes (globalExponents p0.exponents rest)
        ((globalExponents p0.exponents rest).map (fun t =>
          (lookupCoeff p t).getD (NDArray.zeros p.shape p.dtype)))
        p.names none false) =
      some ((p0 :: rest).map
        (alignExpOut (globalExponents p0.exponents rest))) := by
    refine mapM_eq_some_map _ _ _ ?_
    intro p hp
    obtain ⟨hlen, hne, har, hhom, hnd, hnnd⟩ := hW p hp
    have hhom3 : ∀ c ∈ (globalExponents p0.exponents rest).map (fun t =>
        (lookupCoeff p t).getD (NDArray.zeros p.shape p.dtype)),
        c.shape = p.shape ∧ c.dtype = p.dtype := by
      intro c hc
      obtain ⟨t, -, hct⟩ := List.mem_map.mp hc
      cases hl : lookupCoeff p t with
      | none =>
        rw [← hct, hl]
        exact ⟨rfl, rfl⟩
      | some c2 =>
        have := hhom c2 (lookupCoeff_mem hl)
        rw [← hct, hl]
        exact ⟨this.1, this.2.1⟩
    rw [from_attributes_false_homo (by rw [List.length_map])
      (by intro hmape; exact hgene (List.map_eq_nil_iff.mp hmape))
      (har2 p hp) hhom3]
    rfl
  by_cases hall : ((p0 :: rest).all (fun p => p.names = p0.names)) = true
  · simp only [align_exponents, hall, if_true, Option.bind_eq_bind,
      Option.some_bind]
    exact htail
  · have hallf : ((p0 :: rest).all (fun p => p.names = p0.names)) = false := by
      cases h2 : (p0 :: rest).all (fun p => p.names = p0.names)
      · rfl
      · exact absurd h2 hall
    have hcn : commonNames (p0 :: rest) = [] := by
      rcases hn with hne | hcn2
      · exfalso
        apply hall
        simp only [List.all_eq_true, decide_eq_true_eq]
        exact hne
      · exact hcn2
    simp only [align_exponents, hallf, Bool.false_eq_true, if_false,
      Option.bind_eq_bind]
    rw [align_indeterminants_empty hcn]
    simp only [Option.some_bind]
    exact htail

theorem cleanOut_kept {G : List (List Nat)} {dt : Dtype} {q : PolynomialArray}
    (hne : (G.zip q.coefficients).filter (fun pr => !pr.2.isZero) ≠ []) :
    cleanOut G dt q = ⟨q.names,
      ((G.zip q.coefficients).filter (fun pr => !pr.2.isZero)).map Prod.fst,
      ((G.zip q.coefficients).filter (fun pr => !pr.2.isZero)).map Prod.snd,
      q.shape, dt⟩ := by
  unfold cleanOut
  rw [if_neg (by
    intro hke
    exact hne (List.isEmpty_iff.mp hke))]

theorem cleanOut_exponents_nodup {G : List (List Nat)} {dt : Dtype}
    {q : PolynomialArray} (hGnd : G.Nodup)
    (hclen : q.coefficients.length = G.length) :
    (cleanOut G dt q).exponents.Nodup := by
  unfold cleanOut
  by_cases hke : ((G.zip q.coefficients).filter
      (fun pr => !pr.2.isZero)).isEmpty
  · rw [if_pos hke]
    simp
  · rw [if_neg hke]
    have hfst : ((G.zip q.coefficients).map Prod.fst) = G :=
      List.map_fst_zip _ _ (le_of_eq hclen.symm)
    have hznd : ((G.zip q.coefficients).map Prod.fst).Nodup := by
      rw [hfst]
      exact hGnd
    exact List.Nodup.sublist (List.Sublist.map _ (List.filter_sublist _)) hznd

/-- The core reconstruction step: re-aligning the exponents of a cleaned
member of an aligned fixed family restores the member exactly. -/
theorem alignExpOut_cleanOut {G : List (List Nat)} {dt : Dtype}
    {q : PolynomialArray} {A : List (List Nat)}
    (hGnd : G.Nodup)
    (hexp : q.exponents = G) (hdt : q.dtype = dt)
    (hclen : q.coefficients.length = G.length)
    (hdich : ∀ pr ∈ G.zip q.coefficients,
      pr.2.isZero = false ∨ pr.2 = NDArray.zeros q.shape dt)
    (hArel : (∀ pr ∈ G.zip q.coefficients, pr.2.isZero = false ↔ pr.1 ∈ A) ∨
      (A = [List.replicate q.names.length 0] ∧
        ∀ c ∈ q.coefficients, c.isZero = true))
    (hAne : A ≠ []) (hAsub : ∀ t ∈ A, t ∈ G) :
    alignExpOut G (cleanOut G dt q) = q := by
  have hcoef : G.map (fun t => (lookupCoeff (cleanOut G dt q) t).getD
      (NDArray.zeros q.shape dt)) = q.coefficients := by
    refine List.ext_getElem? ?_
    intro j
    by_cases hj : j < G.length
    · have hjc : j < q.coefficients.length := by
        rw [hclen]
        exact hj
      rw [List.getElem?_map, List.getElem?_eq_getElem hj, Option.map_some',
        List.getElem?_eq_getElem hjc]
      refine congrArg some ?_
      have hpair : (G[j], q.coefficients[j]) ∈ G.zip q.coefficients :=
        zip_getElem?_mem (List.getElem?_eq_getElem hj)
          (List.getElem?_eq_getElem hjc)
      rcases hArel with hiff | ⟨hAz, hallz⟩
      · cases hc : q.coefficients[j].isZero with
        | false =>
          have htA : G[j] ∈ A := (hiff _ hpair).mp hc
          have hkmem : (G[j], q.coefficients[j]) ∈
              (G.zip q.coefficients).filter (fun pr => !pr.2.isZero) :=
            List.mem_filter.mpr ⟨hpair, by rw [hc]; rfl⟩
          have hkne : ((G.zip q.coefficients).filter
              (fun pr => !pr.2.isZero)) ≠ [] := by
            intro h0
            rw [h0] at hkmem
            cases hkmem
          have hlk : lookupCoeff (cleanOut G dt q) G[j] =
              some q.coefficients[j] := by
            refine lookupCoeff_pair_unique (cleanOut_exponents_nodup hGnd hclen)
              ?_ ?_
            · rw [cleanOut_kept hkne]
              show (((G.zip q.coefficients).filter
                  (fun pr => !pr.2.isZero)).map Prod.fst).length =
                (((G.zip q.coefficients).filter
                  (fun pr => !pr.2.isZero)).map Prod.snd).length
              rw [List.length_map, List.length_map]
            · rw [cleanOut_kept hkne]
              show (G[j], q.coefficients[j]) ∈
                (((G.zip q.coefficients).filter
                  (fun pr => !pr.2.isZero)).map Prod.fst).zip
                (((G.zip q.coefficients).filter
                  (fun pr => !pr.2.isZero)).map Prod.snd)
              rw [zip_fst_snd]
              exact hkmem
          rw [hlk, Option.getD_some]
        | true =>
          have hzero : q.coefficients[j] = NDArray.zeros q.shape dt := by
            rcases hdich _ hpair with h2 | h2
            · rw [hc] at h2
              cases h2
            · exact h2
          have htA : G[j] ∉ A := by
            intro hin
            have := (hiff _ hpair).mpr hin
            rw [hc] at this
            cases this
          have hexps := @cleanOut_exponents_left G dt q A hGnd hclen hiff
            hAne hAsub
          have hnotin : G[j] ∉ (cleanOut G dt q).exponents := by
            rw [hexps]
            intro hin
            have := List.mem_filter.mp hin
            simp only [decide_eq_true_eq] at this
            exact htA this.2
          rw [lookupCoeff_eq_none hnotin, Option.getD_none]
          exact hzero.symm
      · have hcz : q.coefficients[j] = NDArray.zeros q.shape dt := by
          rcases hdich _ hpair with h2 | h2
          · rw [hallz q.coefficients[j] (List.getElem_mem hjc)] at h2
            cases h2
          · exact h2
        rw [cleanOut_all_zero hallz, lookupCoeff_singleton]
        by_cases hez : List.replicate q.names.length 0 = G[j]
        · rw [if_pos hez, Option.getD_some]
          exact hcz.symm
        · rw [if_neg hez, Option.getD_none]
          exact hcz.symm
    · rw [List.getElem?_eq_none (by rw [List.length_map]; omega),
        List.getElem?_eq_none (by rw [hclen]; omega)]
  have h1 : alignExpOut G (cleanOut G dt q) =
      ⟨q.names, G, q.coefficients, q.shape, dt⟩ := by
    unfold alignExpOut
    rw [cleanOut_names, cleanOut_shape, cleanOut_dtype, hcoef]
  rw [h1, ← hexp, ← hdt]

/-- The aligned fixed-point state is a fixed point of the alignment
orchestrator. -/
theorem align_on_final {qs : List PolynomialArray} (hF : AlignedFixed qs) :
    align_polynomials qs = some qs := by
  obtain ⟨G, dt, B, As, hqne, hGne, hGnd, hAlen, hAU, hNames, hper⟩ := hF
  have hWq : ∀ q ∈ qs, WF q := by
    intro q hq
    obtain ⟨k, hk⟩ := List.getElem?_of_mem hq
    obtain ⟨A, hAk, hAne, hexp, hdtq, hclen, harG, hhom, hnnd, hdich, hArel,
      hshB, hbro⟩ := hper k q hk
    refine ⟨?_, ?_, ?_, ?_, ?_, hnnd⟩
    · rw [hexp]
      exact hclen.symm
    · intro h0
      apply hGne
      refine List.eq_nil_of_length_eq_zero ?_
      rw [← hclen, h0]
      rfl
    · rw [hexp]
      exact harG
    · intro c hc
      exact ⟨(hhom c hc).1, ((hhom c hc).2.1).trans hdtq.symm,
        (hhom c hc).2.2⟩
    · rw [hexp]
      exact hGnd
  obtain ⟨r, hr, hrshape⟩ := commonFold_exists qs (NDArray.intScalar 1)
    (by
      intro q hq
      obtain ⟨k, hk⟩ := List.getElem?_of_mem hq
      obtain ⟨A, hAk, hAne, hexp, hdtq, hclen, harG, hhom, hnnd, hdich, hArel,
        hshB, hbro⟩ := hper k q hk
      refine ⟨?_, fun c hc => (hhom c hc).1, hshB⟩
      intro h0
      apply hGne
      refine List.eq_nil_of_length_eq_zero ?_
      rw [← hclen, h0]
      rfl)
    (broadcastShapes_nil_right B)
  have hr1 : ∀ jx, validIx r.shape jx → r.get jx = 1 :=
    commonFold_get_one qs _ r hWq hr intScalar_one_inv
  have hrd : r.dtype = Dtype.int64 :=
    commonFold_dtype_int64 qs _ r hr rfl
  have hmulid : ∀ q ∈ qs, q.coefficients.mapM (fun c => NDArray.mulB c r) =
      some q.coefficients := by
    intro q hq
    obtain ⟨k, hk⟩ := List.getElem?_of_mem hq
    obtain ⟨A, hAk, hAne, hexp, hdtq, hclen, harG, hhom, hnnd, hdich, hArel,
      hshB, hbro⟩ := hper k q hk
    have hm := mapM_eq_some_map (fun c => NDArray.mulB c r) id q.coefficients
      (by
        intro c hc
        refine mulB_id ?_ ?_ hr1 hrd
        · rw [(hhom c hc).1]
          exact (hhom c hc).2.2
        · rw [(hhom c hc).1]
          rcases hrshape with h2 | h2
          · rw [h2]
            show broadcastShapes q.shape [] = some q.shape
            exact broadcastShapes_nil_right q.shape
          · rw [h2]
            exact hbro)
    rw [List.map_id] at hm
    exact hm
  have hstage1 : align_shape qs = some (qs.map (cleanOut G dt)) := by
    unfold align_shape
    rw [hr]
    simp only [Option.bind_eq_bind, Option.some_bind]
    refine mapM_eq_some_map _ _ _ ?_
    intro q hq
    obtain ⟨k, hk⟩ := List.getElem?_of_mem hq
    obtain ⟨A, hAk, hAne, hexp, hdtq, hclen, harG, hhom, hnnd, hdich, hArel,
      hshB, hbro⟩ := hper k q hk
    show ((q.coefficients.mapM (fun c => NDArray.mulB c r)).bind (fun coeffs =>
      from_attributes q.exponents coeffs q.names none true)) =
      some (cleanOut G dt q)
    rw [hmulid q hq]
    show from_attributes q.exponents q.coefficients q.names none true = _
    rw [hexp]
    exact from_attributes_cleanOut hGnd hGne hclen harG
      (fun c hc => ⟨(hhom c hc).1, (hhom c hc).2.1⟩)
  have hW1 : ∀ q1 ∈ qs.map (cleanOut G dt), WF q1 := by
    intro q1 hq1
    obtain ⟨q, hq, hq1e⟩ := List.mem_map.mp hq1
    obtain ⟨k, hk⟩ := List.getElem?_of_mem hq
    obtain ⟨A, hAk, hAne, hexp, hdtq, hclen, harG, hhom, hnnd, hdich, hArel,
      hshB, hbro⟩ := hper k q hk
    rw [← hq1e]
    exact cleanOut_WF hGnd hGne hclen harG hhom hnnd
  have hstage2 : align_indeterminants (qs.map (cleanOut G dt)) =
      some (qs.map (cleanOut G dt)) := by
    by_cases hconst : ∀ q ∈ qs, q.isconstant = true
    · refine align_indeterminants_empty (commonNames_nil_of_constant ?_)
      intro q1 hq1
      obtain ⟨q, hq, hq1e⟩ := List.mem_map.mp hq1
      obtain ⟨k, hk⟩ := List.getElem?_of_mem hq
      obtain ⟨A, hAk, hAne, hexp, hdtq, hclen, harG, hhom, hnnd, hdich, hArel,
        hshB, hbro⟩ := hper k q hk
      rw [← hq1e]
      exact cleanOut_isconstant_of hexp (hconst q hq)
    · rcases hNames with ⟨N, hsort, hallN⟩ | hallC
      · push_neg at hconst
        obtain ⟨q0c, hq0c, hq0cc⟩ := hconst
        have hq0cf : q0c.isconstant = false := by
          cases hx : q0c.isconstant
          · rfl
          · exact absurd hx hq0cc
        have hNnd : N.Nodup := by
          have := (hWq q0c hq0c).2.2.2.2.2
          rw [hallN q0c hq0c] at this
          exact this
        have hNne : N ≠ [] := by
          have := nonconstant_names_ne_nil (hWq q0c hq0c) hq0cf
          rw [hallN q0c hq0c] at this
          exact this
        have hnames1 : ∀ q1 ∈ qs.map (cleanOut G dt), q1.names = N := by
          intro q1 hq1
          obtain ⟨q, hq, hq1e⟩ := List.mem_map.mp hq1
          rw [← hq1e, cleanOut_names]
          exact hallN q hq
        have hex1 : ∃ q1 ∈ qs.map (cleanOut G dt), q1.isconstant = false := by
          refine ⟨cleanOut G dt q0c, List.mem_map.mpr ⟨q0c, hq0c, rfl⟩, ?_⟩
          obtain ⟨k, hk⟩ := List.getElem?_of_mem hq0c
          obtain ⟨A, hAk, hAne, hexp, hdtq, hclen, harG, hhom, hnnd, hdich,
            hArel, hshB, hbro⟩ := hper k q0c hk
          exact cleanOut_nonconstant_of hexp hq0cf
        have hcn1 : commonNames (qs.map (cleanOut G dt)) = N :=
          commonNames_id hnames1 hsort hNnd hex1
        refine align_indeterminants_id hnames1 hNnd hNne hcn1 ?_
        intro q1 hq1
        obtain ⟨hplen, hpne, har, hhom1, -, -⟩ := hW1 q1 hq1
        refine ⟨hplen, hpne, ?_, fun c hc => ⟨(hhom1 c hc).1, (hhom1 c hc).2.1⟩⟩
        intro e he
        rw [har e he, hnames1 q1 hq1]
      · exact absurd hallC hconst
  obtain ⟨q0, qrest, hqcons⟩ := List.exists_cons_of_ne_nil hqne
  have hexps1 : (qs.map (cleanOut G dt)).map (fun p => p.exponents) =
      As.map (fun A => G.filter (fun t => t ∈ A)) := by
    refine List.ext_getElem? ?_
    intro k
    by_cases hk : k < qs.length
    · have hkA : k < As.length := by
        rw [hAlen]
        exact hk
      obtain ⟨A, hAk, hAne, hexp, hdtq, hclen, harG, hhom, hnnd, hdich, hArel,
        hshB, hbro⟩ := hper k qs[k] (List.getElem?_eq_getElem hk)
      rw [List.getElem?_map, List.getElem?_map, List.getElem?_map,
        List.getElem?_eq_getElem hk, hAk]
      simp only [Option.map_some']
      refine congrArg some ?_
      have hAsub : ∀ t ∈ A, t ∈ G := by
        intro t ht
        rw [← hAU]
        exact mem_unionAll_of_mem (List.getElem?_mem hAk) ht
      rcases hArel with hiff | ⟨hAz, hallz⟩
      · exact cleanOut_exponents_left hGnd hclen hiff hAne hAsub
      · rw [cleanOut_all_zero hallz]
        show [List.replicate qs[k].names.length 0] = _
        have hzG : List.replicate qs[k].names.length 0 ∈ G := by
          refine hAsub _ ?_
          rw [hAz]
          simp
        rw [hAz, filter_mem_singleton hGnd hzG]
    · rw [List.getElem?_eq_none, List.getElem?_eq_none]
      · rw [List.length_map, hAlen]
        omega
      · rw [List.length_map, List.length_map]
        omega
  have hgeG : globalExponents (cleanOut G dt q0).exponents
      (qrest.map (cleanOut G dt)) = G := by
    rw [globalExponents_eq_unionAll]
    have hlist : (cleanOut G dt q0).exponents ::
        (qrest.map (cleanOut G dt)).map (fun p => p.exponents) =
        As.map (fun A => G.filter (fun t => t ∈ A)) := by
      have h2 : (qs.map (cleanOut G dt)).map (fun p => p.exponents) =
          (cleanOut G dt q0).exponents ::
          (qrest.map (cleanOut G dt)).map (fun p => p.exponents) := by
        rw [hqcons, List.map_cons, List.map_cons]
      rw [← h2]
      exact hexps1
    rw [hlist]
    exact unionAll_filter_id hAU hGnd
  have hstage3 : align_exponents (qs.map (cleanOut G dt)) = some qs := by
    rw [hqcons, List.map_cons]
    rw [align_exponents_eq_general
      (by
        intro p hp
        refine hW1 p ?_
        rw [hqcons, List.map_cons]
        exact hp)
      (by
        by_cases hconst : ∀ q ∈ qs, q.isconstant = true
        · right
          refine commonNames_nil_of_constant ?_
          intro q1 hq1
          obtain ⟨q, hq, hq1e⟩ : ∃ q ∈ qs, cleanOut G dt q = q1 := by
            rcases List.mem_cons.mp hq1 with h2 | h2
            · exact ⟨q0, by rw [hqcons]; simp, h2.symm⟩
            · obtain ⟨q, hq, hqe⟩ := List.mem_map.mp h2
              exact ⟨q, by rw [hqcons]; simp [hq], hqe⟩
          obtain ⟨k, hk⟩ := List.getElem?_of_mem hq
          obtain ⟨A, hAk, hAne, hexp, hdtq, hclen, harG, hhom, hnnd, hdich,
            hArel, hshB, hbro⟩ := hper k q hk
          rw [← hq1e]
          exact cleanOut_isconstant_of hexp (hconst q hq)
        · rcases hNames with ⟨N, hsort, hallN⟩ | hallC
          · left
            intro p hp
            have hpn : p.names = N := by
              obtain ⟨q, hq, hqe⟩ : ∃ q ∈ qs, cleanOut G dt q = p := by
                rcases List.mem_cons.mp hp with h2 | h2
                · exact ⟨q0, by rw [hqcons]; simp, h2.symm⟩
                · obtain ⟨q, hq, hqe⟩ := List.mem_map.mp h2
                  exact ⟨q, by rw [hqcons]; simp [hq], hqe⟩
              rw [← hqe, cleanOut_names]
              exact hallN q hq
            rw [hpn, cleanOut_names]
            exact (hallN q0 (by rw [hqcons]; simp)).symm
          · exact absurd hallC hconst)
      (by
        intro p hp e he
        rw [hgeG] at he
        obtain ⟨q, hq, hqe⟩ : ∃ q ∈ qs, cleanOut G dt q = p := by
          rcases List.mem_cons.mp hp with h2 | h2
          · exact ⟨q0, by rw [hqcons]; simp, h2.symm⟩
          · obtain ⟨q, hq, hqe⟩ := List.mem_map.mp h2
            exact ⟨q, by rw [hqcons]; simp [hq], hqe⟩
        obtain ⟨k, hk⟩ := List.getElem?_of_mem hq
        obtain ⟨A, hAk, hAne, hexp, hdtq, hclen, harG, hhom, hnnd, hdich,
          hArel, hshB, hbro⟩ := hper k q hk
        rw [← hqe, cleanOut_names]
        exact harG e he)]
    refine congrArg some ?_
    rw [hgeG, ← List.map_cons, ← hqcons, List.map_map]
    refine Eq.trans (List.map_congr_left ?_) (List.map_id _)
    intro q hq
    obtain ⟨k, hk⟩ := List.getElem?_of_mem hq
    obtain ⟨A, hAk, hAne, hexp, hdtq, hclen, harG, hhom, hnnd, hdich, hArel,
      hshB, hbro⟩ := hper k q hk
    have hAsub : ∀ t ∈ A, t ∈ G := by
      intro t ht
      rw [← hAU]
      exact mem_unionAll_of_mem (List.getElem?_mem hAk) ht
    show alignExpOut G (cleanOut G dt q) = q
    exact alignExpOut_cleanOut hGnd hexp hdtq hclen hdich hArel hAne hAsub
  have hstage4 : align_dtype qs = some qs := by
    refine @align_dtype_id qs dt hqne ?_ ?_
    · intro q hq
      obtain ⟨k, hk⟩ := List.getElem?_of_mem hq
      obtain ⟨A, hAk, hAne, hexp, hdtq, -⟩ := hper k q hk
      exact hdtq
    · intro q hq
      obtain ⟨k, hk⟩ := List.getElem?_of_mem hq
      obtain ⟨A, hAk, hAne, hexp, hdtq, hclen, harG, hhom, hnnd, hdich, hArel,
        hshB, hbro⟩ := hper k q hk
      refine ⟨?_, ?_, ?_, ?_⟩
      · rw [hexp]
        exact hclen.symm
      · intro h0
        apply hGne
        refine List.eq_nil_of_length_eq_zero ?_
        rw [← hclen, h0]
        rfl
      · rw [hexp]
        exact harG
      · intro c hc
        exact ⟨(hhom c hc).1, ((hhom c hc).2.1).trans hdtq.symm⟩
  simp only [align_polynomials, Option.bind_eq_bind]
  rw [hstage1, Option.some_bind, hstage2, Option.some_bind, hstage3,
    Option.some_bind]
  exact hstage4

/-- C4: `align_polynomials` is idempotent — applying it to the outputs of a
successful alignment of well-formed inputs returns exactly those outputs
again: same names, same exponent list in the same order, same shape, same
dtype, same coefficients. -/
theorem C4_align_idempotent (polys qs : List PolynomialArray)
    (hW : ∀ p ∈ polys, WF p)
    (h : align_polynomials polys = some qs) :
    align_polynomials qs = some qs :=
  align_on_final (align_final_state hW h)

theorem C4_align_idempotent_witness :
    ((∀ p ∈ [xP, yP], WF p) ∧ align_polynomials [xP, yP] = some [QxP, QyP]) ∧
      align_polynomials [QxP, QyP] = some [QxP, QyP] :=
  ⟨⟨by decide, by decide⟩,
   C4_align_idempotent [xP, yP] [QxP, QyP] (by decide) (by decide)⟩

end Numpoly
